import Mathlib

/-!
# KAString: the small-string-optimised byte buffer `SSOBytes`

A shallow embedding of `include/kastring/detail/sso.hpp`.

* `Byte` is `uint8_t`; byte values are natural numbers (no arithmetic is done on them here).
* `size_t` quantities are lengths of in-memory ranges and are natural numbers; the one-byte
  length counter `sso.len` is a `uint8_t` and every update of it is written with `% 256`.
* The anonymous union `{ sso { data, len }; heap { vec, tag } }` is a record with the three
  members `sso_data`, `heap_vec` and the single byte `tag`, which is the storage shared by
  `sso.len` and `heap.tag` (both sit at offset `sizeof(std::vector<Byte>)`).
* Storage that the C++ leaves uninitialised is supplied by a `junk` function, so every statement
  holds for all initial contents.
* `std::vector<Byte>` is the record `ByteVec` (contents and capacity) with the operations of the
  C++ standard library that the class calls. Allocation is taken to succeed; a request for more
  than `max_size()` elements throws `std::length_error` (`resize_call`, `reserve_call`).
* A range of bytes passed by pointer is given by its contents when it lies outside the object;
  `Source` also has the ranges that lie in the object itself (`append_from`,
  `insert_range_from`, `replace_from` and the functions built on them).
-/

namespace kastring

/-- The type `Byte` of base.hpp (`using Byte = uint8_t`). -/
abbrev Byte := Nat

/-! ## `std::vector<Byte>` -/

/-- A `std::vector<Byte>`: its elements in order and its capacity. -/
structure ByteVec where
  elems : List Byte
  cap : Nat
deriving DecidableEq, Repr

namespace ByteVec

/-- The call `vec.size()`. -/
def size (v : ByteVec) : Nat := v.elems.length

/-- The call `vec.capacity()`. -/
def capacity (v : ByteVec) : Nat := v.cap

/-- Growth rule of a reallocating insertion of `n` elements (`size + max(size, n)`). -/
def grow (v : ByteVec) (n : Nat) : Nat :=
  if v.size + n ≤ v.cap then v.cap else v.size + max v.size n

/-- Range constructor `std::vector<Byte>(first, last)`. -/
def from_range (l : List Byte) : ByteVec := { elems := l, cap := l.length }

/-- Copy constructor `std::vector<Byte>(other)`. -/
def copy (other : ByteVec) : ByteVec := { elems := other.elems, cap := other.elems.length }

/-- Move constructor `std::vector<Byte>(std::move(other))`: the new vector, and `other`
afterwards, which is guaranteed to be empty. -/
def move_ctor (other : ByteVec) : ByteVec × ByteVec := (other, { elems := [], cap := 0 })

/-- Destructor `vec.~vector()`: the storage is released. -/
def dtor (_v : ByteVec) : ByteVec := { elems := [], cap := 0 }

/-- The call `vec.push_back(b)`. -/
def push_back (v : ByteVec) (b : Byte) : ByteVec :=
  { elems := v.elems ++ [b], cap := v.grow 1 }

/-- The call `vec.pop_back()` (the vector is not empty). -/
def pop_back (v : ByteVec) : ByteVec := { v with elems := v.elems.dropLast }

/-- The call `vec.insert(vec.begin() + pos, b)` with `pos ≤ size`. -/
def insert_one (v : ByteVec) (pos : Nat) (b : Byte) : ByteVec :=
  { elems := v.elems.take pos ++ b :: v.elems.drop pos, cap := v.grow 1 }

/-- The call `vec.insert(vec.begin() + pos, first, last)` with `pos ≤ size`. -/
def insert_range (v : ByteVec) (pos : Nat) (l : List Byte) : ByteVec :=
  { elems := v.elems.take pos ++ l ++ v.elems.drop pos, cap := v.grow l.length }

/-- The call `vec.resize(n, val)` for `n ≤ max_size()`, where it returns normally;
`resize_call` is the call for every `n`, with the `std::length_error` of a larger one. -/
def resize (v : ByteVec) (n : Nat) (val : Byte) : ByteVec :=
  if n ≤ v.size then { v with elems := v.elems.take n }
  else { elems := v.elems ++ List.replicate (n - v.size) val, cap := v.grow (n - v.size) }

/-- The call `vec.reserve(n)` for `n ≤ max_size()`, where it returns normally;
`reserve_call` is the call for every `n`, with the `std::length_error` of a larger one. -/
def reserve (v : ByteVec) (n : Nat) : ByteVec :=
  if n > v.cap then { v with cap := n } else v

/-- The call `vec.erase(vec.begin() + pos)` with `pos < size`. -/
def erase_at (v : ByteVec) (pos : Nat) : ByteVec := { v with elems := v.elems.eraseIdx pos }

/-- The call `vec.erase(vec.begin() + from, vec.begin() + to)` with `from ≤ to ≤ size`. -/
def erase_range (v : ByteVec) (from_ to_ : Nat) : ByteVec :=
  { v with elems := v.elems.take from_ ++ v.elems.drop to_ }

/-- The call `vec.clear()`. -/
def clear (v : ByteVec) : ByteVec := { v with elems := [] }

/-- The call `vec.shrink_to_fit()`. -/
def shrink_to_fit (v : ByteVec) : ByteVec := { v with cap := v.size }

/-- The call `vec.assign(first, last)`. -/
def assign (v : ByteVec) (l : List Byte) : ByteVec :=
  { elems := l, cap := if l.length > v.cap then l.length else v.cap }

/-- The statement `vec.erase(std::remove_if(vec.begin(), vec.end(), pred), vec.end())`. -/
def erase_remove_if (v : ByteVec) (pred : Byte → Bool) : ByteVec :=
  { v with elems := v.elems.filter (fun b => !pred b) }

end ByteVec

/-! ## Library routines on raw byte arrays -/

/-- The call `std::memcpy(dst + off, src, n)`, reading `n ≤ |src|` bytes. -/
def memcpy (dst : List Byte) (off : Nat) (src : List Byte) (n : Nat) : List Byte :=
  dst.take off ++ src.take n ++ dst.drop (off + n)

/-- The call `std::fill(a + first, a + last, val)`. -/
def fill (a : List Byte) (first last : Nat) (val : Byte) : List Byte :=
  a.take first ++ List.replicate (last - first) val ++ a.drop last

/-- The conversion `static_cast<char>(b)` of a byte to a `char`; plain `char` is signed, as on
x86-64, so bytes from 128 up become negative. -/
def to_char (b : Byte) : Int :=
  if b % 256 < 128 then (b % 256 : Nat) else ((b % 256 : Nat) : Int) - 256

/-! ## The class `SSOBytes` -/

/-- Modelled from the spec: `sizeof(std::vector<Byte>)`, which the standard library fixes and
the spec describes as the footprint of the pointer, length and capacity fields: three 8-byte
words on a 64-bit platform. -/
def sizeof_vector : Nat := 24

/-- The enumerator `HEAP_VIEW_SIZE = sizeof(std::vector<Byte>) + sizeof(uint8_t)`. -/
def HEAP_VIEW_SIZE : Nat := sizeof_vector + 1

/-- The enumerator `SSO_CAPACITY = HEAP_VIEW_SIZE - 1`. -/
def SSO_CAPACITY : Nat := HEAP_VIEW_SIZE - 1

/-- The enumerator `kHeapFlag = 0x80`. -/
def kHeapFlag : Nat := 0x80

/-- The object representation: the union members `sso.data`, `heap.vec`, and the byte `tag`
that is both `sso.len` and `heap.tag`. -/
structure SSOBytes where
  sso_data : List Byte
  tag : Nat
  heap_vec : ByteVec
deriving DecidableEq, Repr

/-- The exceptions the classes throw. -/
inductive Exception where
  | out_of_range (what : String)
  | runtime_error (what : String)
  | invalid_argument (what : String)
  | length_error (what : String)
deriving DecidableEq, Repr

/-- Result of a member function that may throw: normal return, an exception together with the
object as it is when the exception leaves the function, or undefined behaviour. -/
inductive Outcome (α : Type) where
  | ok (a : α)
  | thrown (e : Exception) (a : α)
  | undefined
deriving DecidableEq, Repr

/-- Storage of an object before any constructor has run: indeterminate bytes. -/
def uninit (junk : Nat → Byte) : SSOBytes :=
  { sso_data := (List.range SSO_CAPACITY).map junk
    tag := junk SSO_CAPACITY % 256
    heap_vec := { elems := [], cap := 0 } }

namespace SSOBytes

/-- Member `is_sso()`. -/
def is_sso (s : SSOBytes) : Bool :=
  let tag_value := s.tag
  (tag_value &&& kHeapFlag) == 0

/-- Member `promote_to_heap()`. -/
def promote_to_heap (s : SSOBytes) : SSOBytes :=
  if !s.is_sso then s
  else
    let tmp := ByteVec.from_range (s.sso_data.take s.tag)
    { s with heap_vec := (ByteVec.move_ctor tmp).1, tag := kHeapFlag }

/-- Member `init_uncheck(p, len)`; `p` is the memory readable at the pointer. -/
def init_uncheck (s : SSOBytes) (p : List Byte) (len : Nat) : SSOBytes :=
  if len ≤ SSO_CAPACITY then
    { s with sso_data := memcpy s.sso_data 0 p len, tag := len % 256 }
  else
    { s with heap_vec := ByteVec.from_range (p.take len), tag := kHeapFlag }

/-- Destructor `~SSOBytes()`. -/
def dtor (s : SSOBytes) : SSOBytes :=
  if !s.is_sso then { s with heap_vec := s.heap_vec.dtor } else s

/-- Default constructor `SSOBytes()`, run on the storage `mem`. -/
def ctor_default (mem : SSOBytes) : SSOBytes := { mem with tag := 0 }

/-- Constructor `SSOBytes(const char* str_p, std::size_t len)`; `none` is the null pointer and
`some src` a pointer to the readable bytes `src`, of which there must be at least `len`. The
overload `SSOBytes(const Byte* p, size_t len)` is `ctor_bytes`. -/
def ctor_ptr (mem : SSOBytes) (p : Option (List Byte)) (len : Nat) : SSOBytes :=
  let s := ctor_default mem
  match p with
  | none => s
  | some src => s.init_uncheck src len

/-- Constructor `SSOBytes(Byte ch)`. -/
def ctor_byte (mem : SSOBytes) (ch : Byte) : SSOBytes :=
  { mem with sso_data := mem.sso_data.set 0 ch, tag := 1 }

/-- Constructors `SSOBytes(const char* cstr)` and `SSOBytes(const std::string& str)`; `str` is
the text without its terminator. -/
def ctor_str (mem : SSOBytes) (str : List Byte) : SSOBytes :=
  ctor_ptr mem (some str) str.length

/-- Constructor `SSOBytes(std::initializer_list<Byte> bs)`. -/
def ctor_list (mem : SSOBytes) (bs : List Byte) : SSOBytes :=
  mem.init_uncheck bs bs.length

/-- Copy constructor `SSOBytes(const SSOBytes& other)`. -/
def ctor_copy (mem : SSOBytes) (other : SSOBytes) : SSOBytes :=
  if other.is_sso then
    { mem with sso_data := memcpy mem.sso_data 0 other.sso_data other.tag, tag := other.tag }
  else
    { mem with heap_vec := ByteVec.copy other.heap_vec, tag := kHeapFlag }

/-- Copy assignment `*this = other` for `this != &other`. -/
def copy_assign (this other : SSOBytes) : SSOBytes :=
  ctor_copy this.dtor other

/-- Move constructor `SSOBytes(SSOBytes&& other)`: the new object and `other` afterwards. -/
def ctor_move (mem : SSOBytes) (other : SSOBytes) : SSOBytes × SSOBytes :=
  if other.is_sso then
    ({ mem with sso_data := memcpy mem.sso_data 0 other.sso_data other.tag, tag := other.tag },
     other)
  else
    let r := ByteVec.move_ctor other.heap_vec
    ({ mem with heap_vec := r.1, tag := kHeapFlag }, { other with heap_vec := r.2 })

/-- Move assignment `*this = std::move(other)` for `this != &other`: `*this` and `other`
afterwards. -/
def move_assign (this other : SSOBytes) : SSOBytes × SSOBytes :=
  ctor_move this.dtor other

/-- Member `size()`. -/
def size (s : SSOBytes) : Nat := if s.is_sso then s.tag else s.heap_vec.size

/-- Member `capacity()`. -/
def capacity (s : SSOBytes) : Nat := if s.is_sso then SSO_CAPACITY else s.heap_vec.capacity

/-- Member `empty()`. -/
def empty (s : SSOBytes) : Bool := s.size == 0

/-- Member `data()`: the array the returned pointer points into. -/
def data (s : SSOBytes) : List Byte := if s.is_sso then s.sso_data else s.heap_vec.elems

/-- The bytes of the range `[begin(), end())`, that is `data()[0 .. size())`. -/
def bytes (s : SSOBytes) : List Byte := s.data.take s.size

/-- Member `operator[](idx)`, `none` for a read outside the array. -/
def index (s : SSOBytes) (idx : Nat) : Option Byte :=
  if s.is_sso then s.sso_data[idx]? else s.heap_vec.elems[idx]?

/-- Member `back()`, `none` for a read outside the array. -/
def back (s : SSOBytes) : Option Byte :=
  if s.is_sso then (if s.tag = 0 then none else s.sso_data[s.tag - 1]?)
  else s.heap_vec.elems.getLast?

/-- Member `front()`, `none` for a read outside the array. -/
def front (s : SSOBytes) : Option Byte :=
  if s.is_sso then s.sso_data[0]? else s.heap_vec.elems.head?

/-- Member `operator==`. -/
def op_eq (s other : SSOBytes) : Bool :=
  if s.size != other.size then false
  else
    let lhs := s.data
    let rhs := other.data
    (List.range s.size).all (fun i => lhs[i]? == rhs[i]?)

/-- Member `operator!=`. -/
def op_ne (s other : SSOBytes) : Bool := !(s.op_eq other)

/-- Member `clear()`. -/
def clear (s : SSOBytes) : SSOBytes :=
  if s.is_sso then { s with tag := 0 } else { s with heap_vec := s.heap_vec.clear }

/-- Member `push_back(byte)`. -/
def push_back (s : SSOBytes) (byte : Byte) : SSOBytes :=
  if s.is_sso then
    if s.tag < SSO_CAPACITY then
      { s with sso_data := s.sso_data.set s.tag byte, tag := (s.tag + 1) % 256 }
    else
      let s1 := s.promote_to_heap
      { s1 with heap_vec := s1.heap_vec.push_back byte }
  else
    { s with heap_vec := s.heap_vec.push_back byte }

/-- Member `pop_back()`. -/
def pop_back (s : SSOBytes) : Outcome SSOBytes :=
  if s.empty then
    .thrown (.runtime_error "SSOBytes::pop_back(): pop on empty SSO") s
  else if s.is_sso then
    .ok { s with tag := (s.tag + 255) % 256 }
  else
    .ok { s with heap_vec := s.heap_vec.pop_back }

/-- Member `append(const Byte* src, std::size_t len)` for a range `[src, src + len)` of memory
outside the storage of the object, given by its contents. The overloads for a C string, an
initializer list and a `std::string` forward to it. `append_from` is the call for every range,
one that lies in the object itself included. -/
def append (s : SSOBytes) (src : List Byte) : SSOBytes :=
  let len := src.length
  if len == 0 then s
  else if s.is_sso && s.tag + len ≤ SSO_CAPACITY then
    { s with sso_data := memcpy s.sso_data s.tag src len, tag := (s.tag + len % 256) % 256 }
  else
    let s1 := s.promote_to_heap
    { s1 with heap_vec := s1.heap_vec.insert_range s1.heap_vec.size src }

/-- Member `insert(std::size_t pos, Byte byte)`. -/
def insert (s : SSOBytes) (pos : Nat) (byte : Byte) : Outcome SSOBytes :=
  if !(pos ≤ s.size) then
    .thrown (.out_of_range "SSOBytes::insert()") s
  else if s.is_sso && s.tag < SSO_CAPACITY then
    -- for (i = sso.len; i > pos; --i) sso.data[i] = sso.data[i - 1];
    let d := ((List.range' (pos + 1) (s.tag - pos)).reverse).foldl
      (fun d i => d.set i (d.getD (i - 1) 0)) s.sso_data
    .ok { s with sso_data := d.set pos byte, tag := (s.tag + 1) % 256 }
  else
    let s1 := s.promote_to_heap
    .ok { s1 with heap_vec := s1.heap_vec.insert_one pos byte }

/-- Member `resize(n, val)` for `n ≤ heap.vec.max_size()`, where it returns normally;
`resize_call` is the call for every `n`. -/
def resize (s : SSOBytes) (n : Nat) (val : Byte) : SSOBytes :=
  if !s.is_sso then
    { s with heap_vec := s.heap_vec.resize n val }
  else if n ≤ SSO_CAPACITY then
    let d := if n > s.tag then fill s.sso_data s.tag n val else s.sso_data
    { s with sso_data := d, tag := n % 256 }
  else
    let s1 := s.promote_to_heap
    { s1 with heap_vec := s1.heap_vec.resize n val }

/-- Member `reserve(n)` for `n ≤ heap.vec.max_size()`, where it returns normally;
`reserve_call` is the call for every `n`. -/
def reserve (s : SSOBytes) (n : Nat) : SSOBytes :=
  if !s.is_sso then
    { s with heap_vec := s.heap_vec.reserve n }
  else if n > SSO_CAPACITY then
    let s1 := s.promote_to_heap
    { s1 with heap_vec := s1.heap_vec.reserve n }
  else s

/-- Member `erase(std::size_t pos)`. In heap form the position is passed to
`std::vector::erase` unchecked, which is undefined for `pos ≥ size()`. -/
def erase (s : SSOBytes) (pos : Nat) : Outcome SSOBytes :=
  if s.is_sso then
    if !(pos < s.tag) then
      .thrown (.out_of_range "SSOBytes::erase()") s
    else
      -- for (i = pos; i + 1 < sso.len; ++i) sso.data[i] = sso.data[i + 1];
      let d := (List.range' pos (s.tag - 1 - pos)).foldl
        (fun d i => d.set i (d.getD (i + 1) 0)) s.sso_data
      .ok { s with sso_data := d, tag := (s.tag + 255) % 256 }
  else
    if pos < s.heap_vec.size then .ok { s with heap_vec := s.heap_vec.erase_at pos }
    else .undefined

/-- Member `erase(std::size_t from, std::size_t to)`. -/
def erase_range (s : SSOBytes) (from_ to_ : Nat) : Outcome SSOBytes :=
  if from_ > to_ || to_ > s.size then
    .thrown (.out_of_range "SSOBytes::erase(from, to)") s
  else
    let count := to_ - from_
    if count == 0 then .ok s
    else if s.is_sso then
      -- for (i = from; i + count < sso.len; ++i) sso.data[i] = sso.data[i + count];
      let d := (List.range' from_ (s.tag - count - from_)).foldl
        (fun d i => d.set i (d.getD (i + count) 0)) s.sso_data
      .ok { s with sso_data := d, tag := (s.tag + (256 - count % 256)) % 256 }
    else
      .ok { s with heap_vec := s.heap_vec.erase_range from_ to_ }

/-- Member `shrink_to_fit()`. -/
def shrink_to_fit (s : SSOBytes) : SSOBytes :=
  if !s.is_sso then { s with heap_vec := s.heap_vec.shrink_to_fit } else s

/-- Member `swap(other)` for `this != &other` (the call returns at once when they are the same
object): `*this` and `other` afterwards. The locals `tmp` start from indeterminate storage. -/
def swap (junk : Nat → Byte) (this other : SSOBytes) : SSOBytes × SSOBytes :=
  if this.is_sso && other.is_sso then
    let tmp0 := (List.range SSO_CAPACITY).map junk
    let tmp_len := this.tag
    let tmp := memcpy tmp0 0 this.sso_data this.tag
    let this_data := memcpy this.sso_data 0 other.sso_data other.tag
    let other_data := memcpy other.sso_data 0 tmp tmp_len
    ({ this with sso_data := this_data, tag := other.tag },
     { other with sso_data := other_data, tag := tmp_len })
  else if !this.is_sso && !other.is_sso then
    ({ this with heap_vec := other.heap_vec }, { other with heap_vec := this.heap_vec })
  else
    -- SSOBytes tmp = std::move(*this); *this = std::move(other); other = std::move(tmp);
    let r1 := ctor_move (uninit junk) this
    let r2 := move_assign r1.2 other
    let r3 := move_assign r2.2 r1.1
    (r2.1, r3.1)

/-- Member template `insert(std::size_t pos, It first, It last)` for a range `[first, last)` of
memory outside the storage of the object; the list is the range converted to bytes.
`insert_range_from` is the call for every range, one that lies in the object itself included. -/
def insert_range (s : SSOBytes) (pos : Nat) (src : List Byte) : Outcome SSOBytes :=
  let count := src.length
  if count == 0 then .ok s
  else if !(pos ≤ s.size) then
    .thrown (.out_of_range "SSOBytes::insert<It>()") s
  else if s.is_sso && s.tag + count ≤ SSO_CAPACITY then
    -- for (i = sso.len; i > pos; --i) sso.data[i + count - 1] = sso.data[i - 1];
    let d1 := ((List.range' (pos + 1) (s.tag - pos)).reverse).foldl
      (fun d i => d.set (i + count - 1) (d.getD (i - 1) 0)) s.sso_data
    -- for (i = 0; i < count; ++i) sso.data[pos + i] = static_cast<Byte>(*first++);
    let d2 := (List.range count).foldl (fun d i => d.set (pos + i) (src.getD i 0)) d1
    .ok { s with sso_data := d2, tag := (s.tag + count % 256) % 256 }
  else
    let s1 := s.promote_to_heap
    .ok { s1 with heap_vec := s1.heap_vec.insert_range pos src }

/-- Member template `remove_if(pred)`. The predicate is given by its value on the integer it is
called with: a `char` in inline form, a `Byte` in heap form. -/
def remove_if (s : SSOBytes) (pred : Int → Bool) : SSOBytes :=
  if s.is_sso then
    -- for (read = 0; read < sso.len; ++read) if (!pred(c)) sso.data[write++] = sso.data[read];
    let r := (List.range s.tag).foldl
      (fun (st : List Byte × Nat) read =>
        let c := to_char (st.1.getD read 0)
        if !pred c then (st.1.set st.2 (st.1.getD read 0), st.2 + 1) else st)
      (s.sso_data, 0)
    { s with sso_data := r.1, tag := r.2 % 256 }
  else
    { s with heap_vec := s.heap_vec.erase_remove_if (fun b => pred (b : Int)) }

/-- Member template `assign(It begin, It end)`; the list is the range `[begin, end)` converted
to bytes. The initializer-list overload forwards to it. -/
def assign (s : SSOBytes) (src : List Byte) : SSOBytes :=
  let n := src.length
  if s.is_sso && n ≤ SSO_CAPACITY then
    -- for (i = 0; i < n; ++i) sso.data[i] = static_cast<Byte>(*(begin++));
    let d := (List.range n).foldl (fun d i => d.set i (src.getD i 0)) s.sso_data
    { s with sso_data := d, tag := n % 256 }
  else
    let s1 := if s.is_sso then s.promote_to_heap else s
    { s1 with heap_vec := s1.heap_vec.assign src }

/-- Representation invariant: the inline array has its `SSO_CAPACITY` slots, and the shared byte
holds either an inline length or the heap flag. -/
def wf (s : SSOBytes) : Prop :=
  s.sso_data.length = SSO_CAPACITY ∧ (s.tag ≤ SSO_CAPACITY ∨ s.tag = kHeapFlag)

instance (s : SSOBytes) : Decidable (wf s) := by
  unfold wf; infer_instance

/-- The public member functions that mutate one object in place, with their arguments. -/
inductive Op where
  | push_back (byte : Byte)
  | pop_back
  | append (src : List Byte)
  | insert (pos : Nat) (byte : Byte)
  | insert_range (pos : Nat) (src : List Byte)
  | erase (pos : Nat)
  | erase_range (from_ to_ : Nat)
  | resize (n : Nat) (val : Byte)
  | reserve (n : Nat)
  | clear
  | assign (src : List Byte)
  | shrink_to_fit
  | remove_if (pred : Int → Bool)

/-- One call of a mutating member function on the object `s`. -/
def apply (s : SSOBytes) : Op → Outcome SSOBytes
  | .push_back byte => .ok (s.push_back byte)
  | .pop_back => s.pop_back
  | .append src => .ok (s.append src)
  | .insert pos byte => s.insert pos byte
  | .insert_range pos src => s.insert_range pos src
  | .erase pos => s.erase pos
  | .erase_range from_ to_ => s.erase_range from_ to_
  | .resize n val => .ok (s.resize n val)
  | .reserve n => .ok (s.reserve n)
  | .clear => .ok s.clear
  | .assign src => .ok (s.assign src)
  | .shrink_to_fit => .ok s.shrink_to_fit
  | .remove_if pred => .ok (s.remove_if pred)

/-- The precondition column of the operations table: the arguments are valid for `s`. -/
def valid (s : SSOBytes) : Op → Bool
  | .pop_back => !s.empty
  | .insert pos _ => decide (pos ≤ s.size)
  | .insert_range pos _ => decide (pos ≤ s.size)
  | .erase pos => decide (pos < s.size)
  | .erase_range from_ to_ => decide (from_ ≤ to_) && decide (to_ ≤ s.size)
  | _ => true

/-- A sequence of calls on one object; a thrown exception leaves the object to the caller, who
goes on with it. `none` when a call has undefined behaviour. -/
def exec (s : SSOBytes) : List Op → Option SSOBytes
  | [] => some s
  | o :: os =>
    match s.apply o with
    | .ok s1 => exec s1 os
    | .thrown _ s1 => exec s1 os
    | .undefined => none

/-- The states an `SSOBytes` object can be in: made by a constructor on fresh storage, then
changed by member calls on it, by assignment to it, or as the other operand of a move or swap. -/
inductive Reachable : SSOBytes → Prop where
  | ctor_default (junk : Nat → Byte) : Reachable (ctor_default (uninit junk))
  | ctor_ptr (junk : Nat → Byte) (p : Option (List Byte)) (len : Nat) :
      (∀ src, p = some src → len ≤ src.length) → Reachable (ctor_ptr (uninit junk) p len)
  | ctor_byte (junk : Nat → Byte) (ch : Byte) : Reachable (ctor_byte (uninit junk) ch)
  | ctor_str (junk : Nat → Byte) (str : List Byte) : Reachable (ctor_str (uninit junk) str)
  | ctor_list (junk : Nat → Byte) (bs : List Byte) : Reachable (ctor_list (uninit junk) bs)
  | ctor_copy (junk : Nat → Byte) {o : SSOBytes} :
      Reachable o → Reachable (ctor_copy (uninit junk) o)
  | ctor_move (junk : Nat → Byte) {o : SSOBytes} :
      Reachable o → Reachable (ctor_move (uninit junk) o).1
  | moved_from (junk : Nat → Byte) {o : SSOBytes} :
      Reachable o → Reachable (ctor_move (uninit junk) o).2
  | call {s s1 : SSOBytes} (op : Op) :
      Reachable s → s.apply op = .ok s1 → Reachable s1
  | call_thrown {s s1 : SSOBytes} (op : Op) (e : Exception) :
      Reachable s → s.apply op = .thrown e s1 → Reachable s1
  | copy_assign {s o : SSOBytes} : Reachable s → Reachable o → Reachable (copy_assign s o)
  | move_assign {s o : SSOBytes} : Reachable s → Reachable o → Reachable (move_assign s o).1
  | move_assigned_from {s o : SSOBytes} :
      Reachable s → Reachable o → Reachable (move_assign s o).2
  | swap (junk : Nat → Byte) {s o : SSOBytes} :
      Reachable s → Reachable o → Reachable (swap junk s o).1
  | swapped_with (junk : Nat → Byte) {s o : SSOBytes} :
      Reachable s → Reachable o → Reachable (swap junk s o).2

end SSOBytes

namespace SSOBytes

/-- Member `at(idx)`: the byte the returned reference refers to, or the exception thrown. The
call writes nothing to the object. -/
def at_ (s : SSOBytes) (idx : Nat) : Except Exception (Option Byte) :=
  if idx ≥ s.size then .error (.out_of_range "SSOBytes::at()")
  else .ok (s.index idx)

/-- The assignment `(*this)[idx] = v` through the reference returned by the non-const
`operator[]` (an index inside the live array). -/
def set_index (s : SSOBytes) (idx : Nat) (v : Byte) : SSOBytes :=
  if s.is_sso then { s with sso_data := s.sso_data.set idx v }
  else { s with heap_vec := { s.heap_vec with elems := s.heap_vec.elems.set idx v } }

end SSOBytes

/-! ## The view `KAStr` -/

/-- The enumerator `knpos = static_cast<std::size_t>(-1)` of base.hpp, with a 64-bit `size_t`. -/
def knpos : Nat := 2 ^ 64 - 1

/-- The conversion of a `char` to `Byte` (`uint8_t`), as in `Byte& r = ...; r = c`. -/
def of_char (c : Int) : Byte := (c % 256).toNat

/-- The call `std::memcmp(a, b, n)`, the bytes compared as `unsigned char`; only the sign of the
result is fixed by the C standard, the value here is the difference of the first bytes that
differ. -/
def memcmp : List Byte → List Byte → Nat → Int
  | _, _, 0 => 0
  | x :: xs, y :: ys, n + 1 => if x = y then memcmp xs ys n else (x : Int) - (y : Int)
  | _, _, _ + 1 => 0

/-- The call `::memmem(hay, hay_len, needle, needle_len)` of glibc: the offset of the first
occurrence of the needle in the haystack, `none` for the null pointer. -/
def memmem (hay needle : List Byte) : Option Nat :=
  if needle.length > hay.length then none
  else (List.range (hay.length - needle.length + 1)).find?
    (fun i => (hay.drop i).take needle.length == needle)

/-- The call `std::lexicographical_compare(a.begin(), a.end(), b.begin(), b.end())`. -/
def lexicographical_compare : List Byte → List Byte → Bool
  | _, [] => false
  | [], _ :: _ => true
  | x :: xs, y :: ys =>
    if x < y then true else if y < x then false else lexicographical_compare xs ys

/-- The class `KAStr`: a read-only view; `data_` (a `ByteSpan`) is the range of bytes viewed. -/
structure KAStr where
  data_ : List Byte
deriving DecidableEq, Repr

namespace KAStr

/-- Member `byte_size()`. -/
def byte_size (s : KAStr) : Nat := s.data_.length

/-- Member `empty()`. -/
def empty (s : KAStr) : Bool := s.data_.length == 0

/-- Member `byte_at(idx)`. -/
def byte_at (s : KAStr) (idx : Nat) : Except Exception Byte :=
  if idx ≥ s.data_.length then .error (.out_of_range "KAStr::byte_at index out of bounds")
  else .ok (s.data_.getD idx 0)

/-- Member `operator[](idx)`, which returns a `char`. -/
def op_index (s : KAStr) (idx : Nat) : Except Exception Int :=
  match s.byte_at idx with
  | .ok b => .ok (to_char b)
  | .error e => .error e

/-- The operator `a < b` on views. -/
def op_lt (a b : KAStr) : Bool := lexicographical_compare a.data_ b.data_

/-- Private member `to_lower_ascii(c)` on a `char`. -/
def to_lower_ascii (c : Int) : Int :=
  if c ≥ 65 ∧ c ≤ 90 then c + (97 - 65) else c

/-- Private member `ascii_equal(a, b, n, case_sensitive)`; the lists are the memory at the two
pointers. -/
def ascii_equal (a b : List Byte) (n : Nat) (case_sensitive : Bool) : Bool :=
  if case_sensitive then memcmp a b n == 0
  else (List.range n).all
    (fun i => to_lower_ascii (to_char (a.getD i 0)) == to_lower_ascii (to_char (b.getD i 0)))

/-- Member `find(substr, case_sensitive)`, the branch compiled on Linux (`::memmem`). -/
def find (s substr : KAStr) (case_sensitive : Bool) : Nat :=
  if substr.byte_size == 0 then 0
  else if substr.byte_size > s.byte_size then knpos
  else if case_sensitive then
    match memmem s.data_ substr.data_ with
    | some i => i
    | none => knpos
  else
    let haystack_len := s.byte_size
    let needle_len := substr.byte_size
    -- for (i = 0; i + needle_len <= haystack_len; ++i) if (ascii_equal(...)) return i;
    match (List.range (haystack_len - needle_len + 1)).find?
      (fun i => ascii_equal (s.data_.drop i) substr.data_ needle_len false) with
    | some i => i
    | none => knpos

/-- Member `rfind(substr, case_sensitive)`. -/
def rfind (s substr : KAStr) (case_sensitive : Bool) : Nat :=
  let haystack_len := s.byte_size
  let needle_len := substr.byte_size
  if needle_len > haystack_len then knpos
  else
    -- for (i = haystack_len - needle_len + 1; i-- > 0;) if (ascii_equal(...)) return i;
    match ((List.range (haystack_len - needle_len + 1)).reverse).find?
      (fun i => ascii_equal (s.data_.drop i) substr.data_ needle_len case_sensitive) with
    | some i => i
    | none => knpos

/-- The bytes of a view are bytes: values below 256. -/
def valid (s : KAStr) : Prop := ∀ b ∈ s.data_, b < 256

instance (s : KAStr) : Decidable (valid s) := by
  unfold valid; infer_instance

/-- Modelled from the spec: ASCII case folding of a byte, the reading of
"ASCII-case-insensitively": the letters `A` to `Z` count as `a` to `z`, every other byte as
itself. -/
def fold_case (b : Nat) : Nat := if 65 ≤ b ∧ b ≤ 90 then b + 32 else b

/-- Modelled from the spec: "`sub` matches `s` at index `i`", the occurrence lies inside `s`
(`i + |sub| ≤ |s|`) and its bytes are those of `sub`, byte for byte when case-sensitive, up to
ASCII case otherwise. -/
def matches_at (s sub : KAStr) (case_sensitive : Bool) (i : Nat) : Prop :=
  i + sub.byte_size ≤ s.byte_size ∧
    if case_sensitive then (s.data_.drop i).take sub.byte_size = sub.data_
    else ((s.data_.drop i).take sub.byte_size).map fold_case = sub.data_.map fold_case

instance (s sub : KAStr) (cs : Bool) (i : Nat) : Decidable (matches_at s sub cs i) := by
  unfold matches_at; infer_instance

/-- State of the loop of `lines()`: the lines found so far, the variable `start`, and whether
the coming index is stepped over by the `++i` in the body. -/
structure LinesState where
  result : List KAStr
  start : Nat
  skip : Bool

/-- The body of the loop of `lines()` at index `i`. -/
def lines_body (s : KAStr) (st : LinesState) (i : Nat) : LinesState :=
  if st.skip then { st with skip := false }
  else if s.data_.getD i 0 == 10 then
    { result := st.result ++ [⟨(s.data_.drop st.start).take (i - st.start)⟩],
      start := i + 1, skip := false }
  else if s.data_.getD i 0 == 13 then
    let len := i - st.start
    if i + 1 < s.byte_size && s.data_.getD (i + 1) 0 == 10 then
      { result := st.result ++ [⟨(s.data_.drop st.start).take len⟩],
        start := i + 2, skip := true }
    else
      { result := st.result ++ [⟨(s.data_.drop st.start).take len⟩],
        start := i + 1, skip := false }
  else st

/-- Member `lines()`. -/
def lines (s : KAStr) : List KAStr :=
  -- for (std::size_t i = 0; i < byte_size(); ++i)
  let st := (List.range s.byte_size).foldl (lines_body s)
    { result := [], start := 0, skip := false }
  if st.start < s.byte_size then
    st.result ++ [⟨(s.data_.drop st.start).take (s.byte_size - st.start)⟩]
  else st.result

/-- Modelled from the spec: what `lines()` returns. The input is read from the left, `cur` is the
segment since the last terminator; a terminator (`\n`, `\r\n` as one, or a lone `\r`) ends
the segment, and the final segment counts only when it is not empty. -/
def lines_spec : List Byte → List Byte → List (List Byte)
  | [], cur => if cur = [] then [] else [cur]
  | b :: rest, cur =>
    if b = 10 then cur :: lines_spec rest []
    else if b = 13 then
      match rest with
      | [] => [cur]
      | c :: rest2 =>
        if c = 10 then cur :: lines_spec rest2 [] else cur :: lines_spec (c :: rest2) []
    else lines_spec rest (cur ++ [b])

/-- The index at which the body of the loop of `lines()` does its next work, seen before the
round `k`. -/
def lines_next (st : LinesState) (k : Nat) : Nat := if st.skip then k + 1 else k

/-- Invariant of the loop of `lines()` before the round `k`: the lines found so far, followed
by what the statement gives for the rest of the input, are the lines of the whole input. -/
def lines_inv (s : KAStr) (k : Nat) (st : LinesState) : Prop :=
  st.start ≤ lines_next st k ∧ lines_next st k ≤ s.byte_size ∧
    st.result.map (fun l => l.data_) ++
        lines_spec (s.data_.drop (lines_next st k))
          ((s.data_.drop st.start).take (lines_next st k - st.start)) =
      lines_spec s.data_ [] ∧
    (∀ l ∈ st.result, ∀ b ∈ l.data_, b ≠ 10 ∧ b ≠ 13) ∧
    (∀ b ∈ (s.data_.drop st.start).take (lines_next st k - st.start), b ≠ 10 ∧ b ≠ 13)

end KAStr

/-! ## The string `KAString` -/

/-- The class `KAString`: its only member is the buffer `data_`. -/
structure KAString where
  data_ : SSOBytes
deriving DecidableEq, Repr

namespace KAString

/-- Constructor `KAString(const char* cstr)`; `str` is the text without its terminator. -/
def ctor_str (junk : Nat → Byte) (str : List Byte) : KAString :=
  { data_ := SSOBytes.ctor_str (uninit junk) str }

/-- Member `byte_size()`. -/
def byte_size (s : KAString) : Nat := s.data_.size

/-- Member `data()`: the array the returned pointer points into. -/
def data (s : KAString) : List Byte := s.data_.data

/-- Member `as_kastr()`: the view `KAStr(data_.data(), data_.size())`. -/
def as_kastr (s : KAString) : KAStr := { data_ := s.data_.data.take s.data_.size }

/-- Member `compare(other)`. -/
def compare (s other : KAString) : Int :=
  if s.byte_size < other.byte_size then -1
  else if s.byte_size > other.byte_size then 1
  else if s.byte_size == 0 then 0
  else
    let n := min s.byte_size other.byte_size
    memcmp s.data other.data n

/-- Member `operator<`. -/
def op_lt (s other : KAString) : Bool := decide (s.compare other < 0)

/-- Member `replace(pos, len, after)` for a view `after` of memory outside the storage of the
string; `pos + len` is computed in `std::size_t` (64 bits). `replace_from` is the call for
every view, one of the string's own bytes included. -/
def replace (s : KAString) (pos len : Nat) (after : KAStr) : Outcome KAString :=
  if pos ≥ s.byte_size || (pos + len) % 2 ^ 64 > s.byte_size then
    .thrown (.out_of_range "KAString::replace(pos, len, after)") s
  else if len == after.byte_size then
    -- for (std::size_t i = 0; i < len; ++i) data_[pos + i] = after[i];
    (List.range len).foldl
      (fun (st : Outcome KAString) i =>
        match st with
        | .ok t =>
          match after.op_index i with
          | .ok c => .ok { data_ := t.data_.set_index (pos + i) (of_char c) }
          | .error e => .thrown e t
        | .thrown e t => .thrown e t
        | .undefined => .undefined)
      (.ok s)
  else
    match s.data_.erase_range pos ((pos + len) % 2 ^ 64) with
    | .ok d1 =>
      match d1.insert_range pos after.data_ with
      | .ok d2 => .ok { data_ := d2 }
      | .thrown e d2 => .thrown e { data_ := d2 }
      | .undefined => .undefined
    | .thrown e d1 => .thrown e { data_ := d1 }
    | .undefined => .undefined

/-- Default constructor `KAString()`, run on indeterminate storage. -/
def ctor_default (junk : Nat → Byte) : KAString :=
  { data_ := SSOBytes.ctor_default (uninit junk) }

/-- Member `chop(n)`. -/
def chop (s : KAString) (n : Nat) : KAString :=
  if n ≥ s.data_.size then { data_ := s.data_.clear }
  else { data_ := s.data_.resize (s.data_.size - n) 0 }

/-- Member `chopped(n)`: the string returned; the function does not write to `*this`. The
range handed to `assign` is `[data_.begin(), data_.end() - n)`. -/
def chopped (junk : Nat → Byte) (s : KAString) (n : Nat) : KAString :=
  let result := ctor_default junk
  if n ≥ s.data_.size then { data_ := result.data_.clear }
  else { data_ := result.data_.assign (s.data_.bytes.take (s.data_.size - n)) }

/-- Member `reserve(cap)`. -/
def reserve (s : KAString) (cap : Nat) : KAString := { data_ := s.data_.reserve cap }

/-- Member `append(const KAStr& strview)`. -/
def append (s : KAString) (strview : KAStr) : KAString :=
  { data_ := s.data_.append strview.data_ }

end KAString

/-- The call `isspace(c)` of the C library in the "C" locale, for a value of `unsigned char`:
space, `\t`, `\n`, `\v`, `\f` and `\r`. -/
def isspace (c : Nat) : Bool := c == 32 || (9 ≤ c && c ≤ 13)

namespace KAStr

/-- The loop `while (i < byte_size() && pred(data_[i])) ++i;`, which `trim_start()` and
`split_whitespace()` run with `isspace` and with its negation. It tests its condition at most
`fuel` times; `none` means that the fuel ran out before the loop ended. -/
def scan_while (s : KAStr) (pred : Byte → Bool) : Nat → Nat → Option Nat
  | 0, _ => none
  | fuel + 1, i =>
    if i < s.byte_size && pred (s.data_.getD i 0) then scan_while s pred fuel (i + 1)
    else some i

/-- Member `trim_start()`; `fuel` bounds the loop. -/
def trim_start (s : KAStr) (fuel : Nat) : Option KAStr :=
  match s.scan_while isspace fuel 0 with
  | some start => some { data_ := (s.data_.drop start).take (s.byte_size - start) }
  | none => none

/-- The loop `while (end > 0 && isspace(data_[end - 1])) --end;` of `trim_end()`, with at most
`fuel` tests of its condition. -/
def trim_end_loop (s : KAStr) : Nat → Nat → Option Nat
  | 0, _ => none
  | fuel + 1, end_ =>
    if end_ > 0 && isspace (s.data_.getD (end_ - 1) 0) then trim_end_loop s fuel (end_ - 1)
    else some end_

/-- Member `trim_end()`; `fuel` bounds the loop. -/
def trim_end (s : KAStr) (fuel : Nat) : Option KAStr :=
  match s.trim_end_loop fuel s.byte_size with
  | some end_ => some { data_ := s.data_.take end_ }
  | none => none

/-- Member `trim()`, that is `trim_start().trim_end()`. -/
def trim (s : KAStr) (fuel : Nat) : Option KAStr :=
  match s.trim_start fuel with
  | some t => t.trim_end fuel
  | none => none

/-- The outer loop of `split_whitespace()`: `fuel` bounds its rounds and `ifuel` each of the
two loops inside. -/
def split_whitespace_loop (s : KAStr) (ifuel : Nat) : Nat → Nat → List KAStr → Option (List KAStr)
  | 0, _, _ => none
  | fuel + 1, start, result =>
    if start < s.byte_size then
      match s.scan_while isspace ifuel start with
      | none => none
      | some start1 =>
        match s.scan_while (fun b => !isspace b) ifuel start1 with
        | none => none
        | some end_ =>
          split_whitespace_loop s ifuel fuel end_
            (if start1 < end_ then
              result ++ [{ data_ := (s.data_.drop start1).take (end_ - start1) }]
            else result)
    else some result

/-- Member `split_whitespace()`; `fuel` bounds the loops. -/
def split_whitespace (s : KAStr) (fuel : Nat) : Option (List KAStr) :=
  s.split_whitespace_loop fuel fuel 0 []

/-- Member `join(parts)` (tail.hpp), through `join(first, last)` on the random-access
iterators of a `std::vector`; the result starts from indeterminate storage. -/
def join (s : KAStr) (junk : Nat → Byte) (parts : List KAStr) : KAString :=
  match parts with
  | [] => KAString.ctor_default junk
  | first :: rest =>
    let result := KAString.ctor_default junk
    let count := parts.length
    let total_size := parts.foldl (fun t p => (t + p.byte_size) % 2 ^ 64) 0
    let total_size := (total_size + (count - 1) * s.byte_size) % 2 ^ 64
    let result := result.reserve total_size
    let result := result.append first
    rest.foldl (fun r p => (r.append s).append p) result

/-- Modelled from the spec: the words of a byte sequence, the maximal runs of bytes that are
not whitespace, in order; `cur` is the word being read. -/
def words_spec : List Byte → List Byte → List (List Byte)
  | [], cur => if cur = [] then [] else [cur]
  | b :: rest, cur =>
    if isspace b then (if cur = [] then words_spec rest [] else cur :: words_spec rest [])
    else words_spec rest (cur ++ [b])

/-- The operator `lhs == rhs` on views. -/
def op_eq (lhs rhs : KAStr) : Bool :=
  if lhs.byte_size != rhs.byte_size then false
  else if lhs.byte_size == 0 then true
  else lhs.byte_size == rhs.byte_size && memcmp lhs.data_ rhs.data_ lhs.byte_size == 0

/-- Member `substr(start, count)`. -/
def substr (s : KAStr) (start count : Nat) : KAStr :=
  if start > s.byte_size then { data_ := [] }
  else { data_ := (s.data_.drop start).take (min count (s.byte_size - start)) }

/-- Member `subrange(start, end)`, the range `[start, end)`. -/
def subrange (s : KAStr) (start end_ : Nat) : KAStr :=
  if start ≥ end_ then { data_ := [] } else s.substr start (end_ - start)

/-- Member `subrange(start)`. -/
def subrange_from (s : KAStr) (start : Nat) : KAStr := s.subrange start s.byte_size

/-- The loop `while (splits < max_splits)` of `split_count()` for a non-empty delimiter, with at
most `fuel` rounds: `pos` and `result` when the loop is left. Sums are taken in `std::size_t`
(64 bits). -/
def split_count_loop (s delim : KAStr) (max_splits : Nat) :
    Nat → Nat → Nat → List KAStr → Option (Nat × List KAStr)
  | 0, _, _, _ => none
  | fuel + 1, pos, splits, result =>
    if splits < max_splits then
      let found := (s.subrange pos s.byte_size).find delim true
      if found == knpos then some (pos, result)
      else
        split_count_loop s delim max_splits fuel
          ((pos + (found + delim.byte_size) % 2 ^ 64) % 2 ^ 64) (splits + 1)
          (result ++ [KAStr.mk ((s.data_.drop pos).take found)])
    else some (pos, result)

/-- Member `split_count(delim, max_splits)`; `fuel` bounds the loop. -/
def split_count (s delim : KAStr) (max_splits fuel : Nat) : Option (List KAStr) :=
  if delim.empty then
    let len := s.byte_size
    let splits := min len max_splits
    -- for (i = 0; i < splits; ++i) result.emplace_back(this->begin() + i, 1);
    let result := (List.range splits).foldl
      (fun (r : List KAStr) i => r ++ [{ data_ := (s.data_.drop i).take 1 }]) []
    some (if splits < len then
        result ++ [{ data_ := (s.data_.drop splits).take (len - splits) }]
      else result)
  else
    match split_count_loop s delim max_splits fuel 0 0 [] with
    | none => none
    | some (pos, result) =>
      some (if pos ≤ s.byte_size then
          result ++ [{ data_ := (s.data_.drop pos).take (s.byte_size - pos) }]
        else result)

/-- Member `split(delim)`. -/
def split (s delim : KAStr) (fuel : Nat) : Option (List KAStr) :=
  s.split_count delim knpos fuel

end KAStr

namespace KAString

/-- Member `simplified()`; `fuel` bounds the loops of `trim()` and `split_whitespace()`. -/
def simplified (s : KAString) (junk : Nat → Byte) (fuel : Nat) : Option KAString :=
  match s.as_kastr.trim fuel with
  | none => none
  | some t =>
    match t.split_whitespace fuel with
    | none => none
    | some parts => some (KAStr.join { data_ := [32] } junk parts)

/-- The loop of `replace_count()` for views `before` and `after` of memory outside the storage
of the string, with at most `fuel` rounds; `none` when the fuel runs out. Sums are taken in
`std::size_t` (64 bits). `replace_count_loop_from` is the loop for every pair of views. -/
def replace_count_loop (before after : KAStr) (max_replace : Nat) (case_sensitive : Bool) :
    Nat → KAString → Nat → Nat → Option (Outcome KAString)
  | 0, _, _, _ => none
  | fuel + 1, s, pos, replaced =>
    if (pos + before.byte_size) % 2 ^ 64 ≤ s.byte_size then
      let found := (s.as_kastr.subrange_from pos).find before case_sensitive
      if found == knpos then some (.ok s)
      else
        let abs_pos := (pos + found) % 2 ^ 64
        match s.replace abs_pos before.byte_size after with
        | .ok s1 =>
          if replaced + 1 ≥ max_replace then some (.ok s1)
          else
            replace_count_loop before after max_replace case_sensitive fuel s1
              ((abs_pos + after.byte_size) % 2 ^ 64) (replaced + 1)
        | .thrown e s1 => some (.thrown e s1)
        | .undefined => some .undefined
    else some (.ok s)

/-- Member `replace_count(before, after, max_replace, case_sensitive)` for views of memory
outside the storage of the string; `fuel` bounds the loop. -/
def replace_count (s : KAString) (before after : KAStr) (max_replace : Nat)
    (case_sensitive : Bool) (fuel : Nat) : Option (Outcome KAString) :=
  if before.empty then some (.ok s)
  else if before.op_eq after || max_replace == 0 then some (.ok s)
  else replace_count_loop before after max_replace case_sensitive fuel s 0 0

/-- Member `replace_all(before, after, case_sensitive)` for views of memory outside the storage
of the string; `replace_all_from` is the call for every pair of views. -/
def replace_all (s : KAString) (before after : KAStr) (case_sensitive : Bool) (fuel : Nat) :
    Option (Outcome KAString) :=
  s.replace_count before after knpos case_sensitive fuel

/-- The statements that `replace_char_if()` and `rreplace_char_if()` both run on a byte at `i`
that satisfies the predicate, for a view `replacement` of memory outside the storage of the
string: a replacement of one byte overwrites it, any other replacement is inserted after the
byte is erased. `put_replacement_from` is the same for every view. -/
def put_replacement (s : KAString) (i : Nat) (replacement : KAStr) : Outcome KAString :=
  if replacement.byte_size == 1 then
    match replacement.op_index 0 with
    | .ok c => .ok { data_ := s.data_.set_index i (of_char c) }
    | .error e => .thrown e s
  else
    match s.data_.erase_range i (i + 1) with
    | .ok d1 =>
      match d1.insert_range i replacement.data_ with
      | .ok d2 => .ok { data_ := d2 }
      | .thrown e d2 => .thrown e { data_ := d2 }
      | .undefined => .undefined
    | .thrown e d1 => .thrown e { data_ := d1 }
    | .undefined => .undefined

/-- The loop of `replace_char_if()` for a view `replacement` of memory outside the storage of
the string, with at most `fuel` rounds; the predicate is given by its value on a `char`. -/
def replace_char_if_loop (pred : Int → Bool) (replacement : KAStr) (max_replace : Nat) :
    Nat → KAString → Nat → Nat → Option (Outcome KAString)
  | 0, _, _, _ => none
  | fuel + 1, s, i, replaced =>
    if i < s.data_.size then
      match s.data_.index i with
      | none => some .undefined
      | some b =>
        if pred (to_char b) then
          match s.put_replacement i replacement with
          | .ok s1 =>
            if replaced + 1 ≥ max_replace then some (.ok s1)
            else
              replace_char_if_loop pred replacement max_replace fuel s1
                (if replacement.byte_size == 1 then i + 1 else i + replacement.byte_size)
                (replaced + 1)
          | .thrown e s1 => some (.thrown e s1)
          | .undefined => some .undefined
        else replace_char_if_loop pred replacement max_replace fuel s (i + 1) replaced
    else some (.ok s)

/-- Member template `replace_char_if(pred, replacement, max_replace)` for a view `replacement`
of memory outside the storage of the string; `fuel` bounds the loop. `replace_char_if_from` is
the call for every view. -/
def replace_char_if (s : KAString) (pred : Int → Bool) (replacement : KAStr)
    (max_replace fuel : Nat) : Option (Outcome KAString) :=
  if max_replace == 0 then some (.ok s)
  else replace_char_if_loop pred replacement max_replace fuel s 0 0

/-- The loop `while (i-- > 0)` of `rreplace_char_if()` for a view `replacement` of memory
outside the storage of the string, with at most `fuel` rounds; `i` is the value before the
test. -/
def rreplace_char_if_loop (pred : Int → Bool) (replacement : KAStr) (max_replace : Nat) :
    Nat → KAString → Nat → Nat → Option (Outcome KAString)
  | 0, _, _, _ => none
  | fuel + 1, s, i, replaced =>
    if i > 0 then
      match s.data_.index (i - 1) with
      | none => some .undefined
      | some b =>
        if pred (to_char b) then
          match s.put_replacement (i - 1) replacement with
          | .ok s1 =>
            if replaced + 1 ≥ max_replace then some (.ok s1)
            else rreplace_char_if_loop pred replacement max_replace fuel s1 (i - 1) (replaced + 1)
          | .thrown e s1 => some (.thrown e s1)
          | .undefined => some .undefined
        else rreplace_char_if_loop pred replacement max_replace fuel s (i - 1) replaced
    else some (.ok s)

/-- Member template `rreplace_char_if(pred, replacement, max_replace)` for a view `replacement`
of memory outside the storage of the string; `fuel` bounds the loop. `rreplace_char_if_from` is
the call for every view. -/
def rreplace_char_if (s : KAString) (pred : Int → Bool) (replacement : KAStr)
    (max_replace fuel : Nat) : Option (Outcome KAString) :=
  if max_replace == 0 then some (.ok s)
  else rreplace_char_if_loop pred replacement max_replace fuel s s.data_.size 0

/-- The string literal `"0123456789abcdefghijklmnopqrstuvwxyz"` that `from_num` names `digits`. -/
def from_num_digits : List Byte :=
  [48, 49, 50, 51, 52, 53, 54, 55, 56, 57, 97, 98, 99, 100, 101, 102, 103, 104, 105, 106, 107,
    108, 109, 110, 111, 112, 113, 114, 115, 116, 117, 118, 119, 120, 121, 122]

/-- The loop `do { *--p = digits[u % base]; u /= base; } while (u > 0);` of `from_num`. The
pointer `p` is given by its index in `buf` and the recursion is on it: every round moves it
down by one, and `none` is the write in front of `buf`, which is undefined. -/
def from_num_loop (base : Nat) : Nat → Nat → List Byte → Option (Nat × List Byte)
  | 0, _, _ => none
  | p + 1, u, buf =>
    if u / base > 0 then
      from_num_loop base p (u / base) (buf.set p (from_num_digits.getD (u % base) 0))
    else some (p, buf.set p (from_num_digits.getD (u % base) 0))

/-- Static member `from_num(int n, int base)`, for values `n` and `base` of `int` (32 bits);
`buf` and the storage of the result start with indeterminate content. The value `none` stands
for undefined behaviour. -/
def from_num (junk junk_buf : Nat → Byte) (n base : Int) : Except Exception (Option KAString) :=
  if base < 2 ∨ base > 36 then
    .error (.invalid_argument
      ("KAString::fromNum(int, int), base must meet: 2 <= base <= 36, got " ++ toString base))
  else
    let buf := (List.range 64).map junk_buf
    let negative := decide (n < 0)
    -- unsigned int u = negative ? -static_cast<unsigned int>(n) : static_cast<unsigned int>(n);
    let u := if negative then (2 ^ 32 - (n % 2 ^ 32).toNat) % 2 ^ 32 else (n % 2 ^ 32).toNat
    match from_num_loop base.toNat 64 u buf with
    | none => .ok none
    | some (p, buf1) =>
      if negative then
        if p = 0 then .ok none
        else
          .ok (some (KAString.mk (SSOBytes.ctor_ptr (uninit junk)
            (some ((buf1.set (p - 1) 45).drop (p - 1))) (64 - (p - 1)))))
      else
        .ok (some (KAString.mk (SSOBytes.ctor_ptr (uninit junk) (some (buf1.drop p)) (64 - p))))

/-- Modelled from the spec: the value of a digit among `0`-`9`, `a`-`z`. -/
def digit_value (c : Byte) : Nat := if c ≤ 57 then c - 48 else c - 97 + 10

/-- Modelled from the spec: the number a sequence of digits stands for in a base, most
significant digit first. -/
def eval_digits (base : Nat) (ds : List Byte) : Nat :=
  ds.foldl (fun acc c => acc * base + digit_value c) 0

end KAString

/-! ## Requests beyond `max_size()` -/

namespace ByteVec

/-- The value of `vec.max_size()` for a vector of bytes: `PTRDIFF_MAX` with a 64-bit
`ptrdiff_t`. -/
def max_size : Nat := 2 ^ 63 - 1

/-- The call `vec.resize(n, val)` for every `n`: growing to more than `max_size()` elements
throws `std::length_error` (the text is that of libstdc++) and leaves the vector as it was.
Below that the allocation is taken to succeed. -/
def resize_call (v : ByteVec) (n : Nat) (val : Byte) : Except Exception ByteVec :=
  if n > max_size then .error (.length_error "vector::_M_fill_insert")
  else .ok (v.resize n val)

/-- The call `vec.reserve(n)` for every `n`: a request for more than `max_size()` elements
throws `std::length_error` (the text is that of libstdc++) and leaves the vector as it was.
Below that the allocation is taken to succeed. -/
def reserve_call (v : ByteVec) (n : Nat) : Except Exception ByteVec :=
  if n > max_size then .error (.length_error "vector::reserve")
  else .ok (v.reserve n)

end ByteVec

namespace SSOBytes

/-- Member `resize(n, val)` for every `n`. An exception of `heap.vec.resize` leaves the
function after `promote_to_heap()` has run. -/
def resize_call (s : SSOBytes) (n : Nat) (val : Byte) : Outcome SSOBytes :=
  if !s.is_sso then
    match s.heap_vec.resize_call n val with
    | .ok v => .ok { s with heap_vec := v }
    | .error e => .thrown e s
  else if n ≤ SSO_CAPACITY then
    let d := if n > s.tag then fill s.sso_data s.tag n val else s.sso_data
    .ok { s with sso_data := d, tag := n % 256 }
  else
    let s1 := s.promote_to_heap
    match s1.heap_vec.resize_call n val with
    | .ok v => .ok { s1 with heap_vec := v }
    | .error e => .thrown e s1

/-- Member `reserve(n)` for every `n`. An exception of `heap.vec.reserve` leaves the function
after `promote_to_heap()` has run. -/
def reserve_call (s : SSOBytes) (n : Nat) : Outcome SSOBytes :=
  if !s.is_sso then
    match s.heap_vec.reserve_call n with
    | .ok v => .ok { s with heap_vec := v }
    | .error e => .thrown e s
  else if n > SSO_CAPACITY then
    let s1 := s.promote_to_heap
    match s1.heap_vec.reserve_call n with
    | .ok v => .ok { s1 with heap_vec := v }
    | .error e => .thrown e s1
  else .ok s

end SSOBytes

/-! ## Ranges that lie in the object itself -/

/-- A range of bytes handed to a member function of an object by pointer, as `[src, src + len)`,
as `[first, last)` or as a view `KAStr`: memory outside the storage of the object, given by its
contents, or the range `[data() + off, data() + off + len)` of the array of the object itself
(`s.as_kastr().substr(off, len)` is one), whose bytes are what the array holds there when they
are read. -/
inductive Source where
  | outside (bytes : List Byte)
  | inside (off len : Nat)
deriving DecidableEq, Repr

namespace Source

/-- The number of bytes of the range (`len`, `last - first`, `byte_size()`). -/
def length : Source → Nat
  | .outside bytes => bytes.length
  | .inside _ len => len

/-- Whether the whole range is memory that can be read when the array of the object is `d`. -/
def within (src : Source) (d : List Byte) : Bool :=
  match src with
  | .outside _ => true
  | .inside off len => decide (off + len ≤ d.length)

/-- The byte read at index `i` of the range when the array of the object is `d`. -/
def read (src : Source) (d : List Byte) (i : Nat) : Byte :=
  match src with
  | .outside bytes => bytes.getD i 0
  | .inside off _ => d.getD (off + i) 0

/-- The bytes of the range when the array of the object is `d`. -/
def bytes (src : Source) (d : List Byte) : List Byte :=
  match src with
  | .outside bytes => bytes
  | .inside off len => (d.drop off).take len

/-- The view `KAStr` of the range, as it reads when the array of the object is `d`. -/
def view (src : Source) (d : List Byte) : KAStr := KAStr.mk (src.bytes d)

/-- Whether the range shares a byte with the `n` bytes from index `start` of the array of the
object. -/
def overlaps (src : Source) (start n : Nat) : Bool :=
  match src with
  | .outside _ => false
  | .inside off len => decide (off < start + n) && decide (start < off + len)

/-- Whether the range is a range of the object itself. -/
def is_inside : Source → Bool
  | .outside _ => false
  | .inside _ _ => true

end Source

namespace SSOBytes

/-- Member `append(const Byte* src, std::size_t len)` for every range. `std::memcpy` is
undefined for ranges that overlap. After `promote_to_heap()` the storage of the inline array
holds the vector, and a range of the vector itself is not a range that `std::vector::insert`
accepts: a range inside the object has no defined bytes on that path. -/
def append_from (s : SSOBytes) (src : Source) : Outcome SSOBytes :=
  let len := src.length
  if len == 0 then .ok s
  else if !src.within s.data then .undefined
  else if s.is_sso && s.tag + len ≤ SSO_CAPACITY then
    if src.overlaps s.tag len then .undefined
    else
      .ok { s with sso_data := memcpy s.sso_data s.tag (src.bytes s.sso_data) len,
                   tag := (s.tag + len % 256) % 256 }
  else
    let s1 := s.promote_to_heap
    match src with
    | .outside bytes =>
      .ok { s1 with heap_vec := s1.heap_vec.insert_range s1.heap_vec.size bytes }
    | .inside _ _ => .undefined

/-- Member template `insert(std::size_t pos, It first, It last)` for every range. On the inline
path a range inside the object is read by the second loop from the array as the first loop left
it. After `promote_to_heap()` the storage of the inline array holds the vector, and a range of
the vector itself is not a range that `std::vector::insert` accepts: a range inside the object
has no defined bytes on that path. -/
def insert_range_from (s : SSOBytes) (pos : Nat) (src : Source) : Outcome SSOBytes :=
  let count := src.length
  if count == 0 then .ok s
  else if !(pos ≤ s.size) then
    .thrown (.out_of_range "SSOBytes::insert<It>()") s
  else if !src.within s.data then .undefined
  else if s.is_sso && s.tag + count ≤ SSO_CAPACITY then
    -- for (i = sso.len; i > pos; --i) sso.data[i + count - 1] = sso.data[i - 1];
    let d1 := ((List.range' (pos + 1) (s.tag - pos)).reverse).foldl
      (fun d i => d.set (i + count - 1) (d.getD (i - 1) 0)) s.sso_data
    -- for (i = 0; i < count; ++i) sso.data[pos + i] = static_cast<Byte>(*first++);
    let d2 := (List.range count).foldl (fun d i => d.set (pos + i) (src.read d i)) d1
    .ok { s with sso_data := d2, tag := (s.tag + count % 256) % 256 }
  else
    let s1 := s.promote_to_heap
    match src with
    | .outside bytes => .ok { s1 with heap_vec := s1.heap_vec.insert_range pos bytes }
    | .inside _ _ => .undefined

end SSOBytes

namespace KAString

/-- Member `replace(pos, len, after)` for every view `after`; `pos + len` is computed in
`std::size_t` (64 bits). The loop reads `after[i]` from the memory as the writes before it left
it. -/
def replace_from (s : KAString) (pos len : Nat) (after : Source) : Outcome KAString :=
  if pos ≥ s.byte_size || (pos + len) % 2 ^ 64 > s.byte_size then
    .thrown (.out_of_range "KAString::replace(pos, len, after)") s
  else if !after.within s.data then .undefined
  else if len == after.length then
    -- for (std::size_t i = 0; i < len; ++i) data_[pos + i] = after[i];
    (List.range len).foldl
      (fun (st : Outcome KAString) i =>
        match st with
        | .ok t =>
          match (after.view t.data).op_index i with
          | .ok c => .ok { data_ := t.data_.set_index (pos + i) (of_char c) }
          | .error e => .thrown e t
        | .thrown e t => .thrown e t
        | .undefined => .undefined)
      (.ok s)
  else
    match s.data_.erase_range pos ((pos + len) % 2 ^ 64) with
    | .ok d1 =>
      match d1.insert_range_from pos after with
      | .ok d2 => .ok { data_ := d2 }
      | .thrown e d2 => .thrown e { data_ := d2 }
      | .undefined => .undefined
    | .thrown e d1 => .thrown e { data_ := d1 }
    | .undefined => .undefined

/-- The loop of `replace_count()` for every pair of views, with at most `fuel` rounds; `none`
when the fuel runs out. Sums are taken in `std::size_t` (64 bits). `find` reads the bytes of
`before` from the memory as it is in that round. A view of the string's own bytes in heap form
does not outlive a replacement that erased from and inserted into the vector (one with
`before.byte_size() != after.byte_size()`): the view lies at or after the place of the first
one, so the read of it in a later round is undefined. -/
def replace_count_loop_from (before after : Source) (max_replace : Nat)
    (case_sensitive : Bool) : Nat → KAString → Nat → Nat → Option (Outcome KAString)
  | 0, _, _, _ => none
  | fuel + 1, s, pos, replaced =>
    if (pos + before.length) % 2 ^ 64 ≤ s.byte_size then
      if before.is_inside && !s.data_.is_sso && replaced != 0 &&
          before.length != after.length then some .undefined
      else if !before.within s.data then some .undefined
      else
        let found := (s.as_kastr.subrange_from pos).find (before.view s.data) case_sensitive
        if found == knpos then some (.ok s)
        else
          let abs_pos := (pos + found) % 2 ^ 64
          match s.replace_from abs_pos before.length after with
          | .ok s1 =>
            if replaced + 1 ≥ max_replace then some (.ok s1)
            else
              replace_count_loop_from before after max_replace case_sensitive fuel s1
                ((abs_pos + after.length) % 2 ^ 64) (replaced + 1)
          | .thrown e s1 => some (.thrown e s1)
          | .undefined => some .undefined
    else some (.ok s)

/-- Member `replace_count(before, after, max_replace, case_sensitive)` for every pair of views;
`fuel` bounds the loop. -/
def replace_count_from (s : KAString) (before after : Source) (max_replace : Nat)
    (case_sensitive : Bool) (fuel : Nat) : Option (Outcome KAString) :=
  if !before.within s.data || !after.within s.data then some .undefined
  else if (before.view s.data).empty then some (.ok s)
  else if (before.view s.data).op_eq (after.view s.data) || max_replace == 0 then some (.ok s)
  else replace_count_loop_from before after max_replace case_sensitive fuel s 0 0

/-- Member `replace_all(before, after, case_sensitive)` for every pair of views. -/
def replace_all_from (s : KAString) (before after : Source) (case_sensitive : Bool)
    (fuel : Nat) : Option (Outcome KAString) :=
  s.replace_count_from before after knpos case_sensitive fuel

/-- The statements that `replace_char_if()` and `rreplace_char_if()` both run on a byte at `i`
that satisfies the predicate, for every view `replacement`: a replacement of one byte
overwrites it, any other replacement is inserted after the byte is erased. -/
def put_replacement_from (s : KAString) (i : Nat) (replacement : Source) : Outcome KAString :=
  if !replacement.within s.data then .undefined
  else if replacement.length == 1 then
    match (replacement.view s.data).op_index 0 with
    | .ok c => .ok { data_ := s.data_.set_index i (of_char c) }
    | .error e => .thrown e s
  else
    match s.data_.erase_range i (i + 1) with
    | .ok d1 =>
      match d1.insert_range_from i replacement with
      | .ok d2 => .ok { data_ := d2 }
      | .thrown e d2 => .thrown e { data_ := d2 }
      | .undefined => .undefined
    | .thrown e d1 => .thrown e { data_ := d1 }
    | .undefined => .undefined

/-- The loop of `replace_char_if()` for every view `replacement`, with at most `fuel` rounds;
the predicate is given by its value on a `char`. -/
def replace_char_if_loop_from (pred : Int → Bool) (replacement : Source) (max_replace : Nat) :
    Nat → KAString → Nat → Nat → Option (Outcome KAString)
  | 0, _, _, _ => none
  | fuel + 1, s, i, replaced =>
    if i < s.data_.size then
      match s.data_.index i with
      | none => some .undefined
      | some b =>
        if pred (to_char b) then
          match s.put_replacement_from i replacement with
          | .ok s1 =>
            if replaced + 1 ≥ max_replace then some (.ok s1)
            else
              replace_char_if_loop_from pred replacement max_replace fuel s1
                (if replacement.length == 1 then i + 1 else i + replacement.length)
                (replaced + 1)
          | .thrown e s1 => some (.thrown e s1)
          | .undefined => some .undefined
        else replace_char_if_loop_from pred replacement max_replace fuel s (i + 1) replaced
    else some (.ok s)

/-- Member template `replace_char_if(pred, replacement, max_replace)` for every view
`replacement`; `fuel` bounds the loop. -/
def replace_char_if_from (s : KAString) (pred : Int → Bool) (replacement : Source)
    (max_replace fuel : Nat) : Option (Outcome KAString) :=
  if max_replace == 0 then some (.ok s)
  else replace_char_if_loop_from pred replacement max_replace fuel s 0 0

/-- The loop `while (i-- > 0)` of `rreplace_char_if()` for every view `replacement`, with at
most `fuel` rounds; `i` is the value before the test. -/
def rreplace_char_if_loop_from (pred : Int → Bool) (replacement : Source)
    (max_replace : Nat) : Nat → KAString → Nat → Nat → Option (Outcome KAString)
  | 0, _, _, _ => none
  | fuel + 1, s, i, replaced =>
    if i > 0 then
      match s.data_.index (i - 1) with
      | none => some .undefined
      | some b =>
        if pred (to_char b) then
          match s.put_replacement_from (i - 1) replacement with
          | .ok s1 =>
            if replaced + 1 ≥ max_replace then some (.ok s1)
            else
              rreplace_char_if_loop_from pred replacement max_replace fuel s1 (i - 1)
                (replaced + 1)
          | .thrown e s1 => some (.thrown e s1)
          | .undefined => some .undefined
        else rreplace_char_if_loop_from pred replacement max_replace fuel s (i - 1) replaced
    else some (.ok s)

/-- Member template `rreplace_char_if(pred, replacement, max_replace)` for every view
`replacement`; `fuel` bounds the loop. -/
def rreplace_char_if_from (s : KAString) (pred : Int → Bool) (replacement : Source)
    (max_replace fuel : Nat) : Option (Outcome KAString) :=
  if max_replace == 0 then some (.ok s)
  else rreplace_char_if_loop_from pred replacement max_replace fuel s s.data_.size 0

end KAString

/-! ## The constructor from a pointer to bytes -/

/-- The call `std::strlen(p)` on the memory readable at `p`: the index of its first zero byte;
`none` when it holds none, and the scan runs past its end. -/
def strlen : List Byte → Option Nat
  | [] => none
  | b :: rest =>
    if b == 0 then some 0
    else
      match strlen rest with
      | some n => some (n + 1)
      | none => none

/-- Result of a constructor call that holds an `assert`: the object, the call of `std::abort()`
by an assertion that failed, or undefined behaviour. -/
inductive Construction where
  | done (s : SSOBytes)
  | aborted
  | undefined
deriving DecidableEq, Repr

namespace SSOBytes

/-- Constructor `SSOBytes(const Byte* p, size_t len)`, which `KAString(const Byte*, size_t)`
and `KAString(const KAStr&)` call; `none` is the null pointer and `some src` a pointer to the
readable bytes `src`. `ndebug` tells whether the macro `NDEBUG` is defined: the block under
`#ifndef NDEBUG` is compiled when it is not, which is the build without options. -/
def ctor_bytes (ndebug : Bool) (mem : SSOBytes) (p : Option (List Byte)) (len : Nat) :
    Construction :=
  let s := ctor_default mem
  match p with
  | none => .done s
  | some src =>
    if ndebug then .done (s.init_uncheck src len)
    else
      -- std::size_t p_len = std::strlen(reinterpret_cast<const char*>(p));
      match strlen src with
      | none => .undefined
      | some p_len =>
        -- if (len > p_len) { ...; assert(false); }
        if len > p_len then .aborted
        else .done (s.init_uncheck src len)

end SSOBytes

end kastring

/-! ## Basic facts -/

namespace kastring

open SSOBytes

theorem SSO_CAPACITY_eq : SSO_CAPACITY = 24 := rfl

theorem land_flag_of_le {n : Nat} (h : n ≤ SSO_CAPACITY) : n &&& kHeapFlag = 0 := by
  rw [SSO_CAPACITY_eq] at h
  interval_cases n <;> rfl

theorem is_sso_of_le {s : SSOBytes} (h : s.tag ≤ SSO_CAPACITY) : s.is_sso = true := by
  simp [is_sso, land_flag_of_le h]

theorem is_sso_of_flag {s : SSOBytes} (h : s.tag = kHeapFlag) : s.is_sso = false := by
  simp [is_sso, h, kHeapFlag]

theorem wf_inline {s : SSOBytes} (h : s.wf) (hs : s.is_sso = true) : s.tag ≤ SSO_CAPACITY := by
  rcases h.2 with h | h
  · exact h
  · rw [is_sso_of_flag h] at hs; cases hs

theorem wf_heap {s : SSOBytes} (h : s.wf) (hs : s.is_sso = false) : s.tag = kHeapFlag := by
  rcases h.2 with h | h
  · rw [is_sso_of_le h] at hs; cases hs
  · exact h

theorem size_inline {s : SSOBytes} (hs : s.is_sso = true) : s.size = s.tag := by
  simp [size, hs]

theorem size_heap {s : SSOBytes} (hs : s.is_sso = false) : s.size = s.heap_vec.elems.length := by
  simp [size, hs, ByteVec.size]

theorem bytes_inline {s : SSOBytes} (hs : s.is_sso = true) :
    s.bytes = s.sso_data.take s.tag := by
  simp [bytes, data, size, hs]

theorem bytes_heap {s : SSOBytes} (hs : s.is_sso = false) : s.bytes = s.heap_vec.elems := by
  simp [bytes, data, size, hs, ByteVec.size]

theorem length_bytes {s : SSOBytes} (h : s.wf) : s.bytes.length = s.size := by
  cases hs : s.is_sso
  · rw [bytes_heap hs, size_heap hs]
  · rw [bytes_inline hs, size_inline hs, List.length_take, h.1]
    exact Nat.min_eq_left (wf_inline h hs)

theorem take_succ_set {l : List Byte} {n : Nat} (b : Byte) (h : n < l.length) :
    (l.set n b).take (n + 1) = l.take n ++ [b] := by
  have e : (l.set n b).take n = l.take n := by
    apply List.ext_getElem?
    intro i
    rw [List.getElem?_take, List.getElem?_take]
    split
    · rw [List.getElem?_set_ne (by omega)]
    · rfl
  rw [List.take_succ, e]
  simp [List.getElem?_set, h]

theorem push_back_spec (s : SSOBytes) (b : Byte) (h : s.wf) :
    (s.push_back b).wf ∧ (s.push_back b).bytes = s.bytes ++ [b] ∧
      ((s.push_back b).is_sso = true ↔ (s.is_sso = true ∧ s.size < SSO_CAPACITY)) := by
  cases hs : s.is_sso
  · have ht := wf_heap h hs
    have e : s.push_back b = { s with heap_vec := s.heap_vec.push_back b } := by
      simp [push_back, hs]
    have hs1 : (s.push_back b).is_sso = false := by rw [e]; exact is_sso_of_flag ht
    refine ⟨?_, ?_, ?_⟩
    · rw [e]; exact ⟨h.1, h.2⟩
    · rw [bytes_heap hs1, bytes_heap hs, e]; rfl
    · simp [hs1]
  · have ht := wf_inline h hs
    by_cases hc : s.tag < SSO_CAPACITY
    · have hm : (s.tag + 1) % 256 = s.tag + 1 := by
        rw [SSO_CAPACITY_eq] at hc; omega
      have e : s.push_back b =
          { s with sso_data := s.sso_data.set s.tag b, tag := s.tag + 1 } := by
        simp [push_back, hs, hc, hm]
      have hs1 : (s.push_back b).is_sso = true := by
        rw [e]; exact is_sso_of_le (Nat.succ_le_of_lt hc)
      refine ⟨?_, ?_, ?_⟩
      · rw [e]; exact ⟨by simpa using h.1, Or.inl (Nat.succ_le_of_lt hc)⟩
      · rw [bytes_inline hs1, bytes_inline hs, e]
        exact take_succ_set b (by rw [h.1]; exact hc)
      · simp [hs1, size_inline hs, hc]
    · have e : s.push_back b =
          { s with heap_vec := ⟨s.sso_data.take s.tag ++ [b],
              (ByteVec.from_range (s.sso_data.take s.tag)).grow 1⟩, tag := kHeapFlag } := by
        simp [push_back, hs, hc, promote_to_heap, ByteVec.move_ctor, ByteVec.push_back,
          ByteVec.from_range]
      have hs1 : (s.push_back b).is_sso = false := by rw [e]; exact is_sso_of_flag rfl
      refine ⟨?_, ?_, ?_⟩
      · rw [e]; exact ⟨h.1, Or.inr rfl⟩
      · rw [bytes_heap hs1, bytes_inline hs, e]
      · simp [hs1, size_inline hs, hc]

theorem foldl_push_back_spec (l : List Byte) :
    ∀ s : SSOBytes, s.wf →
      (l.foldl push_back s).wf ∧ (l.foldl push_back s).bytes = s.bytes ++ l ∧
        ((l.foldl push_back s).is_sso = true ↔
          (s.is_sso = true ∧ s.size + l.length ≤ SSO_CAPACITY)) := by
  induction l with
  | nil =>
    intro s h
    refine ⟨h, by simp, ?_⟩
    constructor
    · intro hs
      have hs0 : s.is_sso = true := hs
      exact ⟨hs0, by rw [size_inline hs0]; exact wf_inline h hs0⟩
    · intro hs; exact hs.1
  | cons b l ih =>
    intro s h
    obtain ⟨h1, h2, h3⟩ := push_back_spec s b h
    obtain ⟨g1, g2, g3⟩ := ih (s.push_back b) h1
    have hsz : (s.push_back b).size = s.size + 1 := by
      rw [← length_bytes h1, h2, List.length_append, length_bytes h]; rfl
    refine ⟨g1, ?_, ?_⟩
    · rw [List.foldl_cons, g2, h2]; simp
    · rw [List.foldl_cons, g3, h3, hsz, List.length_cons]
      constructor
      · rintro ⟨⟨a, _⟩, c⟩; exact ⟨a, by omega⟩
      · rintro ⟨a, c⟩; exact ⟨⟨a, by omega⟩, by omega⟩

theorem wf_uninit (junk : Nat → Byte) : (uninit junk).sso_data.length = SSO_CAPACITY := by
  simp [uninit]

theorem wf_ctor_default {mem : SSOBytes} (h : mem.sso_data.length = SSO_CAPACITY) :
    (ctor_default mem).wf :=
  ⟨h, Or.inl (Nat.zero_le _)⟩

theorem back_eq_getLast? {s : SSOBytes} (h : s.wf) : s.back = s.bytes.getLast? := by
  cases hs : s.is_sso
  · rw [bytes_heap hs]; simp [back, hs]
  · rw [bytes_inline hs]
    have ht := wf_inline h hs
    by_cases h0 : s.tag = 0
    · simp [back, hs, h0]
    · have hlen : (List.take s.tag s.sso_data).length = s.tag := by
        rw [List.length_take, h.1]; exact Nat.min_eq_left ht
      rw [List.getLast?_eq_getElem?, hlen, List.getElem?_take_of_lt (by omega)]
      simp [back, hs, h0]

/-! ## The representation invariant is preserved -/

theorem length_foldl_set {ι : Type} (g : ι → Nat) (v : List Byte → ι → Byte) (l : List ι) :
    ∀ d : List Byte, (l.foldl (fun d i => d.set (g i) (v d i)) d).length = d.length := by
  induction l with
  | nil => intro d; rfl
  | cons a l ih => intro d; rw [List.foldl_cons, ih]; simp

theorem length_memcpy {dst src : List Byte} {off n : Nat} (h1 : n ≤ src.length)
    (h2 : off + n ≤ dst.length) : (memcpy dst off src n).length = dst.length := by
  simp only [memcpy, List.length_append, List.length_take, List.length_drop]
  omega

theorem length_fill {a : List Byte} {first last : Nat} (val : Byte) (h1 : first ≤ last)
    (h2 : last ≤ a.length) : (fill a first last val).length = a.length := by
  simp only [fill, List.length_append, List.length_take, List.length_drop,
    List.length_replicate]
  omega

theorem wf_of_heap_update {s : SSOBytes} (h : s.wf) (v : ByteVec) :
    ({ s with heap_vec := v } : SSOBytes).wf := ⟨h.1, h.2⟩

theorem promote_heap {s : SSOBytes} (hs : s.is_sso = false) : s.promote_to_heap = s := by
  simp [promote_to_heap, hs]

theorem promote_inline {s : SSOBytes} (hs : s.is_sso = true) :
    s.promote_to_heap =
      { s with heap_vec := ByteVec.from_range (s.sso_data.take s.tag), tag := kHeapFlag } := by
  simp [promote_to_heap, hs, ByteVec.move_ctor]

theorem is_sso_promote (s : SSOBytes) : s.promote_to_heap.is_sso = false := by
  cases hs : s.is_sso
  · rw [promote_heap hs]; exact hs
  · rw [promote_inline hs]; exact is_sso_of_flag rfl

theorem wf_promote {s : SSOBytes} (h : s.wf) : s.promote_to_heap.wf := by
  cases hs : s.is_sso
  · rw [promote_heap hs]; exact h
  · rw [promote_inline hs]; exact ⟨h.1, Or.inr rfl⟩

theorem wf_promote_update {s : SSOBytes} (h : s.wf) (v : ByteVec) :
    ({ s.promote_to_heap with heap_vec := v } : SSOBytes).wf :=
  wf_of_heap_update (wf_promote h) v

theorem wf_push_back {s : SSOBytes} (h : s.wf) (b : Byte) : (s.push_back b).wf :=
  (push_back_spec s b h).1

theorem wf_clear {s : SSOBytes} (h : s.wf) : s.clear.wf := by
  cases hs : s.is_sso
  · simp only [clear, hs]; exact wf_of_heap_update h _
  · simp only [clear, hs]; exact ⟨h.1, Or.inl (Nat.zero_le _)⟩

theorem wf_pop_back {s s1 : SSOBytes} (h : s.wf) (e : s.pop_back = .ok s1) : s1.wf := by
  unfold pop_back at e
  split at e
  · cases e
  · rename_i hne
    split at e
    · rename_i hs
      have ht := wf_inline h hs
      have h0 : s.tag ≠ 0 := by
        intro h0; apply hne; simp [empty, size_inline hs, h0]
      have hC := SSO_CAPACITY_eq
      cases e
      exact ⟨h.1, Or.inl (by show (s.tag + 255) % 256 ≤ SSO_CAPACITY; omega)⟩
    · cases e; exact wf_of_heap_update h _

theorem wf_append {s : SSOBytes} (h : s.wf) (src : List Byte) : (s.append src).wf := by
  unfold append
  simp only
  split
  · exact h
  · split
    · rename_i hc
      simp only [Bool.and_eq_true, decide_eq_true_eq] at hc
      have hC := SSO_CAPACITY_eq
      refine ⟨?_, Or.inl ?_⟩
      · show (memcpy s.sso_data s.tag src src.length).length = SSO_CAPACITY
        rw [length_memcpy (Nat.le_refl _) (by rw [h.1]; exact hc.2), h.1]
      · show (s.tag + src.length % 256) % 256 ≤ SSO_CAPACITY
        omega
    · exact wf_promote_update h _

theorem wf_insert {s s1 : SSOBytes} (h : s.wf) {pos : Nat} {b : Byte}
    (e : s.insert pos b = .ok s1) : s1.wf := by
  unfold SSOBytes.insert at e
  split at e
  · cases e
  · split at e
    · rename_i hc
      simp only [Bool.and_eq_true, decide_eq_true_eq] at hc
      have hC := SSO_CAPACITY_eq
      cases e
      refine ⟨?_, Or.inl ?_⟩
      · show (List.set _ pos b).length = SSO_CAPACITY
        rw [List.length_set, length_foldl_set, h.1]
      · show (s.tag + 1) % 256 ≤ SSO_CAPACITY
        omega
    · cases e; exact wf_promote_update h _

theorem wf_resize {s : SSOBytes} (h : s.wf) (n : Nat) (val : Byte) : (s.resize n val).wf := by
  unfold resize
  split
  · exact wf_of_heap_update h _
  · split
    · rename_i hn
      have hC := SSO_CAPACITY_eq
      refine ⟨?_, Or.inl ?_⟩
      · show (if n > s.tag then fill s.sso_data s.tag n val else s.sso_data).length = _
        split
        · rename_i hgt
          rw [length_fill val (Nat.le_of_lt hgt) (by rw [h.1]; exact hn), h.1]
        · exact h.1
      · show n % 256 ≤ SSO_CAPACITY
        omega
    · exact wf_promote_update h _

theorem wf_reserve {s : SSOBytes} (h : s.wf) (n : Nat) : (s.reserve n).wf := by
  unfold reserve
  split
  · exact wf_of_heap_update h _
  · split
    · exact wf_promote_update h _
    · exact h

theorem wf_erase {s s1 : SSOBytes} (h : s.wf) {pos : Nat} (e : s.erase pos = .ok s1) :
    s1.wf := by
  unfold erase at e
  split at e
  · rename_i hs
    split at e
    · cases e
    · rename_i hp
      simp only [Bool.not_eq_true', decide_eq_false_iff_not, not_not] at hp
      have ht := wf_inline h hs
      have hC := SSO_CAPACITY_eq
      cases e
      refine ⟨?_, Or.inl ?_⟩
      · show (List.foldl _ s.sso_data _).length = SSO_CAPACITY
        rw [length_foldl_set, h.1]
      · show (s.tag + 255) % 256 ≤ SSO_CAPACITY
        omega
  · split at e
    · cases e; exact wf_of_heap_update h _
    · cases e

theorem wf_erase_range {s s1 : SSOBytes} (h : s.wf) {from_ to_ : Nat}
    (e : s.erase_range from_ to_ = .ok s1) : s1.wf := by
  unfold erase_range at e
  split at e
  · cases e
  · rename_i hb
    simp only [Bool.or_eq_true, decide_eq_true_eq, not_or, not_lt] at hb
    simp only at e
    split at e
    · cases e; exact h
    · split at e
      · rename_i hs
        have ht := wf_inline h hs
        have hsz := size_inline hs
        have hC := SSO_CAPACITY_eq
        cases e
        refine ⟨?_, Or.inl ?_⟩
        · show (List.foldl _ s.sso_data _).length = SSO_CAPACITY
          rw [length_foldl_set, h.1]
        · show (s.tag + (256 - (to_ - from_) % 256)) % 256 ≤ SSO_CAPACITY
          omega
      · cases e; exact wf_of_heap_update h _

theorem wf_shrink_to_fit {s : SSOBytes} (h : s.wf) : s.shrink_to_fit.wf := by
  unfold shrink_to_fit
  split
  · exact wf_of_heap_update h _
  · exact h

theorem wf_insert_range {s s1 : SSOBytes} (h : s.wf) {pos : Nat} {src : List Byte}
    (e : s.insert_range pos src = .ok s1) : s1.wf := by
  unfold SSOBytes.insert_range at e
  simp only at e
  split at e
  · cases e; exact h
  · split at e
    · cases e
    · split at e
      · rename_i hc
        simp only [Bool.and_eq_true, decide_eq_true_eq] at hc
        have hC := SSO_CAPACITY_eq
        cases e
        refine ⟨?_, Or.inl ?_⟩
        · show (List.foldl _ (List.foldl _ s.sso_data _) _).length = SSO_CAPACITY
          rw [length_foldl_set, length_foldl_set, h.1]
        · show (s.tag + src.length % 256) % 256 ≤ SSO_CAPACITY
          omega
      · cases e; exact wf_promote_update h _

theorem remove_if_loop_spec (pred : Int → Bool) (l : List Nat) :
    ∀ st : List Byte × Nat,
      (l.foldl (fun (st : List Byte × Nat) read =>
          if !pred (to_char (st.1.getD read 0)) then
            (st.1.set st.2 (st.1.getD read 0), st.2 + 1) else st) st).1.length = st.1.length ∧
      (l.foldl (fun (st : List Byte × Nat) read =>
          if !pred (to_char (st.1.getD read 0)) then
            (st.1.set st.2 (st.1.getD read 0), st.2 + 1) else st) st).2 ≤ st.2 + l.length := by
  induction l with
  | nil => intro st; simp
  | cons a l ih =>
    intro st
    rw [List.foldl_cons]
    split
    · obtain ⟨h1, h2⟩ := ih (st.1.set st.2 (st.1.getD a 0), st.2 + 1)
      refine ⟨by rw [h1]; simp, ?_⟩
      simp only [List.length_cons] at h2 ⊢
      omega
    · obtain ⟨h1, h2⟩ := ih st
      refine ⟨h1, ?_⟩
      simp only [List.length_cons]
      omega

theorem wf_remove_if {s : SSOBytes} (h : s.wf) (pred : Int → Bool) : (s.remove_if pred).wf := by
  unfold remove_if
  split
  · rename_i hs
    have ht := wf_inline h hs
    have hC := SSO_CAPACITY_eq
    obtain ⟨h1, h2⟩ := remove_if_loop_spec pred (List.range s.tag) (s.sso_data, 0)
    simp only [List.length_range, Nat.zero_add] at h1 h2
    refine ⟨?_, Or.inl ?_⟩
    · simp only
      rw [h1, h.1]
    · simp only
      omega
  · exact wf_of_heap_update h _

theorem wf_assign {s : SSOBytes} (h : s.wf) (src : List Byte) : (s.assign src).wf := by
  unfold assign
  simp only
  split
  · rename_i hc
    simp only [Bool.and_eq_true, decide_eq_true_eq] at hc
    have hC := SSO_CAPACITY_eq
    refine ⟨?_, Or.inl ?_⟩
    · show (List.foldl _ s.sso_data _).length = SSO_CAPACITY
      rw [length_foldl_set, h.1]
    · show src.length % 256 ≤ SSO_CAPACITY
      omega
  · split
    · exact wf_promote_update h _
    · exact wf_of_heap_update h _

theorem apply_thrown {s s1 : SSOBytes} {op : Op} {e : Exception}
    (h : s.apply op = .thrown e s1) : s1 = s := by
  cases op <;> simp only [apply] at h
  case pop_back =>
    unfold pop_back at h
    split at h
    · cases h; rfl
    · split at h <;> cases h
  case insert pos b =>
    unfold SSOBytes.insert at h
    split at h
    · cases h; rfl
    · split at h <;> cases h
  case insert_range pos src =>
    unfold SSOBytes.insert_range at h
    simp only at h
    split at h
    · cases h
    · split at h
      · cases h; rfl
      · split at h <;> cases h
  case erase pos =>
    unfold erase at h
    split at h
    · split at h
      · cases h; rfl
      · cases h
    · split at h <;> cases h
  case erase_range from_ to_ =>
    unfold erase_range at h
    split at h
    · cases h; rfl
    · simp only at h
      split at h
      · cases h
      · split at h <;> cases h
  all_goals cases h

theorem wf_apply {s s1 : SSOBytes} (h : s.wf) {op : Op} (e : s.apply op = .ok s1) : s1.wf := by
  cases op <;> simp only [apply] at e
  case push_back b => cases e; exact wf_push_back h b
  case pop_back => exact wf_pop_back h e
  case append src => cases e; exact wf_append h src
  case insert pos b => exact wf_insert h e
  case insert_range pos src => exact wf_insert_range h e
  case erase pos => exact wf_erase h e
  case erase_range from_ to_ => exact wf_erase_range h e
  case resize n val => cases e; exact wf_resize h n val
  case reserve n => cases e; exact wf_reserve h n
  case clear => cases e; exact wf_clear h
  case assign src => cases e; exact wf_assign h src
  case shrink_to_fit => cases e; exact wf_shrink_to_fit h
  case remove_if pred => cases e; exact wf_remove_if h pred

/-! ## Constructors, assignment and swap -/

theorem take_memcpy_zero {dst src : List Byte} {n : Nat} (h : n ≤ src.length) :
    (memcpy dst 0 src n).take n = src.take n := by
  have hl : (src.take n).length = n := by rw [List.length_take]; exact Nat.min_eq_left h
  simp only [memcpy, List.take_zero, List.nil_append]
  rw [List.take_append_of_le_length (by rw [hl]), List.take_take, Nat.min_self]

theorem init_uncheck_spec (mem : SSOBytes) (hm : mem.sso_data.length = SSO_CAPACITY)
    {p : List Byte} {len : Nat} (hl : len ≤ p.length) :
    (mem.init_uncheck p len).wf ∧ (mem.init_uncheck p len).size = len ∧
      (mem.init_uncheck p len).bytes = p.take len ∧
      ((mem.init_uncheck p len).is_sso = true ↔ len ≤ SSO_CAPACITY) := by
  have hC := SSO_CAPACITY_eq
  by_cases hc : len ≤ SSO_CAPACITY
  · have hmod : len % 256 = len := by omega
    have e : mem.init_uncheck p len =
        { mem with sso_data := memcpy mem.sso_data 0 p len, tag := len } := by
      simp [init_uncheck, hc, hmod]
    have hs : (mem.init_uncheck p len).is_sso = true := by rw [e]; exact is_sso_of_le hc
    refine ⟨?_, ?_, ?_, ?_⟩
    · rw [e]
      exact ⟨by
        show (memcpy mem.sso_data 0 p len).length = SSO_CAPACITY
        rw [length_memcpy hl (by omega), hm], Or.inl hc⟩
    · rw [size_inline hs, e]
    · rw [bytes_inline hs, e]; exact take_memcpy_zero hl
    · simp [hs, hc]
  · have e : mem.init_uncheck p len =
        { mem with heap_vec := ByteVec.from_range (p.take len), tag := kHeapFlag } := by
      simp [init_uncheck, hc]
    have hs : (mem.init_uncheck p len).is_sso = false := by rw [e]; exact is_sso_of_flag rfl
    refine ⟨?_, ?_, ?_, ?_⟩
    · rw [e]; exact ⟨hm, Or.inr rfl⟩
    · rw [size_heap hs, e]
      show (p.take len).length = len
      rw [List.length_take]; exact Nat.min_eq_left hl
    · rw [bytes_heap hs, e]; rfl
    · simp [hs, hc]

theorem wf_ctor_ptr {mem : SSOBytes} (hm : mem.sso_data.length = SSO_CAPACITY)
    {p : Option (List Byte)} {len : Nat} (hl : ∀ src, p = some src → len ≤ src.length) :
    (ctor_ptr mem p len).wf := by
  cases p with
  | none => exact wf_ctor_default hm
  | some src => exact (init_uncheck_spec (ctor_default mem) hm (hl src rfl)).1

theorem wf_ctor_byte {mem : SSOBytes} (hm : mem.sso_data.length = SSO_CAPACITY) (ch : Byte) :
    (ctor_byte mem ch).wf := by
  refine ⟨?_, Or.inl ?_⟩
  · show (mem.sso_data.set 0 ch).length = SSO_CAPACITY
    rw [List.length_set, hm]
  · show 1 ≤ SSO_CAPACITY
    rw [SSO_CAPACITY_eq]; omega

theorem length_dtor (s : SSOBytes) : s.dtor.sso_data.length = s.sso_data.length := by
  unfold dtor; split <;> rfl

theorem ctor_copy_spec (mem : SSOBytes) {other : SSOBytes} (hm : mem.sso_data.length = SSO_CAPACITY)
    (ho : other.wf) :
    (ctor_copy mem other).wf ∧ (ctor_copy mem other).bytes = other.bytes ∧
      (ctor_copy mem other).is_sso = other.is_sso := by
  cases hs : other.is_sso
  · have e : ctor_copy mem other =
        { mem with heap_vec := ByteVec.copy other.heap_vec, tag := kHeapFlag } := by
      simp [ctor_copy, hs]
    have hs1 : (ctor_copy mem other).is_sso = false := by rw [e]; exact is_sso_of_flag rfl
    refine ⟨?_, ?_, hs1⟩
    · rw [e]; exact ⟨hm, Or.inr rfl⟩
    · rw [bytes_heap hs1, bytes_heap hs, e]; rfl
  · have ht := wf_inline ho hs
    have e : ctor_copy mem other =
        { mem with sso_data := memcpy mem.sso_data 0 other.sso_data other.tag,
                   tag := other.tag } := by
      simp [ctor_copy, hs]
    have hs1 : (ctor_copy mem other).is_sso = true := by rw [e]; exact is_sso_of_le ht
    have hle : other.tag ≤ other.sso_data.length := by rw [ho.1]; exact ht
    refine ⟨?_, ?_, hs1⟩
    · rw [e]
      exact ⟨by
        show (memcpy mem.sso_data 0 other.sso_data other.tag).length = SSO_CAPACITY
        rw [length_memcpy hle (by rw [hm]; omega), hm], Or.inl ht⟩
    · rw [bytes_inline hs1, bytes_inline hs, e]; exact take_memcpy_zero hle

theorem ctor_move_spec (mem : SSOBytes) {other : SSOBytes} (hm : mem.sso_data.length = SSO_CAPACITY)
    (ho : other.wf) :
    (ctor_move mem other).1.wf ∧ (ctor_move mem other).1.bytes = other.bytes ∧
      (ctor_move mem other).1.is_sso = other.is_sso := by
  cases hs : other.is_sso
  · have e : (ctor_move mem other).1 =
        { mem with heap_vec := other.heap_vec, tag := kHeapFlag } := by
      simp [ctor_move, hs, ByteVec.move_ctor]
    have hs1 : (ctor_move mem other).1.is_sso = false := by rw [e]; exact is_sso_of_flag rfl
    refine ⟨?_, ?_, hs1⟩
    · rw [e]; exact ⟨hm, Or.inr rfl⟩
    · rw [bytes_heap hs1, bytes_heap hs, e]
  · have ht := wf_inline ho hs
    have e : (ctor_move mem other).1 =
        { mem with sso_data := memcpy mem.sso_data 0 other.sso_data other.tag,
                   tag := other.tag } := by
      simp [ctor_move, hs]
    have hs1 : (ctor_move mem other).1.is_sso = true := by rw [e]; exact is_sso_of_le ht
    have hle : other.tag ≤ other.sso_data.length := by rw [ho.1]; exact ht
    refine ⟨?_, ?_, hs1⟩
    · rw [e]
      exact ⟨by
        show (memcpy mem.sso_data 0 other.sso_data other.tag).length = SSO_CAPACITY
        rw [length_memcpy hle (by rw [hm]; omega), hm], Or.inl ht⟩
    · rw [bytes_inline hs1, bytes_inline hs, e]; exact take_memcpy_zero hle

theorem ctor_move_snd_inline {mem other : SSOBytes} (hs : other.is_sso = true) :
    (ctor_move mem other).2 = other := by
  simp [ctor_move, hs]

theorem ctor_move_snd_heap {mem other : SSOBytes} (hs : other.is_sso = false) :
    (ctor_move mem other).2 = { other with heap_vec := ⟨[], 0⟩ } := by
  simp [ctor_move, hs, ByteVec.move_ctor]

theorem wf_ctor_move_snd {mem other : SSOBytes} (ho : other.wf) : (ctor_move mem other).2.wf := by
  cases hs : other.is_sso
  · rw [ctor_move_snd_heap hs]; exact wf_of_heap_update ho _
  · rw [ctor_move_snd_inline hs]; exact ho

theorem copy_assign_spec {this other : SSOBytes} (ht : this.wf) (ho : other.wf) :
    (copy_assign this other).wf ∧ (copy_assign this other).bytes = other.bytes ∧
      (copy_assign this other).is_sso = other.is_sso :=
  ctor_copy_spec _ (by rw [length_dtor]; exact ht.1) ho

theorem move_assign_spec {this other : SSOBytes} (ht : this.wf) (ho : other.wf) :
    (move_assign this other).1.wf ∧ (move_assign this other).1.bytes = other.bytes ∧
      (move_assign this other).1.is_sso = other.is_sso :=
  ctor_move_spec _ (by rw [length_dtor]; exact ht.1) ho

theorem wf_move_assign_snd {this other : SSOBytes} (ho : other.wf) :
    (move_assign this other).2.wf :=
  wf_ctor_move_snd ho

theorem swap_spec (junk : Nat → Byte) {a b : SSOBytes} (ha : a.wf) (hb : b.wf) :
    (swap junk a b).1.wf ∧ (swap junk a b).2.wf ∧
      (swap junk a b).1.bytes = b.bytes ∧ (swap junk a b).1.is_sso = b.is_sso ∧
      (swap junk a b).2.bytes = a.bytes ∧ (swap junk a b).2.is_sso = a.is_sso := by
  unfold swap
  split
  · rename_i hc
    simp only [Bool.and_eq_true] at hc
    obtain ⟨hsa, hsb⟩ := hc
    have hta := wf_inline ha hsa
    have htb := wf_inline hb hsb
    have hla : a.tag ≤ a.sso_data.length := by rw [ha.1]; exact hta
    have hlb : b.tag ≤ b.sso_data.length := by rw [hb.1]; exact htb
    have hj : ((List.range SSO_CAPACITY).map junk).length = SSO_CAPACITY := by simp
    have htmp : (memcpy ((List.range SSO_CAPACITY).map junk) 0 a.sso_data a.tag).length
        = SSO_CAPACITY := by
      rw [length_memcpy hla (by rw [hj]; omega), hj]
    have hs1 : ({ a with sso_data := memcpy a.sso_data 0 b.sso_data b.tag,
                         tag := b.tag } : SSOBytes).is_sso = true := is_sso_of_le htb
    have hs2 : ({ b with sso_data := memcpy b.sso_data 0
                           (memcpy ((List.range SSO_CAPACITY).map junk) 0 a.sso_data a.tag) a.tag,
                         tag := a.tag } : SSOBytes).is_sso = true := is_sso_of_le hta
    refine ⟨⟨?_, Or.inl htb⟩, ⟨?_, Or.inl hta⟩, ?_, ?_, ?_, ?_⟩
    · show (memcpy a.sso_data 0 b.sso_data b.tag).length = SSO_CAPACITY
      rw [length_memcpy hlb (by rw [ha.1]; omega), ha.1]
    · show (memcpy b.sso_data 0 _ a.tag).length = SSO_CAPACITY
      rw [length_memcpy (by rw [htmp]; exact hta) (by rw [hb.1]; omega), hb.1]
    · rw [bytes_inline hs1, bytes_inline hsb]; exact take_memcpy_zero hlb
    · rw [hs1, hsb]
    · rw [bytes_inline hs2, bytes_inline hsa]
      show (memcpy b.sso_data 0 _ a.tag).take a.tag = _
      rw [take_memcpy_zero (by rw [htmp]; exact hta), take_memcpy_zero hla]
    · rw [hs2, hsa]
  · split
    · rename_i hc
      simp only [Bool.and_eq_true, Bool.not_eq_true'] at hc
      obtain ⟨hsa, hsb⟩ := hc
      have hs1 : ({ a with heap_vec := b.heap_vec } : SSOBytes).is_sso = false := hsa
      have hs2 : ({ b with heap_vec := a.heap_vec } : SSOBytes).is_sso = false := hsb
      refine ⟨wf_of_heap_update ha _, wf_of_heap_update hb _, ?_, ?_, ?_, ?_⟩
      · rw [bytes_heap hs1, bytes_heap hsb]
      · rw [hs1, hsb]
      · rw [bytes_heap hs2, bytes_heap hsa]
      · rw [hs2, hsa]
    · have hj : (uninit junk).sso_data.length = SSO_CAPACITY := wf_uninit junk
      obtain ⟨w1, b1, f1⟩ := ctor_move_spec (uninit junk) hj ha
      have w1' : (ctor_move (uninit junk) a).2.wf := wf_ctor_move_snd ha
      obtain ⟨w2, b2, f2⟩ := move_assign_spec w1' hb
      have w2' : (move_assign (ctor_move (uninit junk) a).2 b).2.wf := wf_move_assign_snd hb
      obtain ⟨w3, b3, f3⟩ := move_assign_spec w2' w1
      exact ⟨w2, w3, b2, f2, b3.trans b1, f3.trans f1⟩

theorem wf_of_reachable {s : SSOBytes} (h : Reachable s) : s.wf := by
  induction h with
  | ctor_default junk => exact wf_ctor_default (wf_uninit junk)
  | ctor_ptr junk p len hl => exact wf_ctor_ptr (wf_uninit junk) hl
  | ctor_byte junk ch => exact wf_ctor_byte (wf_uninit junk) ch
  | ctor_str junk str =>
    exact wf_ctor_ptr (wf_uninit junk) (by intro src h; cases h; exact Nat.le_refl _)
  | ctor_list junk bs => exact (init_uncheck_spec _ (wf_uninit junk) (Nat.le_refl _)).1
  | ctor_copy junk _ ih => exact (ctor_copy_spec _ (wf_uninit junk) ih).1
  | ctor_move junk _ ih => exact (ctor_move_spec _ (wf_uninit junk) ih).1
  | moved_from junk _ ih => exact wf_ctor_move_snd ih
  | call op _ e ih => exact wf_apply ih e
  | call_thrown op e _ he ih => rw [apply_thrown he]; exact ih
  | copy_assign _ _ ih1 ih2 => exact (copy_assign_spec ih1 ih2).1
  | move_assign _ _ ih1 ih2 => exact (move_assign_spec ih1 ih2).1
  | move_assigned_from _ _ _ ih2 => exact wf_move_assign_snd ih2
  | swap junk _ _ ih1 ih2 => exact (swap_spec junk ih1 ih2).1
  | swapped_with junk _ _ ih1 ih2 => exact (swap_spec junk ih1 ih2).2.1

theorem op_eq_iff_index (a b : SSOBytes) :
    a.op_eq b = true ↔ (a.size = b.size ∧ ∀ i, i < a.size → a.index i = b.index i) := by
  have hi : ∀ (s : SSOBytes) (i : Nat), s.index i = s.data[i]? := by
    intro s i; unfold index data; split <;> rfl
  unfold op_eq
  by_cases hsz : a.size = b.size
  · simp only [hsz, bne_self_eq_false, Bool.false_eq_true, if_false, List.all_eq_true,
      List.mem_range, beq_iff_eq, true_and, hi]
  · simp [hsz]

theorem bytes_eq_iff_index {a b : SSOBytes} (ha : a.wf) (hb : b.wf) :
    a.bytes = b.bytes ↔ (a.size = b.size ∧ ∀ i, i < a.size → a.index i = b.index i) := by
  have hi : ∀ (s : SSOBytes) (i : Nat), s.index i = s.data[i]? := by
    intro s i; unfold index data; split <;> rfl
  constructor
  · intro h
    have hsz : a.size = b.size := by rw [← length_bytes ha, ← length_bytes hb, h]
    refine ⟨hsz, fun i hlt => ?_⟩
    have h1 : a.bytes[i]? = a.data[i]? := List.getElem?_take_of_lt hlt
    have h2 : b.bytes[i]? = b.data[i]? := List.getElem?_take_of_lt (hsz ▸ hlt)
    rw [hi, hi, ← h1, ← h2, h]
  · rintro ⟨hsz, h⟩
    apply List.ext_getElem?
    intro i
    unfold bytes
    rw [List.getElem?_take, List.getElem?_take, ← hsz]
    split
    · rename_i hlt
      rw [← hi, ← hi]; exact h i hlt
    · rfl

theorem op_eq_iff_bytes {a b : SSOBytes} (ha : a.wf) (hb : b.wf) :
    a.op_eq b = true ↔ a.bytes = b.bytes := by
  rw [op_eq_iff_index, bytes_eq_iff_index ha hb]

theorem is_sso_heap_update {s : SSOBytes} (v : ByteVec) :
    ({ s with heap_vec := v } : SSOBytes).is_sso = s.is_sso := rfl

theorem apply_heap {s s1 : SSOBytes} {op : Op} (hs : s.is_sso = false)
    (e : s.apply op = .ok s1) : s1.is_sso = false := by
  cases op <;> simp only [apply] at e
  case push_back b => cases e; simp [push_back, hs, is_sso_heap_update]
  case pop_back =>
    unfold pop_back at e
    split at e
    · cases e
    · simp only [hs, Bool.false_eq_true, if_false] at e
      cases e; exact hs
  case append src =>
    cases e
    unfold append
    simp only [hs, Bool.false_and, Bool.false_eq_true, if_false]
    split
    · exact hs
    · exact is_sso_promote s
  case insert pos b =>
    unfold SSOBytes.insert at e
    split at e
    · cases e
    · simp only [hs, Bool.false_and, Bool.false_eq_true, if_false] at e
      cases e; exact is_sso_promote s
  case insert_range pos src =>
    unfold SSOBytes.insert_range at e
    simp only [hs, Bool.false_and, Bool.false_eq_true, if_false] at e
    split at e
    · cases e; exact hs
    · split at e
      · cases e
      · cases e; exact is_sso_promote s
  case erase pos =>
    unfold erase at e
    simp only [hs, Bool.false_eq_true, if_false] at e
    split at e
    · cases e; exact hs
    · cases e
  case erase_range from_ to_ =>
    unfold erase_range at e
    split at e
    · cases e
    · simp only [hs, Bool.false_eq_true, if_false] at e
      split at e
      · cases e; exact hs
      · cases e; exact hs
  case resize n val => cases e; simp [resize, hs, is_sso_heap_update]
  case reserve n => cases e; simp [reserve, hs, is_sso_heap_update]
  case clear => cases e; simp [clear, hs, is_sso_heap_update]
  case assign src => cases e; simp [assign, hs, is_sso_heap_update]
  case shrink_to_fit => cases e; simp [shrink_to_fit, hs, is_sso_heap_update]
  case remove_if pred => cases e; simp [remove_if, hs, is_sso_heap_update]

theorem apply_valid {s : SSOBytes} {op : Op} (hs : s.is_sso = false)
    (hv : valid s op = true) : ∃ s1, s.apply op = .ok s1 := by
  have hsz := size_heap hs
  cases op <;> simp only [apply, valid, decide_eq_true_eq, Bool.and_eq_true,
    Bool.not_eq_true'] at hv ⊢
  case pop_back => unfold pop_back; simp [hv, hs]
  case insert pos b => unfold SSOBytes.insert; simp [hv, hs]
  case insert_range pos src =>
    unfold SSOBytes.insert_range
    simp only [hs, Bool.false_and, Bool.false_eq_true, if_false, hv, decide_True, Bool.not_true]
    split <;> exact ⟨_, rfl⟩
  case erase pos =>
    unfold erase
    rw [hsz] at hv
    simp [hs, ByteVec.size, hv]
  case erase_range from_ to_ =>
    unfold erase_range
    have h1 : ¬ from_ > to_ := by omega
    have h2 : ¬ to_ > s.size := by omega
    simp only [h1, h2, decide_False, Bool.or_self, Bool.false_eq_true, if_false, hs]
    split <;> exact ⟨_, rfl⟩
  all_goals exact ⟨_, rfl⟩

theorem exec_heap (ops : List Op) :
    ∀ s s1 : SSOBytes, s.is_sso = false → exec s ops = some s1 → s1.is_sso = false := by
  induction ops with
  | nil => intro s s1 hs e; simp only [exec, Option.some.injEq] at e; rw [← e]; exact hs
  | cons op ops ih =>
    intro s s1 hs e
    simp only [exec] at e
    split at e
    · rename_i s2 h2; exact ih s2 s1 (apply_heap hs h2) e
    · rename_i ex s2 h2; rw [apply_thrown h2] at e; exact ih s s1 hs e
    · cases e

/-! ## The claims -/

/-- C1: starting from a default-constructed buffer (on storage with any initial contents), after
the bytes of `l` have been appended one at a time with `push_back`, `size()` is the number of
bytes pushed, the stored bytes are `l` in order, `is_sso()` holds exactly when that number is at
most `SSO_CAPACITY`, and `back()` is the last byte pushed. -/
theorem push_back_from_default (junk : Nat → Byte) (l : List Byte) :
    (l.foldl push_back (ctor_default (uninit junk))).size = l.length ∧
      (l.foldl push_back (ctor_default (uninit junk))).bytes = l ∧
      ((l.foldl push_back (ctor_default (uninit junk))).is_sso = true ↔
        l.length ≤ SSO_CAPACITY) ∧
      (l.foldl push_back (ctor_default (uninit junk))).back = l.getLast? := by
  have h0 : (ctor_default (uninit junk)).wf := wf_ctor_default (wf_uninit junk)
  have hs0 : (ctor_default (uninit junk)).is_sso = true := is_sso_of_le (Nat.zero_le _)
  have hb0 : (ctor_default (uninit junk)).bytes = [] := by
    rw [bytes_inline hs0]; rfl
  have hz0 : (ctor_default (uninit junk)).size = 0 := by rw [size_inline hs0]; rfl
  obtain ⟨h1, h2, h3⟩ := foldl_push_back_spec l _ h0
  rw [hb0, List.nil_append] at h2
  refine ⟨?_, h2, ?_, ?_⟩
  · rw [← length_bytes h1, h2]
  · rw [h3, hz0, Nat.zero_add]; simp [hs0]
  · rw [back_eq_getLast? h1, h2]

/-- C2: in every state an object can reach from a constructor through member calls, assignments
and swaps, a buffer in inline form has `size() ≤ SSO_CAPACITY`. -/
theorem inline_size_le_capacity {s : SSOBytes} (h : Reachable s) (hs : s.is_sso = true) :
    s.size ≤ SSO_CAPACITY := by
  rw [size_inline hs]
  exact wf_inline (wf_of_reachable h) hs

theorem inline_size_le_capacity_witness :
    (ctor_str (uninit (fun _ => 0)) [104, 105]).is_sso = true ∧
      (ctor_str (uninit (fun _ => 0)) [104, 105]).size ≤ SSO_CAPACITY :=
  ⟨by decide, inline_size_le_capacity (Reachable.ctor_str _ _) (by decide)⟩

/-- C3: on a buffer in heap form every in-place mutating call with valid arguments returns
normally and leaves the buffer in heap form, a call that throws leaves it in heap form too, and
this is so even when the call leaves no bytes: `clear()`, `resize(0)`, `assign` of an empty
range and erasing every byte. -/
theorem heap_form_is_kept (s : SSOBytes) (hs : s.is_sso = false) :
    (∀ op, valid s op = true → ∃ s1, s.apply op = .ok s1 ∧ s1.is_sso = false) ∧
      (∀ op e s1, s.apply op = .thrown e s1 → s1.is_sso = false) ∧
      (s.clear.size = 0 ∧ s.clear.is_sso = false) ∧
      (∀ val, (s.resize 0 val).size = 0 ∧ (s.resize 0 val).is_sso = false) ∧
      ((s.assign []).size = 0 ∧ (s.assign []).is_sso = false) ∧
      (∃ s1, s.erase_range 0 s.size = .ok s1 ∧ s1.size = 0 ∧ s1.is_sso = false) := by
  refine ⟨?_, ?_, ?_, ?_, ?_, ?_⟩
  · intro op hv
    obtain ⟨s1, e⟩ := apply_valid hs hv
    exact ⟨s1, e, apply_heap hs e⟩
  · intro op e s1 h
    rw [apply_thrown h]; exact hs
  · have e : s.clear = { s with heap_vec := s.heap_vec.clear } := by simp [clear, hs]
    have h1 : s.clear.is_sso = false := by rw [e]; exact hs
    exact ⟨by rw [size_heap h1, e]; rfl, h1⟩
  · intro val
    have e : s.resize 0 val = { s with heap_vec := s.heap_vec.resize 0 val } := by
      simp [resize, hs]
    have h1 : (s.resize 0 val).is_sso = false := by rw [e]; exact hs
    exact ⟨by rw [size_heap h1, e]; simp [ByteVec.resize], h1⟩
  · have e : s.assign [] = { s with heap_vec := s.heap_vec.assign [] } := by
      simp [assign, hs]
    have h1 : (s.assign []).is_sso = false := by rw [e]; exact hs
    exact ⟨by rw [size_heap h1, e]; rfl, h1⟩
  · by_cases h0 : s.size = 0
    · refine ⟨s, ?_, h0, hs⟩
      simp [erase_range, h0]
    · refine ⟨{ s with heap_vec := s.heap_vec.erase_range 0 s.size }, ?_, ?_, hs⟩
      · simp [erase_range, h0, hs]
      · have h1 : ({ s with heap_vec := s.heap_vec.erase_range 0 s.size } : SSOBytes).is_sso
            = false := hs
        rw [size_heap h1, size_heap hs]
        simp [ByteVec.erase_range]

theorem heap_form_is_kept_witness :
    (ctor_str (uninit (fun _ => 0)) (List.replicate 30 120)).is_sso = false ∧
      (ctor_str (uninit (fun _ => 0)) (List.replicate 30 120)).clear.size = 0 ∧
      (ctor_str (uninit (fun _ => 0)) (List.replicate 30 120)).clear.is_sso = false :=
  ⟨by decide, (heap_form_is_kept _ (by decide)).2.2.1⟩

/-- C4, as stated, fails: a buffer in heap form (25 bytes) that is swapped with, copy-assigned
from or move-assigned from an inline buffer is in inline form afterwards. -/
theorem heap_object_becomes_inline :
    (ctor_str (uninit (fun _ => 0)) (List.replicate 25 97)).is_sso = false ∧
      (swap (fun _ => 0) (ctor_str (uninit (fun _ => 0)) (List.replicate 25 97))
        (ctor_str (uninit (fun _ => 0)) [97, 98, 99])).1.is_sso = true ∧
      (copy_assign (ctor_str (uninit (fun _ => 0)) (List.replicate 25 97))
        (ctor_str (uninit (fun _ => 0)) [97, 98, 99])).is_sso = true ∧
      (move_assign (ctor_str (uninit (fun _ => 0)) (List.replicate 25 97))
        (ctor_str (uninit (fun _ => 0)) [97, 98, 99])).1.is_sso = true := by
  decide

/-- C4, amended: over every sequence of in-place member calls on one object (`push_back`,
`pop_back`, `append`, `insert`, `erase`, `resize`, `reserve`, `clear`, `assign`,
`shrink_to_fit`, `remove_if`), once `is_sso()` is false it stays false; copy assignment, move
assignment and `swap(other)` give the object the form of the other operand. -/
theorem heap_form_is_monotonic (s s1 : SSOBytes) (ops : List Op) (hs : s.is_sso = false)
    (he : exec s ops = some s1) :
    s1.is_sso = false ∧
      ∀ (o : SSOBytes) (junk : Nat → Byte),
        (copy_assign s1 o).is_sso = o.is_sso ∧ (move_assign s1 o).1.is_sso = o.is_sso ∧
          (swap junk s1 o).1.is_sso = o.is_sso := by
  have h1 := exec_heap ops s s1 hs he
  refine ⟨h1, fun o junk => ?_⟩
  have hcopy : ∀ mem : SSOBytes, (ctor_copy mem o).is_sso = o.is_sso := by
    intro mem
    cases ho : o.is_sso
    · simp only [ctor_copy, ho]; exact is_sso_of_flag rfl
    · simp only [ctor_copy, ho]; exact ho
  have hmove : ∀ mem : SSOBytes, (ctor_move mem o).1.is_sso = o.is_sso := by
    intro mem
    cases ho : o.is_sso
    · simp only [ctor_move, ho]; exact is_sso_of_flag rfl
    · simp only [ctor_move, ho]; exact ho
  refine ⟨hcopy _, hmove _, ?_⟩
  cases ho : o.is_sso
  · have e : swap junk s1 o =
        ({ s1 with heap_vec := o.heap_vec }, { o with heap_vec := s1.heap_vec }) := by
      simp [swap, h1, ho]
    rw [e]; exact h1
  · have e : swap junk s1 o =
        ((move_assign (ctor_move (uninit junk) s1).2 o).1,
          (move_assign (move_assign (ctor_move (uninit junk) s1).2 o).2
            (ctor_move (uninit junk) s1).1).1) := by
      simp [swap, h1, ho]
    rw [e]
    show (move_assign (ctor_move (uninit junk) s1).2 o).1.is_sso = true
    rw [← ho]; exact hmove _

theorem heap_form_is_monotonic_witness :
    (ctor_str (uninit (fun _ => 0)) (List.replicate 25 97)).is_sso = false ∧
      ((ctor_str (uninit (fun _ => 0)) (List.replicate 25 97)).clear.push_back 1).is_sso
        = false :=
  ⟨by decide,
    (heap_form_is_monotonic (ctor_str (uninit (fun _ => 0)) (List.replicate 25 97))
      ((ctor_str (uninit (fun _ => 0)) (List.replicate 25 97)).clear.push_back 1)
      [Op.clear, Op.push_back 1] (by decide) rfl).1⟩

/-- C5: `promote_to_heap` on a buffer in inline form yields heap form with the same size and the
same bytes in the same order; on a buffer already in heap form it changes nothing at all, so it
is idempotent, and a promoting call that does nothing else (`reserve`) leaves the bytes, the
size and the form of a heap buffer as they are. -/
theorem promote_to_heap_preserves (s : SSOBytes) (h : s.wf) :
    s.promote_to_heap.is_sso = false ∧ s.promote_to_heap.size = s.size ∧
      s.promote_to_heap.bytes = s.bytes ∧
      (s.is_sso = false → s.promote_to_heap = s) ∧
      s.promote_to_heap.promote_to_heap = s.promote_to_heap ∧
      (s.is_sso = false → ∀ n, (s.reserve n).bytes = s.bytes ∧ (s.reserve n).size = s.size ∧
        (s.reserve n).is_sso = false) := by
  have hp := is_sso_promote s
  have hb : s.promote_to_heap.bytes = s.bytes := by
    cases hs : s.is_sso
    · rw [promote_heap hs]
    · rw [bytes_heap hp, bytes_inline hs, promote_inline hs]; rfl
  refine ⟨hp, ?_, hb, promote_heap, promote_heap hp, ?_⟩
  · rw [← length_bytes (wf_promote h), hb, length_bytes h]
  · intro hs n
    have hr : (s.reserve n).is_sso = false := by
      simp [reserve, hs, is_sso_heap_update]
    have hbr : (s.reserve n).bytes = s.bytes := by
      rw [bytes_heap hr, bytes_heap hs]
      simp only [reserve, hs, Bool.not_false, if_true, ByteVec.reserve]
      split <;> rfl
    exact ⟨hbr, by rw [← length_bytes (wf_reserve h n), hbr, length_bytes h], hr⟩

theorem promote_to_heap_preserves_witness :
    (ctor_str (uninit (fun _ => 0)) [97, 98, 99]).wf ∧
      (ctor_str (uninit (fun _ => 0)) [97, 98, 99]).is_sso = true ∧
      (ctor_str (uninit (fun _ => 0)) [97, 98, 99]).promote_to_heap.is_sso = false ∧
      (ctor_str (uninit (fun _ => 0)) [97, 98, 99]).promote_to_heap.bytes =
        (ctor_str (uninit (fun _ => 0)) [97, 98, 99]).bytes :=
  ⟨by decide, by decide,
    (promote_to_heap_preserves _ (by decide)).1, (promote_to_heap_preserves _ (by decide)).2.2.1⟩

/-- The overload `SSOBytes(const char*, std::size_t)`: constructing from a non-null pointer to
at least `len` readable bytes gives a buffer with `size() == len` whose bytes are the first
`len` source bytes in order, in inline form if and only if `len ≤ SSO_CAPACITY`. -/
theorem ctor_ptr_spec (junk : Nat → Byte) (src : List Byte) (len : Nat)
    (h : len ≤ src.length) :
    (ctor_ptr (uninit junk) (some src) len).size = len ∧
      (ctor_ptr (uninit junk) (some src) len).bytes = src.take len ∧
      ((ctor_ptr (uninit junk) (some src) len).is_sso = true ↔ len ≤ SSO_CAPACITY) :=
  (init_uncheck_spec (ctor_default (uninit junk)) (wf_uninit junk) h).2

theorem ctor_ptr_spec_witness :
    2 ≤ [111, 107, 0].length ∧
      (ctor_ptr (uninit (fun _ => 0)) (some [111, 107, 0]) 2).bytes = [111, 107] :=
  ⟨by decide, (ctor_ptr_spec (fun _ => 0) [111, 107, 0] 2 (by decide)).2.1⟩

/-- C7: the copy-constructed buffer and the copy-assigned buffer compare equal to the source
`a`, have its size and its bytes, and are in the same form as `a`. (The source is taken by const
reference: the functions return no new state for it.) -/
theorem copy_is_deep (junk : Nat → Byte) (this a : SSOBytes) (ht : this.wf) (ha : a.wf) :
    ((ctor_copy (uninit junk) a).op_eq a = true ∧ (ctor_copy (uninit junk) a).size = a.size ∧
        (ctor_copy (uninit junk) a).bytes = a.bytes ∧
        (ctor_copy (uninit junk) a).is_sso = a.is_sso) ∧
      ((copy_assign this a).op_eq a = true ∧ (copy_assign this a).size = a.size ∧
        (copy_assign this a).bytes = a.bytes ∧ (copy_assign this a).is_sso = a.is_sso) := by
  obtain ⟨w1, b1, f1⟩ := ctor_copy_spec (uninit junk) (wf_uninit junk) ha
  obtain ⟨w2, b2, f2⟩ := copy_assign_spec ht ha
  exact ⟨⟨(op_eq_iff_bytes w1 ha).2 b1, by rw [← length_bytes w1, b1, length_bytes ha], b1, f1⟩,
    ⟨(op_eq_iff_bytes w2 ha).2 b2, by rw [← length_bytes w2, b2, length_bytes ha], b2, f2⟩⟩

theorem copy_is_deep_witness :
    (ctor_str (uninit (fun _ => 0)) [1, 2]).wf ∧
      (ctor_str (uninit (fun _ => 0)) (List.replicate 30 65)).wf ∧
      (copy_assign (ctor_str (uninit (fun _ => 0)) [1, 2])
        (ctor_str (uninit (fun _ => 0)) (List.replicate 30 65))).bytes = List.replicate 30 65 :=
  ⟨by decide, by decide,
    (copy_is_deep (fun _ => 0) (ctor_str (uninit (fun _ => 0)) [1, 2])
      (ctor_str (uninit (fun _ => 0)) (List.replicate 30 65))
      (by decide) (by decide)).2.2.2.1.trans (by decide)⟩

/-- C8, as stated, fails: after a move from the inline buffer holding one byte the source still
has size 1, and after a move from a heap buffer of 80 bytes the source is empty but still in
heap form. -/
theorem moved_from_is_not_empty_inline :
    (ctor_move (uninit (fun _ => 0)) (ctor_str (uninit (fun _ => 0)) [107])).2.size = 1 ∧
      (ctor_move (uninit (fun _ => 0))
        (ctor_str (uninit (fun _ => 0)) (List.replicate 80 90))).2.size = 0 ∧
      (ctor_move (uninit (fun _ => 0))
        (ctor_str (uninit (fun _ => 0)) (List.replicate 80 90))).2.is_sso = false ∧
      (move_assign (ctor_default (uninit (fun _ => 0)))
        (ctor_str (uninit (fun _ => 0)) [107])).2.size = 1 ∧
      (move_assign (ctor_default (uninit (fun _ => 0)))
        (ctor_str (uninit (fun _ => 0)) (List.replicate 80 90))).2.is_sso = false := by
  decide

/-- C8, amended: after move-constructing or move-assigning `b` from `a`, `b` holds the original
bytes of `a` in the original form of `a`; a source that was in inline form is left unchanged,
and a source that was in heap form is left empty (`size() == 0`) and still in heap form. -/
theorem move_transfers (junk : Nat → Byte) (this a : SSOBytes) (ht : this.wf) (ha : a.wf) :
    ((ctor_move (uninit junk) a).1.bytes = a.bytes ∧
        (ctor_move (uninit junk) a).1.is_sso = a.is_sso ∧
        (a.is_sso = true → (ctor_move (uninit junk) a).2 = a) ∧
        (a.is_sso = false → (ctor_move (uninit junk) a).2.size = 0 ∧
          (ctor_move (uninit junk) a).2.is_sso = false)) ∧
      ((move_assign this a).1.bytes = a.bytes ∧ (move_assign this a).1.is_sso = a.is_sso ∧
        (a.is_sso = true → (move_assign this a).2 = a) ∧
        (a.is_sso = false → (move_assign this a).2.size = 0 ∧
          (move_assign this a).2.is_sso = false)) := by
  have hsrc : ∀ mem : SSOBytes, a.is_sso = false →
      (ctor_move mem a).2.size = 0 ∧ (ctor_move mem a).2.is_sso = false := by
    intro mem hs
    have h1 : (ctor_move mem a).2.is_sso = false := by rw [ctor_move_snd_heap hs]; exact hs
    exact ⟨by rw [size_heap h1, ctor_move_snd_heap hs]; rfl, h1⟩
  obtain ⟨_, b1, f1⟩ := ctor_move_spec (uninit junk) (wf_uninit junk) ha
  obtain ⟨_, b2, f2⟩ := move_assign_spec ht ha
  exact ⟨⟨b1, f1, fun hs => ctor_move_snd_inline hs, hsrc _⟩,
    ⟨b2, f2, fun hs => ctor_move_snd_inline hs, hsrc _⟩⟩

theorem move_transfers_witness :
    (ctor_default (uninit (fun _ => 0))).wf ∧
      (ctor_str (uninit (fun _ => 0)) (List.replicate 50 119)).wf ∧
      (move_assign (ctor_default (uninit (fun _ => 0)))
        (ctor_str (uninit (fun _ => 0)) (List.replicate 50 119))).1.bytes
        = List.replicate 50 119 :=
  ⟨by decide, by decide,
    (move_transfers (fun _ => 0) (ctor_default (uninit (fun _ => 0)))
      (ctor_str (uninit (fun _ => 0)) (List.replicate 50 119))
      (by decide) (by decide)).2.1.trans (by decide)⟩

/-- C9: `a == b` holds if and only if the sizes are equal and the bytes are pairwise equal, that
is if and only if the two byte sequences are the same, whatever form each buffer is in (so an
inline and a heap buffer with identical bytes compare equal); `a != b` is its negation. -/
theorem op_eq_is_bytewise (a b : SSOBytes) (ha : a.wf) (hb : b.wf) :
    (a.op_eq b = true ↔ (a.size = b.size ∧ ∀ i, i < a.size → a.index i = b.index i)) ∧
      (a.op_eq b = true ↔ a.bytes = b.bytes) ∧
      (a.is_sso = true → b.is_sso = false → a.bytes = b.bytes → a.op_eq b = true) ∧
      a.op_ne b = !a.op_eq b :=
  ⟨op_eq_iff_index a b, op_eq_iff_bytes ha hb, fun _ _ h => (op_eq_iff_bytes ha hb).2 h, rfl⟩

theorem op_eq_is_bytewise_witness :
    (ctor_str (uninit (fun _ => 0)) [97, 98, 99]).wf ∧
      ((ctor_str (uninit (fun _ => 7)) [97, 98, 99]).reserve 100).wf ∧
      (ctor_str (uninit (fun _ => 0)) [97, 98, 99]).is_sso = true ∧
      ((ctor_str (uninit (fun _ => 7)) [97, 98, 99]).reserve 100).is_sso = false ∧
      (ctor_str (uninit (fun _ => 0)) [97, 98, 99]).op_eq
        ((ctor_str (uninit (fun _ => 7)) [97, 98, 99]).reserve 100) = true :=
  ⟨by decide, by decide, by decide, by decide,
    (op_eq_is_bytewise (ctor_str (uninit (fun _ => 0)) [97, 98, 99])
      ((ctor_str (uninit (fun _ => 7)) [97, 98, 99]).reserve 100)
      (by decide) (by decide)).2.1.2 (by decide)⟩

/-- C10: for two distinct buffers in any combination of forms, after `a.swap(b)` the buffer `a`
holds the former bytes of `b` and is in the former form of `b`, and `b` holds the former bytes
of `a` and is in the former form of `a`. -/
theorem swap_exchanges (junk : Nat → Byte) (a b : SSOBytes) (ha : a.wf) (hb : b.wf) :
    (swap junk a b).1.bytes = b.bytes ∧ (swap junk a b).1.is_sso = b.is_sso ∧
      (swap junk a b).2.bytes = a.bytes ∧ (swap junk a b).2.is_sso = a.is_sso :=
  (swap_spec junk ha hb).2.2

theorem swap_exchanges_witness :
    (ctor_str (uninit (fun _ => 0)) [97, 98, 99]).wf ∧
      (ctor_str (uninit (fun _ => 0)) (List.replicate 100 120)).wf ∧
      (swap (fun _ => 5) (ctor_str (uninit (fun _ => 0)) [97, 98, 99])
        (ctor_str (uninit (fun _ => 0)) (List.replicate 100 120))).1.is_sso = false ∧
      (swap (fun _ => 5) (ctor_str (uninit (fun _ => 0)) [97, 98, 99])
        (ctor_str (uninit (fun _ => 0)) (List.replicate 100 120))).2.bytes = [97, 98, 99] :=
  ⟨by decide, by decide,
    ((swap_exchanges (fun _ => 5) (ctor_str (uninit (fun _ => 0)) [97, 98, 99])
      (ctor_str (uninit (fun _ => 0)) (List.replicate 100 120))
      (by decide) (by decide)).2.1).trans (by decide),
    ((swap_exchanges (fun _ => 5) (ctor_str (uninit (fun _ => 0)) [97, 98, 99])
      (ctor_str (uninit (fun _ => 0)) (List.replicate 100 120))
      (by decide) (by decide)).2.2.1).trans (by decide)⟩

/-! ## Contents after the in-place operations -/

theorem take_memcpy {dst src : List Byte} {off n : Nat} (h1 : n ≤ src.length)
    (h2 : off + n ≤ dst.length) :
    (memcpy dst off src n).take (off + n) = dst.take off ++ src.take n := by
  have hl : (dst.take off ++ src.take n).length = off + n := by
    simp only [List.length_append, List.length_take]; omega
  unfold memcpy
  rw [List.take_append_of_le_length (by rw [hl]), ← hl, List.take_length]

theorem bytes_promote {s : SSOBytes} : s.promote_to_heap.heap_vec.elems = s.bytes := by
  cases hs : s.is_sso
  · rw [promote_heap hs, bytes_heap hs]
  · rw [promote_inline hs, bytes_inline hs]; rfl

theorem append_nil (s : SSOBytes) : s.append [] = s := by
  simp [append]

theorem append_spec (s : SSOBytes) (src : List Byte) (h : s.wf) :
    (s.append src).bytes = s.bytes ++ src ∧
      ((s.append src).is_sso = true ↔
        (s.is_sso = true ∧ s.size + src.length ≤ SSO_CAPACITY)) := by
  have hC := SSO_CAPACITY_eq
  by_cases h0 : src.length = 0
  · have e0 : src = [] := List.eq_nil_of_length_eq_zero h0
    subst e0
    rw [append_nil, List.append_nil]
    refine ⟨rfl, ?_⟩
    constructor
    · intro hs; exact ⟨hs, by rw [size_inline hs]; exact wf_inline h hs⟩
    · intro hs; exact hs.1
  · by_cases hc : s.is_sso = true ∧ s.tag + src.length ≤ SSO_CAPACITY
    · obtain ⟨hs, hfit⟩ := hc
      have hm : (s.tag + src.length % 256) % 256 = s.tag + src.length := by omega
      have e : s.append src =
          { s with sso_data := memcpy s.sso_data s.tag src src.length,
                   tag := s.tag + src.length } := by
        simp [append, h0, hs, hfit, hm]
      have hs1 : (s.append src).is_sso = true := by rw [e]; exact is_sso_of_le hfit
      refine ⟨?_, ?_⟩
      · rw [bytes_inline hs1, bytes_inline hs, e]
        show (memcpy s.sso_data s.tag src src.length).take (s.tag + src.length) = _
        rw [take_memcpy (Nat.le_refl _) (by rw [h.1]; exact hfit), List.take_length]
      · simp [hs1, hs, size_inline hs, hfit]
    · have e : s.append src =
          { s.promote_to_heap with heap_vec :=
              s.promote_to_heap.heap_vec.insert_range s.promote_to_heap.heap_vec.size src } := by
        unfold append
        simp only [h0, beq_iff_eq, if_false]
        rw [if_neg]
        simpa using hc
      have hs1 : (s.append src).is_sso = false := by
        rw [e]; exact is_sso_promote s
      refine ⟨?_, ?_⟩
      · rw [bytes_heap hs1, e]
        show (s.promote_to_heap.heap_vec.insert_range _ src).elems = _
        simp [ByteVec.insert_range, ByteVec.size, bytes_promote]
      · rw [hs1]
        constructor
        · intro hf; cases hf
        · rintro ⟨hs, hfit⟩
          exact absurd ⟨hs, by rw [← size_inline hs]; exact hfit⟩ hc

theorem size_eq_of_bytes {s t : SSOBytes} (hs : s.wf) (ht : t.wf) {l : List Byte}
    (e : s.bytes = t.bytes ++ l) : s.size = t.size + l.length := by
  rw [← length_bytes hs, e, List.length_append, length_bytes ht]

theorem take_fill {a : List Byte} {first last : Nat} (val : Byte) (h1 : first ≤ last)
    (h2 : last ≤ a.length) :
    (fill a first last val).take last = a.take first ++ List.replicate (last - first) val := by
  have hl : (a.take first ++ List.replicate (last - first) val).length = last := by
    simp only [List.length_append, List.length_take, List.length_replicate]; omega
  unfold fill
  rw [List.take_append_of_le_length (by rw [hl])]
  exact List.take_of_length_le (by rw [hl])

theorem vec_resize_elems (v : ByteVec) (n : Nat) (val : Byte) :
    (v.resize n val).elems = v.elems.take n ++ List.replicate (n - v.elems.length) val := by
  unfold ByteVec.resize ByteVec.size
  split
  · rename_i hle
    simp [Nat.sub_eq_zero_of_le hle]
  · rename_i hgt
    simp only
    rw [List.take_of_length_le (by omega)]

theorem resize_spec (s : SSOBytes) (n : Nat) (val : Byte) (h : s.wf) :
    (s.resize n val).bytes = s.bytes.take n ++ List.replicate (n - s.size) val ∧
      ((s.resize n val).is_sso = true ↔ (s.is_sso = true ∧ n ≤ SSO_CAPACITY)) := by
  have hC := SSO_CAPACITY_eq
  cases hs : s.is_sso
  · have e : s.resize n val = { s with heap_vec := s.heap_vec.resize n val } := by
      simp [resize, hs]
    have hs1 : (s.resize n val).is_sso = false := by rw [e]; exact hs
    refine ⟨?_, by simp [hs1]⟩
    rw [bytes_heap hs1, bytes_heap hs, size_heap hs, e]
    exact vec_resize_elems _ _ _
  · have ht := wf_inline h hs
    by_cases hn : n ≤ SSO_CAPACITY
    · have hm : n % 256 = n := by omega
      have e : s.resize n val =
          { s with sso_data := (if n > s.tag then fill s.sso_data s.tag n val else s.sso_data),
                   tag := n } := by
        simp [resize, hs, hn, hm]
      have hs1 : (s.resize n val).is_sso = true := by rw [e]; exact is_sso_of_le hn
      refine ⟨?_, by simp [hs1, hn]⟩
      rw [bytes_inline hs1, bytes_inline hs, size_inline hs, e]
      show (if n > s.tag then fill s.sso_data s.tag n val else s.sso_data).take n = _
      split
      · rename_i hgt
        rw [take_fill val (Nat.le_of_lt hgt) (by rw [h.1]; exact hn), List.take_take,
          Nat.min_eq_right (Nat.le_of_lt hgt)]
      · rename_i hle
        rw [List.take_take, Nat.min_eq_left (by omega), Nat.sub_eq_zero_of_le (by omega)]
        simp
    · have e : s.resize n val =
          { s.promote_to_heap with heap_vec := s.promote_to_heap.heap_vec.resize n val } := by
        simp [resize, hs, hn]
      have hs1 : (s.resize n val).is_sso = false := by rw [e]; exact is_sso_promote s
      refine ⟨?_, by simp [hs1, hn]⟩
      rw [bytes_heap hs1, e]
      show (s.promote_to_heap.heap_vec.resize n val).elems = _
      rw [vec_resize_elems, bytes_promote, length_bytes h]

theorem capacity_heap {s : SSOBytes} (hs : s.is_sso = false) :
    s.capacity = s.heap_vec.cap := by
  simp [capacity, hs, ByteVec.capacity]

theorem reserve_spec (s : SSOBytes) (n : Nat) :
    n ≤ (s.reserve n).capacity ∧ (s.reserve n).bytes = s.bytes ∧
      ((s.reserve n).is_sso = false ↔ (s.is_sso = false ∨ SSO_CAPACITY < n)) := by
  have hcap : ∀ v : ByteVec, n ≤ (v.reserve n).cap := by
    intro v; unfold ByteVec.reserve; split
    · exact Nat.le_refl _
    · omega
  have helems : ∀ v : ByteVec, (v.reserve n).elems = v.elems := by
    intro v; unfold ByteVec.reserve; split <;> rfl
  cases hs : s.is_sso
  · have e : s.reserve n = { s with heap_vec := s.heap_vec.reserve n } := by
      simp [reserve, hs]
    have hs1 : (s.reserve n).is_sso = false := by rw [e]; exact hs
    refine ⟨?_, ?_, by simp [hs1]⟩
    · rw [capacity_heap hs1, e]; exact hcap _
    · rw [bytes_heap hs1, bytes_heap hs, e]; exact helems _
  · by_cases hn : n > SSO_CAPACITY
    · have e : s.reserve n =
          { s.promote_to_heap with heap_vec := s.promote_to_heap.heap_vec.reserve n } := by
        simp [reserve, hs, hn]
      have hs1 : (s.reserve n).is_sso = false := by rw [e]; exact is_sso_promote s
      refine ⟨?_, ?_, by simp [hs1, hn]⟩
      · rw [capacity_heap hs1, e]; exact hcap _
      · rw [bytes_heap hs1, e]
        show (s.promote_to_heap.heap_vec.reserve n).elems = _
        rw [helems, bytes_promote]
    · have e : s.reserve n = s := by simp [reserve, hs, hn]
      refine ⟨?_, by rw [e], ?_⟩
      · rw [e]; simp only [capacity, hs]; exact Nat.le_of_not_gt hn
      · rw [e, hs]; simp; exact Nat.le_of_not_gt hn

/-! ### The copying loops of the inline form -/

theorem some_getD {l : List Byte} {i : Nat} (h : i < l.length) : some (l.getD i 0) = l[i]? := by
  rw [List.getD_eq_getElem?_getD, List.getElem?_eq_getElem h]; rfl

/-- The loop `for (i = from; i + count < len; ++i) data[i] = data[i + count]`, after `k`
iterations. -/
theorem shift_left_loop (count : Nat) (hc : 0 < count) (k : Nat) :
    ∀ (from_ : Nat) (d : List Byte), from_ + k + count ≤ d.length →
      ∀ j, ((List.range' from_ k).foldl (fun d i => d.set i (d.getD (i + count) 0)) d)[j]? =
        if from_ ≤ j ∧ j < from_ + k then d[j + count]? else d[j]? := by
  induction k with
  | zero =>
    intro from_ d _ j
    have : ¬ (from_ ≤ j ∧ j < from_ + 0) := by omega
    rw [if_neg this]; rfl
  | succ k ih =>
    intro from_ d hd j
    have hlen := length_foldl_set (fun i => i) (fun d i => d.getD (i + count) 0)
      (List.range' from_ k) d
    rw [List.range'_1_concat, List.foldl_append, List.foldl_cons, List.foldl_nil,
      List.getElem?_set, hlen]
    have hsrc := ih from_ d (by omega) (from_ + k + count)
    rw [if_neg (by omega)] at hsrc
    by_cases hj : from_ + k = j
    · subst hj
      rw [if_pos rfl, if_pos (by omega), if_pos (by omega),
        some_getD (by rw [hlen]; omega), hsrc]
    · rw [if_neg hj, ih from_ d (by omega) j]
      by_cases h1 : from_ ≤ j ∧ j < from_ + k
      · rw [if_pos h1, if_pos (by omega)]
      · rw [if_neg h1, if_neg (by omega)]

/-- The loop `for (i = len; i > pos; --i) data[i + count - 1] = data[i - 1]`, where
`len = pos + m`. -/
theorem shift_right_loop (count : Nat) (hc : 0 < count) (m : Nat) :
    ∀ (pos : Nat) (d : List Byte), pos + m + count ≤ d.length →
      ∀ j, (((List.range' (pos + 1) m).reverse).foldl
          (fun d i => d.set (i + count - 1) (d.getD (i - 1) 0)) d)[j]? =
        if pos + count ≤ j ∧ j < pos + m + count then d[j - count]? else d[j]? := by
  induction m with
  | zero =>
    intro pos d _ j
    have : ¬ (pos + count ≤ j ∧ j < pos + 0 + count) := by omega
    rw [if_neg this]; rfl
  | succ m ih =>
    intro pos d hd j
    have hlen := length_foldl_set (fun i => i + count - 1) (fun d i => d.getD (i - 1) 0)
      ((List.range' (pos + 1 + 1) m).reverse) d
    rw [List.range'_succ, List.reverse_cons, List.foldl_append, List.foldl_cons,
      List.foldl_nil, List.getElem?_set, hlen]
    have hsrc := ih (pos + 1) d (by omega) pos
    rw [if_neg (by omega)] at hsrc
    by_cases hj : pos + 1 + count - 1 = j
    · rw [if_pos hj, if_pos (by omega), if_pos (by omega)]
      have e1 : pos + 1 - 1 = pos := by omega
      have e2 : j - count = pos := by omega
      rw [e1, e2, some_getD (by rw [hlen]; omega), hsrc]
    · rw [if_neg hj, ih (pos + 1) d (by omega) j]
      by_cases h1 : pos + 1 + count ≤ j ∧ j < pos + 1 + m + count
      · rw [if_pos h1, if_pos (by omega)]
      · rw [if_neg h1, if_neg (by omega)]

/-- The loop `for (i = 0; i < n; ++i) data[pos + i] = src[i]`. -/
theorem copy_loop (src : List Byte) (pos n : Nat) (hn : n ≤ src.length) :
    ∀ (d : List Byte), pos + n ≤ d.length →
      ∀ j, ((List.range n).foldl (fun d i => d.set (pos + i) (src.getD i 0)) d)[j]? =
        if pos ≤ j ∧ j < pos + n then src[j - pos]? else d[j]? := by
  induction n with
  | zero =>
    intro d _ j
    have : ¬ (pos ≤ j ∧ j < pos + 0) := by omega
    rw [if_neg this]; rfl
  | succ n ih =>
    intro d hd j
    have hlen := length_foldl_set (fun i => pos + i) (fun _ i => src.getD i 0)
      (List.range n) d
    rw [List.range_succ, List.foldl_append, List.foldl_cons, List.foldl_nil,
      List.getElem?_set, hlen]
    by_cases hj : pos + n = j
    · subst hj
      have e1 : pos + n - pos = n := by omega
      rw [if_pos rfl, if_pos (by omega), if_pos (by omega), e1, some_getD (by omega)]
    · rw [if_neg hj, ih (by omega) d (by omega) j]
      by_cases h1 : pos ≤ j ∧ j < pos + n
      · rw [if_pos h1, if_pos (by omega)]
      · rw [if_neg h1, if_neg (by omega)]

theorem take_shift_left {d r : List Byte} {from_ count len : Nat} (h1 : from_ + count ≤ len)
    (h2 : len ≤ d.length)
    (hr : ∀ j, r[j]? = if from_ ≤ j ∧ j < from_ + (len - count - from_) then d[j + count]?
      else d[j]?) :
    r.take (len - count) = (d.take len).take from_ ++ (d.take len).drop (from_ + count) := by
  apply List.ext_getElem?
  intro j
  have hl : ((d.take len).take from_).length = from_ := by
    simp only [List.length_take]; omega
  rw [List.getElem?_take, List.getElem?_append, hl, List.getElem?_take, List.getElem?_drop,
    List.getElem?_take, List.getElem?_take, hr]
  by_cases hj : j < from_
  · rw [if_pos (by omega), if_neg (by omega), if_pos hj, if_pos (by omega), if_pos (by omega)]
  · rw [if_neg hj]
    by_cases hj2 : j < len - count
    · rw [if_pos hj2, if_pos (by omega), if_pos (by omega)]
      congr 1; omega
    · rw [if_neg hj2, if_neg (by omega)]

theorem erase_range_inline {s : SSOBytes} (h : s.wf) (hs : s.is_sso = true) {from_ to_ : Nat}
    (h1 : from_ < to_) (h2 : to_ ≤ s.tag) :
    ∃ d, s.erase_range from_ to_ = .ok { s with sso_data := d, tag := s.tag - (to_ - from_) } ∧
      d.take (s.tag - (to_ - from_)) = s.bytes.take from_ ++ s.bytes.drop to_ := by
  have hC := SSO_CAPACITY_eq
  have ht := wf_inline h hs
  have hm : (s.tag + (256 - (to_ - from_) % 256)) % 256 = s.tag - (to_ - from_) := by omega
  refine ⟨(List.range' from_ (s.tag - (to_ - from_) - from_)).foldl
    (fun d i => d.set i (d.getD (i + (to_ - from_)) 0)) s.sso_data, ?_, ?_⟩
  · unfold erase_range
    have c1 : ¬ (from_ > to_ ∨ to_ > s.size) := by rw [size_inline hs]; omega
    have c2 : ¬ (to_ - from_ = 0) := by omega
    simp only [Bool.or_eq_true, decide_eq_true_eq, c1, if_false, beq_iff_eq, c2, hs, if_true, hm]
  · have hloop := shift_left_loop (to_ - from_) (by omega) (s.tag - (to_ - from_) - from_)
      from_ s.sso_data (by rw [h.1]; omega)
    have e := @take_shift_left s.sso_data _ from_ (to_ - from_) s.tag (by omega)
      (by rw [h.1]; exact ht) hloop
    rw [e, bytes_inline hs]
    congr 2; omega

theorem erase_inline {s : SSOBytes} (h : s.wf) (hs : s.is_sso = true) {pos : Nat}
    (h1 : pos < s.tag) :
    ∃ d, s.erase pos = .ok { s with sso_data := d, tag := s.tag - 1 } ∧
      d.take (s.tag - 1) = s.bytes.take pos ++ s.bytes.drop (pos + 1) := by
  have hC := SSO_CAPACITY_eq
  have ht := wf_inline h hs
  have hm : (s.tag + 255) % 256 = s.tag - 1 := by omega
  refine ⟨(List.range' pos (s.tag - 1 - pos)).foldl
    (fun d i => d.set i (d.getD (i + 1) 0)) s.sso_data, ?_, ?_⟩
  · unfold erase
    simp only [hs, if_true, h1, decide_True, Bool.not_true, Bool.false_eq_true, if_false, hm]
  · have hloop := shift_left_loop 1 (by omega) (s.tag - 1 - pos) pos s.sso_data
      (by rw [h.1]; omega)
    have e := @take_shift_left s.sso_data _ pos 1 s.tag (by omega)
      (by rw [h.1]; exact ht) hloop
    rw [e, bytes_inline hs]

theorem take_insert {d r src : List Byte} {pos m : Nat}
    (h2 : pos + m + src.length ≤ d.length)
    (hr : ∀ j, r[j]? = if pos ≤ j ∧ j < pos + src.length then src[j - pos]?
      else if pos + src.length ≤ j ∧ j < pos + m + src.length then d[j - src.length]?
      else d[j]?) :
    r.take (pos + m + src.length) =
      (d.take (pos + m)).take pos ++ src ++ (d.take (pos + m)).drop pos := by
  apply List.ext_getElem?
  intro j
  have hl : ((d.take (pos + m)).take pos).length = pos := by
    simp only [List.length_take]; omega
  have hl2 : ((d.take (pos + m)).take pos ++ src).length = pos + src.length := by
    rw [List.length_append, hl]
  rw [List.getElem?_take, List.getElem?_append, hl2, List.getElem?_append, hl,
    List.getElem?_take, List.getElem?_drop, List.getElem?_take, List.getElem?_take, hr]
  by_cases hj : j < pos
  · rw [if_pos (by omega), if_neg (by omega), if_neg (by omega), if_pos (by omega),
      if_pos hj, if_pos hj, if_pos (by omega)]
  · by_cases hj2 : j < pos + src.length
    · rw [if_pos (by omega), if_pos (by omega), if_pos hj2, if_neg hj]
    · by_cases hj3 : j < pos + m + src.length
      · rw [if_pos hj3, if_neg (by omega), if_pos (by omega), if_neg hj2, if_pos (by omega)]
        congr 1; omega
      · rw [if_neg hj3, if_neg hj2, if_neg (by omega)]

theorem insert_range_inline {s : SSOBytes} (h : s.wf) (hs : s.is_sso = true) {pos : Nat}
    {src : List Byte} (h0 : src ≠ []) (h1 : pos ≤ s.tag)
    (h2 : s.tag + src.length ≤ SSO_CAPACITY) :
    ∃ d, s.insert_range pos src =
        .ok { s with sso_data := d, tag := s.tag + src.length } ∧
      d.take (s.tag + src.length) = s.bytes.take pos ++ src ++ s.bytes.drop pos := by
  have hC := SSO_CAPACITY_eq
  have hm : (s.tag + src.length % 256) % 256 = s.tag + src.length := by omega
  have hn : src.length ≠ 0 := fun e => h0 (List.eq_nil_of_length_eq_zero e)
  refine ⟨(List.range src.length).foldl (fun d i => d.set (pos + i) (src.getD i 0))
    (((List.range' (pos + 1) (s.tag - pos)).reverse).foldl
      (fun d i => d.set (i + src.length - 1) (d.getD (i - 1) 0)) s.sso_data), ?_, ?_⟩
  · unfold SSOBytes.insert_range
    simp only [beq_iff_eq, hn, if_false, size_inline hs, h1, decide_True, Bool.not_true,
      Bool.false_eq_true, hs, Bool.true_and, decide_eq_true_eq, h2, if_true, hm]
  · have hlen := length_foldl_set (fun i => i + src.length - 1) (fun d i => d.getD (i - 1) 0)
      ((List.range' (pos + 1) (s.tag - pos)).reverse) s.sso_data
    have hshift := shift_right_loop src.length (by omega) (s.tag - pos) pos s.sso_data
      (by rw [h.1]; omega)
    have hcopy := copy_loop src pos src.length (Nat.le_refl _)
      (((List.range' (pos + 1) (s.tag - pos)).reverse).foldl
        (fun d i => d.set (i + src.length - 1) (d.getD (i - 1) 0)) s.sso_data)
      (by rw [hlen, h.1]; omega)
    have e := @take_insert s.sso_data _ src pos (s.tag - pos) (by rw [h.1]; omega)
      (fun j => by rw [hcopy j, hshift j])
    have e1 : pos + (s.tag - pos) = s.tag := by omega
    rw [e1] at e
    rw [e, bytes_inline hs]

theorem insert_inline {s : SSOBytes} (h : s.wf) (hs : s.is_sso = true) {pos : Nat}
    (byte : Byte) (h1 : pos ≤ s.tag) (h2 : s.tag < SSO_CAPACITY) :
    ∃ d, s.insert pos byte = .ok { s with sso_data := d, tag := s.tag + 1 } ∧
      d.take (s.tag + 1) = s.bytes.take pos ++ [byte] ++ s.bytes.drop pos := by
  have hC := SSO_CAPACITY_eq
  have hm : (s.tag + 1) % 256 = s.tag + 1 := by omega
  refine ⟨(((List.range' (pos + 1) (s.tag - pos)).reverse).foldl
      (fun d i => d.set i (d.getD (i - 1) 0)) s.sso_data).set pos byte, ?_, ?_⟩
  · unfold SSOBytes.insert
    simp only [size_inline hs, h1, decide_True, Bool.not_true, Bool.false_eq_true, if_false,
      hs, Bool.true_and, decide_eq_true_eq, h2, if_true, hm]
  · have hlen := length_foldl_set (fun i => i) (fun d i => d.getD (i - 1) 0)
      ((List.range' (pos + 1) (s.tag - pos)).reverse) s.sso_data
    have hshift := shift_right_loop 1 (by omega) (s.tag - pos) pos s.sso_data
      (by rw [h.1]; omega)
    simp only [Nat.add_sub_cancel] at hshift
    have e := @take_insert s.sso_data
      ((((List.range' (pos + 1) (s.tag - pos)).reverse).foldl
        (fun d i => d.set i (d.getD (i - 1) 0)) s.sso_data).set pos byte)
      [byte] pos (s.tag - pos) (by rw [h.1]; simp only [List.length_singleton]; omega)
      (fun j => by
        rw [List.getElem?_set, hlen, hshift j]
        simp only [List.length_singleton]
        by_cases hj : pos = j
        · subst hj
          rw [if_pos rfl, if_pos (by rw [h.1]; omega), if_pos (by omega)]
          simp
        · have hc : ¬ (pos ≤ j ∧ j < pos + 1) := by omega
          rw [if_neg hj, if_neg hc])
    have e1 : pos + (s.tag - pos) = s.tag := by omega
    rw [e1] at e
    rw [List.length_singleton] at e
    rw [e, bytes_inline hs]

theorem assign_inline {s : SSOBytes} (h : s.wf) (hs : s.is_sso = true) {src : List Byte}
    (h2 : src.length ≤ SSO_CAPACITY) :
    ∃ d, s.assign src = { s with sso_data := d, tag := src.length } ∧
      d.take src.length = src := by
  have hC := SSO_CAPACITY_eq
  have hm : src.length % 256 = src.length := by omega
  refine ⟨(List.range src.length).foldl (fun d i => d.set i (src.getD i 0)) s.sso_data,
    ?_, ?_⟩
  · unfold assign
    simp only [hs, Bool.true_and, decide_eq_true_eq, h2, if_true, hm]
  · have hloop := copy_loop src 0 src.length (Nat.le_refl _) s.sso_data (by rw [h.1]; omega)
    simp only [Nat.zero_add, Nat.sub_zero, Nat.zero_le, true_and] at hloop
    apply List.ext_getElem?
    intro j
    rw [List.getElem?_take, hloop j]
    by_cases hj : j < src.length
    · rw [if_pos hj, if_pos hj]
    · rw [if_neg hj, List.getElem?_eq_none (by omega)]

/-- The compaction loop of `remove_if` in inline form, after `k` bytes have been read. -/
theorem remove_if_loop (keep : Byte → Bool) (d : List Byte) (k : Nat) (hk : k ≤ d.length) :
    ((List.range k).foldl (fun (st : List Byte × Nat) read =>
        if keep (st.1.getD read 0) then (st.1.set st.2 (st.1.getD read 0), st.2 + 1) else st)
      (d, 0)).1.length = d.length ∧
    ((List.range k).foldl (fun (st : List Byte × Nat) read =>
        if keep (st.1.getD read 0) then (st.1.set st.2 (st.1.getD read 0), st.2 + 1) else st)
      (d, 0)).2 ≤ k ∧
    ((List.range k).foldl (fun (st : List Byte × Nat) read =>
        if keep (st.1.getD read 0) then (st.1.set st.2 (st.1.getD read 0), st.2 + 1) else st)
      (d, 0)).1.take
      ((List.range k).foldl (fun (st : List Byte × Nat) read =>
        if keep (st.1.getD read 0) then (st.1.set st.2 (st.1.getD read 0), st.2 + 1) else st)
      (d, 0)).2 = (d.take k).filter keep ∧
    ∀ j, k ≤ j → ((List.range k).foldl (fun (st : List Byte × Nat) read =>
        if keep (st.1.getD read 0) then (st.1.set st.2 (st.1.getD read 0), st.2 + 1) else st)
      (d, 0)).1[j]? = d[j]? := by
  induction k with
  | zero => exact ⟨rfl, Nat.le_refl _, by simp, fun _ _ => rfl⟩
  | succ k ih =>
    obtain ⟨i1, i2, i3, i4⟩ := ih (by omega)
    rw [List.range_succ, List.foldl_append, List.foldl_cons, List.foldl_nil]
    generalize (List.range k).foldl (fun (st : List Byte × Nat) read =>
        if keep (st.1.getD read 0) then (st.1.set st.2 (st.1.getD read 0), st.2 + 1) else st)
      (d, 0) = st at i1 i2 i3 i4
    have hv : some (st.1.getD k 0) = d[k]? := by
      rw [some_getD (by omega), i4 k (Nat.le_refl _)]
    have htake : d.take (k + 1) = d.take k ++ [st.1.getD k 0] := by
      rw [List.take_succ, ← hv]; rfl
    by_cases hkeep : keep (st.1.getD k 0) = true
    · rw [if_pos hkeep]
      refine ⟨by simp [i1], by simp only; omega, ?_, ?_⟩
      · simp only
        rw [take_succ_set _ (by omega), i3, htake, List.filter_append,
          List.filter_cons_of_pos hkeep, List.filter_nil]
      · intro j hj
        simp only
        rw [List.getElem?_set_ne (by omega)]
        exact i4 j (by omega)
    · rw [if_neg hkeep]
      refine ⟨i1, by omega, ?_, fun j hj => i4 j (by omega)⟩
      rw [i3, htake, List.filter_append, List.filter_cons_of_neg hkeep, List.filter_nil,
        List.append_nil]

theorem remove_if_inline {s : SSOBytes} (h : s.wf) (hs : s.is_sso = true)
    (pred : Int → Bool) :
    (s.remove_if pred).is_sso = true ∧
      (s.remove_if pred).bytes = s.bytes.filter (fun b => !pred (to_char b)) := by
  have hC := SSO_CAPACITY_eq
  have ht := wf_inline h hs
  obtain ⟨l1, l2, l3, _⟩ := remove_if_loop (fun b => !pred (to_char b)) s.sso_data s.tag
    (by rw [h.1]; exact ht)
  have e : s.remove_if pred =
      { s with
        sso_data := ((List.range s.tag).foldl (fun (st : List Byte × Nat) read =>
          if (fun b => !pred (to_char b)) (st.1.getD read 0) then
            (st.1.set st.2 (st.1.getD read 0), st.2 + 1) else st) (s.sso_data, 0)).1,
        tag := ((List.range s.tag).foldl (fun (st : List Byte × Nat) read =>
          if (fun b => !pred (to_char b)) (st.1.getD read 0) then
            (st.1.set st.2 (st.1.getD read 0), st.2 + 1) else st) (s.sso_data, 0)).2 } := by
    unfold remove_if
    simp only [hs, if_true]
    rw [Nat.mod_eq_of_lt (by omega)]
  have hs1 : (s.remove_if pred).is_sso = true := by
    rw [e]; exact is_sso_of_le (Nat.le_trans l2 ht)
  refine ⟨hs1, ?_⟩
  rw [bytes_inline hs1, bytes_inline hs, e]
  exact l3

theorem remove_if_heap {s : SSOBytes} (hs : s.is_sso = false) (pred : Int → Bool) :
    (s.remove_if pred).is_sso = false ∧
      (s.remove_if pred).bytes = s.bytes.filter (fun (b : Byte) => !pred (b : Int)) := by
  have e : s.remove_if pred =
      { s with heap_vec := s.heap_vec.erase_remove_if (fun b => pred (b : Int)) } := by
    simp [remove_if, hs]
  have hs1 : (s.remove_if pred).is_sso = false := by rw [e]; exact hs
  refine ⟨hs1, ?_⟩
  rw [bytes_heap hs1, bytes_heap hs, e]
  rfl

theorem assign_spec (s : SSOBytes) (src : List Byte) (h : s.wf) :
    (s.assign src).bytes = src ∧
      ((s.assign src).is_sso = true ↔ (s.is_sso = true ∧ src.length ≤ SSO_CAPACITY)) := by
  by_cases hc : s.is_sso = true ∧ src.length ≤ SSO_CAPACITY
  · obtain ⟨hs, hn⟩ := hc
    obtain ⟨d, e, hd⟩ := assign_inline h hs hn
    have hs1 : (s.assign src).is_sso = true := by rw [e]; exact is_sso_of_le hn
    refine ⟨?_, by simp [hs1, hs, hn]⟩
    rw [bytes_inline hs1, e]; exact hd
  · have e : s.assign src =
        { (if s.is_sso then s.promote_to_heap else s) with
          heap_vec := (if s.is_sso then s.promote_to_heap else s).heap_vec.assign src } := by
      unfold assign
      simp only
      rw [if_neg]
      simpa using hc
    have hs0 : (if s.is_sso then s.promote_to_heap else s).is_sso = false := by
      cases hs : s.is_sso
      · simpa using hs
      · simpa using is_sso_promote s
    have hs1 : (s.assign src).is_sso = false := by rw [e]; exact hs0
    refine ⟨?_, ?_⟩
    · rw [bytes_heap hs1, e]; rfl
    · rw [hs1]
      constructor
      · intro hf; cases hf
      · intro hh; exact absurd hh hc

/-- The function `append` on a source outside the object leaves the bytes `old ++ src`, so
`size()` grows by `len`; the buffer is inline afterwards if and only if it was inline and
`|old| + len ≤ SSO_CAPACITY`; appending zero bytes changes nothing. -/
theorem append_outside (s : SSOBytes) (src : List Byte) (h : s.wf) :
    (s.append src).bytes = s.bytes ++ src ∧
      (s.append src).size = s.size + src.length ∧
      ((s.append src).is_sso = true ↔
        (s.is_sso = true ∧ s.size + src.length ≤ SSO_CAPACITY)) ∧
      s.append [] = s := by
  obtain ⟨hb, hf⟩ := append_spec s src h
  exact ⟨hb, size_eq_of_bytes (wf_append h src) h hb, hf, append_nil s⟩

/-- The function `resize`, which is the call `resize(n, fill)` that returns: the bytes are the
first `n` old bytes followed by `n - |old|` copies of `fill`, so `size() == n`, every index
below `min(n, |old|)` holds the old byte, every index in `[|old|, n)` holds `fill`; the buffer
is inline afterwards if and only if it was inline and `n ≤ SSO_CAPACITY`. -/
theorem resize_bytes (s : SSOBytes) (n : Nat) (val : Byte) (h : s.wf) :
    (s.resize n val).bytes = s.bytes.take n ++ List.replicate (n - s.size) val ∧
      (s.resize n val).size = n ∧
      (∀ i, i < min n s.size → (s.resize n val).bytes[i]? = s.bytes[i]?) ∧
      (∀ i, s.size ≤ i → i < n → (s.resize n val).bytes[i]? = some val) ∧
      ((s.resize n val).is_sso = true ↔ (s.is_sso = true ∧ n ≤ SSO_CAPACITY)) := by
  obtain ⟨hb, hf⟩ := resize_spec s n val h
  have hlen := length_bytes h
  have hl : (s.bytes.take n).length = min n s.size := by rw [List.length_take, hlen]
  refine ⟨hb, ?_, ?_, ?_, hf⟩
  · rw [← length_bytes (wf_resize h n val), hb, List.length_append, hl,
      List.length_replicate]
    omega
  · intro i hi
    rw [hb, List.getElem?_append_left (by rw [hl]; exact hi), List.getElem?_take,
      if_pos (by omega)]
  · intro i h1 h2
    rw [hb, List.getElem?_append_right (by rw [hl]; omega), hl, List.getElem?_replicate,
      if_pos (by omega)]

/-- The function `reserve`, which is the call `reserve(n)` that returns: `capacity() ≥ n` while
`size()` and the bytes are unchanged, and the buffer is in heap form if and only if it was in
heap form already or `n > SSO_CAPACITY`. (The capacity of the vector follows the model of
`std::vector::reserve`.) -/
theorem reserve_keeps (s : SSOBytes) (n : Nat) (h : s.wf) :
    n ≤ (s.reserve n).capacity ∧ (s.reserve n).size = s.size ∧
      (s.reserve n).bytes = s.bytes ∧
      ((s.reserve n).is_sso = false ↔ (s.is_sso = false ∨ SSO_CAPACITY < n)) := by
  obtain ⟨hc, hb, hf⟩ := reserve_spec s n
  exact ⟨hc, by rw [← length_bytes (wf_reserve h n), hb, length_bytes h], hb, hf⟩

theorem insert_ok (s : SSOBytes) (pos : Nat) (byte : Byte) (h : s.wf) (hp : pos ≤ s.size) :
    ∃ s1, s.insert pos byte = .ok s1 ∧
      s1.bytes = s.bytes.take pos ++ [byte] ++ s.bytes.drop pos ∧
      (s1.is_sso = true ↔ (s.is_sso = true ∧ s.size + 1 ≤ SSO_CAPACITY)) := by
  by_cases hc : s.is_sso = true ∧ s.tag < SSO_CAPACITY
  · obtain ⟨hs, hlt⟩ := hc
    have hp1 : pos ≤ s.tag := by rw [← size_inline hs]; exact hp
    obtain ⟨d, e, hd⟩ := insert_inline h hs byte hp1 hlt
    have hs1 : ({ s with sso_data := d, tag := s.tag + 1 } : SSOBytes).is_sso = true :=
      is_sso_of_le hlt
    refine ⟨_, e, ?_, ?_⟩
    · rw [bytes_inline hs1]; exact hd
    · rw [hs1, size_inline hs]; simp [hs]; exact hlt
  · have e : s.insert pos byte =
        .ok { s.promote_to_heap with
              heap_vec := s.promote_to_heap.heap_vec.insert_one pos byte } := by
      unfold SSOBytes.insert
      simp only [hp, decide_True, Bool.not_true, Bool.false_eq_true, if_false]
      rw [if_neg]
      simpa using hc
    have hs1 : ({ s.promote_to_heap with
        heap_vec := s.promote_to_heap.heap_vec.insert_one pos byte } : SSOBytes).is_sso
        = false := is_sso_promote s
    refine ⟨_, e, ?_, ?_⟩
    · rw [bytes_heap hs1]
      show (s.promote_to_heap.heap_vec.insert_one pos byte).elems = _
      simp [ByteVec.insert_one, bytes_promote]
    · rw [hs1]
      constructor
      · intro hf; cases hf
      · rintro ⟨hs, hfit⟩
        exact absurd ⟨hs, by rw [← size_inline hs]; exact hfit⟩ hc

theorem insert_range_ok (s : SSOBytes) (pos : Nat) (ins : List Byte) (h : s.wf)
    (hp : pos ≤ s.size) :
    ∃ s1, s.insert_range pos ins = .ok s1 ∧
      s1.bytes = s.bytes.take pos ++ ins ++ s.bytes.drop pos ∧
      (s1.is_sso = true ↔ (s.is_sso = true ∧ s.size + ins.length ≤ SSO_CAPACITY)) := by
  by_cases h0 : ins = []
  · subst h0
    refine ⟨s, by simp [SSOBytes.insert_range], by simp, ?_⟩
    constructor
    · intro hs; exact ⟨hs, by rw [size_inline hs]; exact wf_inline h hs⟩
    · intro hs; exact hs.1
  · have hn : ins.length ≠ 0 := fun e => h0 (List.eq_nil_of_length_eq_zero e)
    by_cases hc : s.is_sso = true ∧ s.tag + ins.length ≤ SSO_CAPACITY
    · obtain ⟨hs, hfit⟩ := hc
      have hp1 : pos ≤ s.tag := by rw [← size_inline hs]; exact hp
      obtain ⟨d, e, hd⟩ := insert_range_inline h hs h0 hp1 hfit
      have hs1 : ({ s with sso_data := d, tag := s.tag + ins.length } : SSOBytes).is_sso
          = true := is_sso_of_le hfit
      refine ⟨_, e, ?_, ?_⟩
      · rw [bytes_inline hs1]; exact hd
      · rw [hs1, size_inline hs]; simp [hs]; exact hfit
    · have e : s.insert_range pos ins =
          .ok { s.promote_to_heap with
                heap_vec := s.promote_to_heap.heap_vec.insert_range pos ins } := by
        unfold SSOBytes.insert_range
        simp only [beq_iff_eq, hn, if_false, hp, decide_True, Bool.not_true,
          Bool.false_eq_true]
        rw [if_neg]
        simpa using hc
      have hs1 : ({ s.promote_to_heap with
          heap_vec := s.promote_to_heap.heap_vec.insert_range pos ins } : SSOBytes).is_sso
          = false := is_sso_promote s
      refine ⟨_, e, ?_, ?_⟩
      · rw [bytes_heap hs1]
        show (s.promote_to_heap.heap_vec.insert_range pos ins).elems = _
        simp [ByteVec.insert_range, bytes_promote]
      · rw [hs1]
        constructor
        · intro hf; cases hf
        · rintro ⟨hs, hfit⟩
          exact absurd ⟨hs, by rw [← size_inline hs]; exact hfit⟩ hc

/-- For `pos ≤ size()`, `insert` of a byte or of a byte range `ins` outside the object returns
normally and leaves the bytes `old[0..pos) ++ ins ++ old[pos..)`, with
`size() == |old| + |ins|`; the buffer is inline afterwards if and only if it was inline and
`|old| + |ins| ≤ SSO_CAPACITY`. -/
theorem insert_outside (s : SSOBytes) (pos : Nat) (h : s.wf) (hp : pos ≤ s.size) :
    (∀ byte, ∃ s1, s.insert pos byte = .ok s1 ∧
        s1.bytes = s.bytes.take pos ++ [byte] ++ s.bytes.drop pos ∧
        s1.size = s.size + 1 ∧
        (s1.is_sso = true ↔ (s.is_sso = true ∧ s.size + 1 ≤ SSO_CAPACITY))) ∧
      (∀ ins, ∃ s1, s.insert_range pos ins = .ok s1 ∧
        s1.bytes = s.bytes.take pos ++ ins ++ s.bytes.drop pos ∧
        s1.size = s.size + ins.length ∧
        (s1.is_sso = true ↔ (s.is_sso = true ∧ s.size + ins.length ≤ SSO_CAPACITY))) := by
  have hlen := length_bytes h
  have hsz : ∀ (s1 : SSOBytes) (ins : List Byte), s1.wf →
      s1.bytes = s.bytes.take pos ++ ins ++ s.bytes.drop pos →
      s1.size = s.size + ins.length := by
    intro s1 ins w e
    rw [← length_bytes w, e]
    simp only [List.length_append, List.length_take, List.length_drop, hlen]
    omega
  constructor
  · intro byte
    obtain ⟨s1, e, hb, hf⟩ := insert_ok s pos byte h hp
    exact ⟨s1, e, hb, hsz s1 [byte] (wf_insert h e) hb, hf⟩
  · intro ins
    obtain ⟨s1, e, hb, hf⟩ := insert_range_ok s pos ins h hp
    exact ⟨s1, e, hb, hsz s1 ins (wf_insert_range h e) hb, hf⟩

/-- C13, as stated, fails for a range of zero bytes: on the empty buffer, `insert(5, first,
first)` returns normally, the buffer unchanged, instead of signalling `OutOfRange`: the guard
`count == 0` returns before the position is looked at. -/
theorem insert_empty_range_bad_position :
    (ctor_default (uninit (fun _ => 0))).size < 5 ∧
      (ctor_default (uninit (fun _ => 0))).insert_range 5 [] =
        .ok (ctor_default (uninit (fun _ => 0))) := by
  decide

/-- C13, amended: for `pos > size()`, `insert` of a byte and `insert` of a range of at least one
byte signal `OutOfRange` and leave the buffer as it was; `insert` of a range of zero bytes
returns normally and also leaves the buffer as it was. -/
theorem insert_rejects (s : SSOBytes) (pos : Nat) (hp : s.size < pos) :
    (∀ byte, s.insert pos byte = .thrown (.out_of_range "SSOBytes::insert()") s) ∧
      (∀ ins, ins ≠ [] →
        s.insert_range pos ins = .thrown (.out_of_range "SSOBytes::insert<It>()") s) ∧
      s.insert_range pos [] = .ok s := by
  have hnp : ¬ pos ≤ s.size := by omega
  refine ⟨?_, ?_, ?_⟩
  · intro byte
    simp [SSOBytes.insert, hnp]
  · intro ins h0
    have hn : ins.length ≠ 0 := fun e => h0 (List.eq_nil_of_length_eq_zero e)
    simp [SSOBytes.insert_range, hn, hnp]
  · simp [SSOBytes.insert_range]

theorem insert_rejects_witness :
    (ctor_str (uninit (fun _ => 0)) [104, 105]).size < 3 ∧
      (ctor_str (uninit (fun _ => 0)) [104, 105]).insert_range 3 [104, 105] =
        .thrown (.out_of_range "SSOBytes::insert<It>()")
          (ctor_str (uninit (fun _ => 0)) [104, 105]) :=
  ⟨by decide,
    (insert_rejects (ctor_str (uninit (fun _ => 0)) [104, 105]) 3 (by decide)).2.1
      [104, 105] (by decide)⟩

theorem erase_range_ok (s : SSOBytes) (from_ to_ : Nat) (h : s.wf) (h1 : from_ ≤ to_)
    (h2 : to_ ≤ s.size) :
    ∃ s1, s.erase_range from_ to_ = .ok s1 ∧
      s1.bytes = s.bytes.take from_ ++ s.bytes.drop to_ ∧ s1.is_sso = s.is_sso := by
  have c1 : ¬ (from_ > to_ ∨ to_ > s.size) := by omega
  by_cases h0 : to_ - from_ = 0
  · have e : from_ = to_ := by omega
    subst e
    refine ⟨s, ?_, by simp, rfl⟩
    unfold erase_range
    simp only [Bool.or_eq_true, decide_eq_true_eq, c1, if_false, beq_iff_eq, h0, if_true]
  · cases hs : s.is_sso
    · have hs1 : ({ s with heap_vec := s.heap_vec.erase_range from_ to_ } : SSOBytes).is_sso
          = false := hs
      refine ⟨{ s with heap_vec := s.heap_vec.erase_range from_ to_ }, ?_, ?_, hs1⟩
      · unfold erase_range
        simp only [Bool.or_eq_true, decide_eq_true_eq, c1, if_false, beq_iff_eq, h0, hs,
          Bool.false_eq_true]
      · rw [bytes_heap hs1, bytes_heap hs]; rfl
    · obtain ⟨d, e, hd⟩ := erase_range_inline h hs (by omega : from_ < to_)
        (by rw [← size_inline hs]; exact h2)
      have hs1 : ({ s with sso_data := d, tag := s.tag - (to_ - from_) } : SSOBytes).is_sso
          = true := is_sso_of_le (Nat.le_trans (Nat.sub_le _ _) (wf_inline h hs))
      refine ⟨_, e, ?_, hs1⟩
      rw [bytes_inline hs1]; exact hd

theorem erase_range_thrown (s : SSOBytes) (from_ to_ : Nat)
    (h : to_ < from_ ∨ s.size < to_) :
    s.erase_range from_ to_ = .thrown (.out_of_range "SSOBytes::erase(from, to)") s := by
  unfold erase_range
  have c1 : from_ > to_ ∨ to_ > s.size := h
  simp only [Bool.or_eq_true, decide_eq_true_eq, c1, if_true]

/-- C14: for `from ≤ to ≤ size()`, `erase(from, to)` returns normally and leaves the bytes
`old[0..from) ++ old[to..)`, the size smaller by `to - from` and the form unchanged; for
`from > to` or `to > size()` it signals `OutOfRange` and the buffer is unchanged. -/
theorem erase_range_erases (s : SSOBytes) (from_ to_ : Nat) (h : s.wf) :
    (from_ ≤ to_ → to_ ≤ s.size →
        ∃ s1, s.erase_range from_ to_ = .ok s1 ∧
          s1.bytes = s.bytes.take from_ ++ s.bytes.drop to_ ∧
          s1.size = s.size - (to_ - from_) ∧ s1.is_sso = s.is_sso) ∧
      ((to_ < from_ ∨ s.size < to_) →
        s.erase_range from_ to_ = .thrown (.out_of_range "SSOBytes::erase(from, to)") s) := by
  refine ⟨?_, erase_range_thrown s from_ to_⟩
  intro h1 h2
  obtain ⟨s1, e, hb, hf⟩ := erase_range_ok s from_ to_ h h1 h2
  refine ⟨s1, e, hb, ?_, hf⟩
  rw [← length_bytes (wf_erase_range h e), hb]
  simp only [List.length_append, List.length_take, List.length_drop, length_bytes h]
  omega

theorem erase_range_erases_witness :
    (ctor_str (uninit (fun _ => 0)) [104, 101, 108, 108, 111]).wf ∧
      ∃ s1, (ctor_str (uninit (fun _ => 0)) [104, 101, 108, 108, 111]).erase_range 1 3
          = .ok s1 ∧ s1.bytes = [104, 108, 111] := by
  refine ⟨by decide, ?_⟩
  obtain ⟨s1, e, hb, _⟩ :=
    (erase_range_erases (ctor_str (uninit (fun _ => 0)) [104, 101, 108, 108, 111]) 1 3
      (by decide)).1 (by decide) (by decide)
  exact ⟨s1, e, hb.trans (by decide)⟩

theorem erase_ok (s : SSOBytes) (pos : Nat) (h : s.wf) (hp : pos < s.size) :
    ∃ s1, s.erase pos = .ok s1 ∧
      s1.bytes = s.bytes.take pos ++ s.bytes.drop (pos + 1) ∧ s1.is_sso = s.is_sso := by
  cases hs : s.is_sso
  · have hs1 : ({ s with heap_vec := s.heap_vec.erase_at pos } : SSOBytes).is_sso = false := hs
    have hp1 : pos < s.heap_vec.size := by rw [size_heap hs] at hp; exact hp
    refine ⟨{ s with heap_vec := s.heap_vec.erase_at pos }, ?_, ?_, hs1⟩
    · unfold erase
      simp only [hs, Bool.false_eq_true, if_false, hp1, if_true]
    · rw [bytes_heap hs1, bytes_heap hs]
      exact List.eraseIdx_eq_take_drop_succ _ _
  · have hp1 : pos < s.tag := by rw [← size_inline hs]; exact hp
    obtain ⟨d, e, hd⟩ := erase_inline h hs hp1
    have hs1 : ({ s with sso_data := d, tag := s.tag - 1 } : SSOBytes).is_sso = true :=
      is_sso_of_le (Nat.le_trans (Nat.sub_le _ _) (wf_inline h hs))
    refine ⟨_, e, ?_, hs1⟩
    rw [bytes_inline hs1]; exact hd

/-- C15: for `pos < size()`, `erase(pos)` returns normally and leaves the bytes
`old[0..pos) ++ old[pos+1..)`, the size smaller by one and the form unchanged. -/
theorem erase_erases (s : SSOBytes) (pos : Nat) (h : s.wf) (hp : pos < s.size) :
    ∃ s1, s.erase pos = .ok s1 ∧
      s1.bytes = s.bytes.take pos ++ s.bytes.drop (pos + 1) ∧
      s1.size + 1 = s.size ∧ s1.is_sso = s.is_sso := by
  obtain ⟨s1, e, hb, hf⟩ := erase_ok s pos h hp
  refine ⟨s1, e, hb, ?_, hf⟩
  rw [← length_bytes (wf_erase h e), hb]
  simp only [List.length_append, List.length_take, List.length_drop, length_bytes h]
  omega

theorem erase_erases_witness :
    (ctor_str (uninit (fun _ => 0)) [104, 101, 108, 108, 111]).wf ∧
      1 < (ctor_str (uninit (fun _ => 0)) [104, 101, 108, 108, 111]).size ∧
      ∃ s1, (ctor_str (uninit (fun _ => 0)) [104, 101, 108, 108, 111]).erase 1 = .ok s1 ∧
        s1.bytes = [104, 108, 108, 111] ∧ s1.is_sso = true := by
  refine ⟨by decide, by decide, ?_⟩
  obtain ⟨s1, e, hb, _, hf⟩ :=
    erase_erases (ctor_str (uninit (fun _ => 0)) [104, 101, 108, 108, 111]) 1
      (by decide) (by decide)
  exact ⟨s1, e, hb.trans (by decide), hf.trans (by decide)⟩

theorem erase_bad_position (s : SSOBytes) (pos : Nat) (hp : s.size ≤ pos) :
    (s.is_sso = true → s.erase pos = .thrown (.out_of_range "SSOBytes::erase()") s) ∧
      (s.is_sso = false → s.erase pos = .undefined) := by
  constructor
  · intro hs
    have hnp : ¬ pos < s.tag := by rw [← size_inline hs]; omega
    simp [erase, hs, hnp]
  · intro hs
    have hnp : ¬ pos < s.heap_vec.size := by
      rw [size_heap hs] at hp; unfold ByteVec.size; omega
    simp [erase, hs, hnp]

/-- C16, at the failing input: on a heap buffer of 30 bytes `erase(30)` throws nothing, the
position goes unchecked into `std::vector::erase`, which is undefined there; the same call on
a heap buffer that has been cleared is undefined too, while an inline buffer of 2 bytes
rejects `erase(2)` with `OutOfRange`. -/
theorem erase_heap_position_unchecked :
    (ctor_str (uninit (fun _ => 0)) (List.replicate 30 97)).is_sso = false ∧
      (ctor_str (uninit (fun _ => 0)) (List.replicate 30 97)).size = 30 ∧
      (ctor_str (uninit (fun _ => 0)) (List.replicate 30 97)).erase 30 = .undefined ∧
      (ctor_str (uninit (fun _ => 0)) (List.replicate 30 97)).clear.erase 0 = .undefined ∧
      (ctor_str (uninit (fun _ => 0)) [97, 98]).erase 2 =
        .thrown (.out_of_range "SSOBytes::erase()")
          (ctor_str (uninit (fun _ => 0)) [97, 98]) := by
  decide

/-- C20, at the failing input: with the predicate `c ≥ 128` on an integer argument, the inline
buffer holding the byte 200 keeps it (the predicate is called with the `char` value -56), and
the heap buffer holding the same byte drops it (the predicate is called with 200). -/
theorem remove_if_forms_disagree :
    (ctor_list (uninit (fun _ => 0)) [200]).is_sso = true ∧
      ((ctor_list (uninit (fun _ => 0)) [200]).reserve 100).is_sso = false ∧
      ((ctor_list (uninit (fun _ => 0)) [200]).reserve 100).bytes =
        (ctor_list (uninit (fun _ => 0)) [200]).bytes ∧
      ((ctor_list (uninit (fun _ => 0)) [200]).remove_if (fun c => decide (128 ≤ c))).bytes
        = [200] ∧
      (((ctor_list (uninit (fun _ => 0)) [200]).reserve 100).remove_if
        (fun c => decide (128 ≤ c))).bytes = [] := by
  decide

/-! ## Removal at the end, checked access, shrinking, null source -/

theorem pop_back_nonempty (s : SSOBytes) (h : s.wf) (hne : s.size ≠ 0) :
    ∃ s1, s.pop_back = .ok s1 ∧ s1.bytes = s.bytes.dropLast ∧ s1.is_sso = s.is_sso := by
  have hemp : s.empty = false := by simp [empty, hne]
  cases hs : s.is_sso
  · have hs1 : ({ s with heap_vec := s.heap_vec.pop_back } : SSOBytes).is_sso = false := hs
    refine ⟨{ s with heap_vec := s.heap_vec.pop_back }, ?_, ?_, hs1⟩
    · simp [pop_back, hemp, hs]
    · rw [bytes_heap hs1, bytes_heap hs]; rfl
  · have hC := SSO_CAPACITY_eq
    have ht := wf_inline h hs
    have h0 : s.tag ≠ 0 := by rw [← size_inline hs]; exact hne
    have hm : (s.tag + 255) % 256 = s.tag - 1 := by omega
    have hs1 : ({ s with tag := s.tag - 1 } : SSOBytes).is_sso = true :=
      is_sso_of_le (Nat.le_trans (Nat.sub_le _ _) ht)
    refine ⟨{ s with tag := s.tag - 1 }, ?_, ?_, hs1⟩
    · simp [pop_back, hemp, hs, hm]
    · rw [bytes_inline hs1, bytes_inline hs, List.dropLast_eq_take, List.take_take,
        List.length_take, h.1]
      show List.take (s.tag - 1) s.sso_data = _
      congr 1
      omega

theorem pop_back_empty (s : SSOBytes) (he : s.size = 0) :
    s.pop_back = .thrown (.runtime_error "SSOBytes::pop_back(): pop on empty SSO") s := by
  simp [pop_back, empty, he]

/-- C21: on a non-empty buffer `pop_back()` returns normally and leaves the old bytes without
the last one, the size smaller by one and the form unchanged; on an empty buffer, inline or
heap, it throws `std::runtime_error` and the buffer is unchanged. -/
theorem pop_back_pops (s : SSOBytes) (h : s.wf) :
    (s.size ≠ 0 → ∃ s1, s.pop_back = .ok s1 ∧ s1.bytes = s.bytes.dropLast ∧
        s1.size + 1 = s.size ∧ s1.is_sso = s.is_sso) ∧
      (s.size = 0 →
        s.pop_back = .thrown (.runtime_error "SSOBytes::pop_back(): pop on empty SSO") s) := by
  refine ⟨?_, pop_back_empty s⟩
  intro hne
  obtain ⟨s1, e, hb, hf⟩ := pop_back_nonempty s h hne
  refine ⟨s1, e, hb, ?_, hf⟩
  rw [← length_bytes (wf_pop_back h e), hb, List.length_dropLast, length_bytes h]
  omega

theorem pop_back_pops_witness :
    (ctor_str (uninit (fun _ => 0)) [97, 98]).wf ∧
      (ctor_str (uninit (fun _ => 0)) [97, 98]).size ≠ 0 ∧
      ((ctor_str (uninit (fun _ => 0)) (List.replicate 30 120)).clear).size = 0 ∧
      (∃ s1, (ctor_str (uninit (fun _ => 0)) [97, 98]).pop_back = .ok s1 ∧ s1.bytes = [97]) ∧
      ((ctor_str (uninit (fun _ => 0)) (List.replicate 30 120)).clear).pop_back =
        .thrown (.runtime_error "SSOBytes::pop_back(): pop on empty SSO")
          ((ctor_str (uninit (fun _ => 0)) (List.replicate 30 120)).clear) := by
  refine ⟨by decide, by decide, by decide, ?_, ?_⟩
  · obtain ⟨s1, e, hb, _⟩ :=
      (pop_back_pops (ctor_str (uninit (fun _ => 0)) [97, 98]) (by decide)).1 (by decide)
    exact ⟨s1, e, hb.trans (by decide)⟩
  · exact (pop_back_pops ((ctor_str (uninit (fun _ => 0)) (List.replicate 30 120)).clear)
      (by decide)).2 (by decide)

theorem index_eq_bytes {s : SSOBytes} {i : Nat} (hi : i < s.size) :
    s.index i = s.bytes[i]? := by
  have e : s.index i = s.data[i]? := by unfold index data; split <;> rfl
  rw [e]
  exact (List.getElem?_take_of_lt hi).symm

/-- C22: for `i < size()`, `at(i)` returns the byte at index `i` of the buffer, in either
form; it throws `std::out_of_range` if and only if `i ≥ size()`, `i == size()` included. (The
call reads only: the function has no new state for the buffer.) -/
theorem at_checks (s : SSOBytes) (i : Nat) (h : s.wf) :
    (i < s.size → ∃ b, s.at_ i = .ok (some b) ∧ s.bytes[i]? = some b) ∧
      (s.at_ i = .error (.out_of_range "SSOBytes::at()") ↔ s.size ≤ i) ∧
      s.at_ s.size = .error (.out_of_range "SSOBytes::at()") := by
  refine ⟨?_, ?_, by simp [at_]⟩
  · intro hi
    have hlen : i < s.bytes.length := by rw [length_bytes h]; exact hi
    refine ⟨s.bytes[i], ?_, List.getElem?_eq_getElem hlen⟩
    have hn : ¬ i ≥ s.size := by omega
    simp only [at_, hn, if_false, index_eq_bytes hi, List.getElem?_eq_getElem hlen]
  · constructor
    · intro e
      by_cases hi : s.size ≤ i
      · exact hi
      · have hn : ¬ i ≥ s.size := hi
        simp [at_, hn] at e
    · intro hi
      have hge : i ≥ s.size := hi
      simp [at_, hge]

theorem at_checks_witness :
    (ctor_str (uninit (fun _ => 0)) [120, 121, 122]).wf ∧
      (ctor_str (uninit (fun _ => 0)) [120, 121, 122]).at_ 1 = .ok (some 121) ∧
      (ctor_str (uninit (fun _ => 0)) [120, 121, 122]).at_ 3 =
        .error (.out_of_range "SSOBytes::at()") :=
  ⟨by decide, rfl,
    ((at_checks (ctor_str (uninit (fun _ => 0)) [120, 121, 122]) 3 (by decide)).2.1).2
      (by decide)⟩

/-- C23: on an inline buffer `shrink_to_fit()` changes nothing and `capacity()` is
`SSO_CAPACITY`; on a heap buffer it leaves the bytes, the size and the heap form as they are
and brings the capacity down to the size, so the capacity strictly decreases whenever it was
above the size. (The vector follows the model of `std::vector::shrink_to_fit`.) -/
theorem shrink_to_fit_shrinks (s : SSOBytes) (h : s.wf) :
    (s.is_sso = true → s.shrink_to_fit = s ∧ s.shrink_to_fit.capacity = SSO_CAPACITY) ∧
      (s.is_sso = false →
        s.shrink_to_fit.bytes = s.bytes ∧ s.shrink_to_fit.size = s.size ∧
        s.shrink_to_fit.is_sso = false ∧ s.shrink_to_fit.capacity = s.size ∧
        (s.size < s.capacity → s.shrink_to_fit.capacity < s.capacity)) := by
  constructor
  · intro hs
    have e : s.shrink_to_fit = s := by simp [shrink_to_fit, hs]
    exact ⟨e, by rw [e]; simp [capacity, hs]⟩
  · intro hs
    have e : s.shrink_to_fit = { s with heap_vec := s.heap_vec.shrink_to_fit } := by
      simp [shrink_to_fit, hs]
    have hs1 : s.shrink_to_fit.is_sso = false := by rw [e]; exact hs
    have hb : s.shrink_to_fit.bytes = s.bytes := by
      rw [bytes_heap hs1, bytes_heap hs, e]; rfl
    have hc : s.shrink_to_fit.capacity = s.size := by
      rw [capacity_heap hs1, size_heap hs, e]; rfl
    refine ⟨hb, ?_, hs1, hc, fun hlt => by rw [hc]; exact hlt⟩
    rw [← length_bytes (wf_shrink_to_fit h), hb, length_bytes h]

theorem shrink_to_fit_shrinks_witness :
    ((ctor_str (uninit (fun _ => 0)) (List.replicate 100 120)).resize 3 0).wf ∧
      ((ctor_str (uninit (fun _ => 0)) (List.replicate 100 120)).resize 3 0).is_sso = false ∧
      ((ctor_str (uninit (fun _ => 0)) (List.replicate 100 120)).resize 3 0).capacity = 100 ∧
      ((ctor_str (uninit (fun _ => 0)) (List.replicate 100 120)).resize 3
        0).shrink_to_fit.capacity = 3 := by
  refine ⟨by decide, by decide, by decide, ?_⟩
  exact ((shrink_to_fit_shrinks
    ((ctor_str (uninit (fun _ => 0)) (List.replicate 100 120)).resize 3 0)
    (by decide)).2 (by decide)).2.2.2.1.trans (by decide)

/-- C24: constructing from a null pointer and any claimed length gives the default-constructed
buffer: `size() == 0`, inline form, no exception, whatever the length and the initial storage
contents. -/
theorem ctor_null_is_empty (junk : Nat → Byte) (len : Nat) :
    ctor_ptr (uninit junk) none len = ctor_default (uninit junk) ∧
      (ctor_ptr (uninit junk) none len).size = 0 ∧
      (ctor_ptr (uninit junk) none len).is_sso = true ∧
      (ctor_ptr (uninit junk) none len).bytes = [] := by
  have hs : (ctor_ptr (uninit junk) none len).is_sso = true := is_sso_of_le (Nat.zero_le _)
  refine ⟨rfl, ?_, hs, ?_⟩
  · rw [size_inline hs]; rfl
  · rw [bytes_inline hs]; rfl

/-- C25, as stated, fails: on the empty inline buffer `erase(0)` throws `std::out_of_range`,
which is not the `std::runtime_error` that `pop_back()` throws on the same buffer. -/
theorem erase_on_empty_is_out_of_range :
    (ctor_default (uninit (fun _ => 0))).size = 0 ∧
      (ctor_default (uninit (fun _ => 0))).erase 0 =
        .thrown (.out_of_range "SSOBytes::erase()") (ctor_default (uninit (fun _ => 0))) ∧
      (ctor_default (uninit (fun _ => 0))).pop_back =
        .thrown (.runtime_error "SSOBytes::pop_back(): pop on empty SSO")
          (ctor_default (uninit (fun _ => 0))) := by
  decide

/-- C25, amended: on every empty buffer in inline form and for every `pos`, `erase(pos)` throws
`std::out_of_range` (the `OutOfRange` kind, not the kind `pop_back()` throws) and leaves the
buffer unchanged. -/
theorem erase_on_empty_inline (s : SSOBytes) (pos : Nat) (hs : s.is_sso = true)
    (he : s.size = 0) :
    s.erase pos = .thrown (.out_of_range "SSOBytes::erase()") s ∧
      s.pop_back = .thrown (.runtime_error "SSOBytes::pop_back(): pop on empty SSO") s :=
  ⟨(erase_bad_position s pos (by omega)).1 hs, pop_back_empty s he⟩

theorem erase_on_empty_inline_witness :
    (ctor_str (uninit (fun _ => 0)) []).is_sso = true ∧
      (ctor_str (uninit (fun _ => 0)) []).size = 0 ∧
      (ctor_str (uninit (fun _ => 0)) []).erase 7 =
        .thrown (.out_of_range "SSOBytes::erase()") (ctor_str (uninit (fun _ => 0)) []) :=
  ⟨by decide, by decide,
    (erase_on_empty_inline (ctor_str (uninit (fun _ => 0)) []) 7 (by decide) (by decide)).1⟩

/-! ## Searching in a view -/

theorem find?_range_some (p : Nat → Bool) (m : Nat) :
    ∀ i, (List.range m).find? p = some i → i < m ∧ p i = true ∧ ∀ j, j < i → p j = false := by
  induction m with
  | zero => intro i h; simp at h
  | succ m ih =>
    intro i h
    rw [List.range_succ, List.find?_append] at h
    cases hf : (List.range m).find? p with
    | some k =>
      rw [hf, Option.or_some] at h
      cases h
      obtain ⟨h1, h2, h3⟩ := ih _ hf
      exact ⟨by omega, h2, h3⟩
    | none =>
      rw [hf, Option.none_or] at h
      have hnone : ∀ j, j < m → p j = false := by
        intro j hj
        have := (List.find?_eq_none.mp hf) j (List.mem_range.mpr hj)
        simpa using this
      by_cases hp : p m = true
      · rw [List.find?_cons_of_pos _ hp] at h
        cases h
        exact ⟨by omega, hp, hnone⟩
      · rw [List.find?_cons_of_neg _ hp] at h
        simp at h

theorem find?_range_none (p : Nat → Bool) (m : Nat)
    (h : (List.range m).find? p = none) : ∀ j, j < m → p j = false := by
  intro j hj
  have := (List.find?_eq_none.mp h) j (List.mem_range.mpr hj)
  simpa using this

theorem find?_range_reverse_some (p : Nat → Bool) (m : Nat) :
    ∀ i, (List.range m).reverse.find? p = some i →
      i < m ∧ p i = true ∧ ∀ j, i < j → j < m → p j = false := by
  induction m with
  | zero => intro i h; simp at h
  | succ m ih =>
    intro i h
    rw [List.range_succ, List.reverse_append, List.reverse_singleton,
      List.singleton_append] at h
    by_cases hp : p m = true
    · rw [List.find?_cons_of_pos _ hp] at h
      cases h
      exact ⟨by omega, hp, fun j h1 h2 => by omega⟩
    · rw [List.find?_cons_of_neg _ hp] at h
      obtain ⟨h1, h2, h3⟩ := ih i h
      refine ⟨by omega, h2, fun j hj1 hj2 => ?_⟩
      by_cases hjm : j = m
      · subst hjm; simpa using hp
      · exact h3 j hj1 (by omega)

theorem find?_range_reverse_none (p : Nat → Bool) (m : Nat)
    (h : (List.range m).reverse.find? p = none) : ∀ j, j < m → p j = false := by
  intro j hj
  have := (List.find?_eq_none.mp h) j (List.mem_reverse.mpr (List.mem_range.mpr hj))
  simpa using this

theorem memcmp_eq_zero (n : Nat) :
    ∀ a b : List Byte, n ≤ a.length → n ≤ b.length →
      (memcmp a b n = 0 ↔ a.take n = b.take n) := by
  induction n with
  | zero => intro a b _ _; simp [memcmp]
  | succ n ih =>
    intro a b ha hb
    cases a with
    | nil => simp at ha
    | cons x xs =>
      cases b with
      | nil => simp at hb
      | cons y ys =>
        simp only [List.length_cons, Nat.add_le_add_iff_right] at ha hb
        by_cases hxy : x = y
        · subst hxy
          simp only [memcmp, if_true, List.take_succ_cons, List.cons.injEq, true_and]
          exact ih xs ys ha hb
        · simp only [memcmp, hxy, if_false, List.take_succ_cons, List.cons.injEq, false_and,
            iff_false]
          have hxy1 : ¬ (@Eq Nat x y) := hxy
          omega

theorem to_char_eq (x : Nat) :
    to_char x = if x % 256 < 128 then ((x % 256 : Nat) : Int) else ((x % 256 : Nat) : Int) - 256 :=
  rfl

theorem lower_eq_iff_fold {x y : Nat} (hx : x < 256) (hy : y < 256) :
    KAStr.to_lower_ascii (to_char x) = KAStr.to_lower_ascii (to_char y) ↔
      KAStr.fold_case x = KAStr.fold_case y := by
  have h1 : x % 256 = x := Nat.mod_eq_of_lt hx
  have h2 : y % 256 = y := Nat.mod_eq_of_lt hy
  rw [to_char_eq, to_char_eq, h1, h2]
  unfold KAStr.to_lower_ascii KAStr.fold_case
  split_ifs <;> omega

theorem all_range_iff_map (f : Nat → Int) (g : Nat → Nat) (n : Nat) :
    ∀ a b : List Byte, n ≤ a.length → n ≤ b.length →
      (∀ x ∈ a, ∀ y ∈ b, (f x = f y ↔ g x = g y)) →
      ((List.range n).all (fun i => f (a.getD i 0) == f (b.getD i 0)) = true ↔
        (a.take n).map g = (b.take n).map g) := by
  induction n with
  | zero => intro a b _ _ _; simp
  | succ n ih =>
    intro a b ha hb hfg
    cases a with
    | nil => simp at ha
    | cons x xs =>
      cases b with
      | nil => simp at hb
      | cons y ys =>
        simp only [List.length_cons, Nat.add_le_add_iff_right] at ha hb
        have hxy := hfg x (List.mem_cons_self _ _) y (List.mem_cons_self _ _)
        have ih1 := ih xs ys ha hb (fun x1 hx1 y1 hy1 =>
          hfg x1 (List.mem_cons_of_mem _ hx1) y1 (List.mem_cons_of_mem _ hy1))
        rw [List.range_succ_eq_map, List.all_cons, List.all_map]
        simp only [List.take_succ_cons, List.map_cons, List.cons.injEq, Bool.and_eq_true,
          beq_iff_eq]
        rw [← ih1, ← hxy]
        rfl

theorem ascii_equal_iff (s sub : KAStr) (cs : Bool) (i : Nat) (hs : s.valid)
    (hsub : sub.valid) (hi : i + sub.byte_size ≤ s.byte_size) :
    KAStr.ascii_equal (s.data_.drop i) sub.data_ sub.byte_size cs = true ↔
      KAStr.matches_at s sub cs i := by
  have hla : sub.byte_size ≤ (s.data_.drop i).length := by
    rw [List.length_drop]; unfold KAStr.byte_size at hi; unfold KAStr.byte_size; omega
  have hlb : sub.byte_size ≤ sub.data_.length := Nat.le_refl _
  have htake : sub.data_.take sub.byte_size = sub.data_ := List.take_length _
  cases cs
  · simp only [KAStr.ascii_equal, KAStr.matches_at, hi, true_and, Bool.false_eq_true, if_false]
    have h := all_range_iff_map (fun x => KAStr.to_lower_ascii (to_char x)) KAStr.fold_case
      sub.byte_size (s.data_.drop i) sub.data_ hla hlb
      (fun x hx y hy => lower_eq_iff_fold (hs x (List.mem_of_mem_drop hx)) (hsub y hy))
    rw [htake] at h
    exact h
  · simp only [KAStr.ascii_equal, KAStr.matches_at, hi, true_and, if_true, beq_iff_eq]
    rw [memcmp_eq_zero _ _ _ hla hlb, htake]

theorem memmem_pred_iff (s sub : KAStr) (i : Nat) (hi : i + sub.byte_size ≤ s.byte_size) :
    ((s.data_.drop i).take sub.data_.length == sub.data_) = true ↔
      KAStr.matches_at s sub true i := by
  simp only [KAStr.matches_at, hi, true_and, if_true, beq_iff_eq]
  rfl

theorem first_match_spec (p : Nat → Bool) (M : Nat → Prop) (m : Nat) (hm : m ≤ knpos)
    (hp : ∀ i, i < m → (p i = true ↔ M i)) (hM : ∀ i, M i → i < m) (r : Nat)
    (hr : r = match (List.range m).find? p with
      | some i => i
      | none => knpos) :
    (∀ i, M i → M r ∧ r ≤ i) ∧ (r = knpos ↔ ∀ i, ¬ M i) := by
  cases hf : (List.range m).find? p with
  | some k =>
    rw [hf] at hr
    simp only at hr
    subst hr
    obtain ⟨h1, h2, h3⟩ := find?_range_some p m r hf
    have hMr : M r := (hp r h1).mp h2
    refine ⟨fun i hi => ⟨hMr, ?_⟩, ?_⟩
    · by_cases hle : r ≤ i
      · exact hle
      · have hlt : i < r := by omega
        have := (hp i (hM i hi)).mpr hi
        rw [h3 i hlt] at this
        cases this
    · constructor
      · intro e; omega
      · intro hno; exact absurd hMr (hno r)
  | none =>
    rw [hf] at hr
    simp only at hr
    subst hr
    have hnone := find?_range_none p m hf
    have hno : ∀ i, ¬ M i := by
      intro i hi
      have := (hp i (hM i hi)).mpr hi
      rw [hnone i (hM i hi)] at this
      cases this
    exact ⟨fun i hi => absurd hi (hno i), ⟨fun _ => hno, fun _ => rfl⟩⟩

theorem last_match_spec (p : Nat → Bool) (M : Nat → Prop) (m : Nat) (hm : m ≤ knpos)
    (hp : ∀ i, i < m → (p i = true ↔ M i)) (hM : ∀ i, M i → i < m) (r : Nat)
    (hr : r = match (List.range m).reverse.find? p with
      | some i => i
      | none => knpos) :
    (∀ i, M i → M r ∧ i ≤ r) ∧ (r = knpos ↔ ∀ i, ¬ M i) := by
  cases hf : (List.range m).reverse.find? p with
  | some k =>
    rw [hf] at hr
    simp only at hr
    subst hr
    obtain ⟨h1, h2, h3⟩ := find?_range_reverse_some p m r hf
    have hMr : M r := (hp r h1).mp h2
    refine ⟨fun i hi => ⟨hMr, ?_⟩, ?_⟩
    · by_cases hle : i ≤ r
      · exact hle
      · have hlt : r < i := by omega
        have := (hp i (hM i hi)).mpr hi
        rw [h3 i hlt (hM i hi)] at this
        cases this
    · constructor
      · intro e; omega
      · intro hno; exact absurd hMr (hno r)
  | none =>
    rw [hf] at hr
    simp only at hr
    subst hr
    have hnone := find?_range_reverse_none p m hf
    have hno : ∀ i, ¬ M i := by
      intro i hi
      have := (hp i (hM i hi)).mpr hi
      rw [hnone i (hM i hi)] at this
      cases this
    exact ⟨fun i hi => absurd hi (hno i), ⟨fun _ => hno, fun _ => rfl⟩⟩

theorem matches_lt (s sub : KAStr) (cs : Bool) (hle : sub.byte_size ≤ s.byte_size) (i : Nat)
    (h : KAStr.matches_at s sub cs i) : i < s.byte_size - sub.byte_size + 1 := by
  have := h.1
  omega

theorem matches_zero_of_empty (s sub : KAStr) (cs : Bool) (h0 : sub.byte_size = 0) :
    KAStr.matches_at s sub cs 0 := by
  have e : sub.data_ = [] := List.eq_nil_of_length_eq_zero h0
  refine ⟨by omega, ?_⟩
  rw [h0, e]
  cases cs <;> simp

theorem matches_end_of_empty (s sub : KAStr) (cs : Bool) (h0 : sub.byte_size = 0) :
    KAStr.matches_at s sub cs s.byte_size := by
  have e : sub.data_ = [] := List.eq_nil_of_length_eq_zero h0
  refine ⟨by omega, ?_⟩
  rw [h0, e]
  cases cs <;> simp

theorem find_spec (s sub : KAStr) (cs : Bool) (hs : s.valid) (hsub : sub.valid)
    (hsz : s.byte_size < knpos) :
    (∀ i, KAStr.matches_at s sub cs i →
        KAStr.matches_at s sub cs (s.find sub cs) ∧ s.find sub cs ≤ i) ∧
      (s.find sub cs = knpos ↔ ∀ i, ¬ KAStr.matches_at s sub cs i) := by
  by_cases h0 : sub.byte_size = 0
  · have e : s.find sub cs = 0 := by simp [KAStr.find, h0]
    have hM := matches_zero_of_empty s sub cs h0
    rw [e]
    refine ⟨fun i _ => ⟨hM, Nat.zero_le _⟩, ?_⟩
    constructor
    · intro hk; exact absurd hk (by decide)
    · intro hno; exact absurd hM (hno 0)
  · by_cases hgt : sub.byte_size > s.byte_size
    · have e : s.find sub cs = knpos := by simp [KAStr.find, h0, hgt]
      have hno : ∀ i, ¬ KAStr.matches_at s sub cs i := by
        intro i hi
        have := hi.1
        omega
      rw [e]
      exact ⟨fun i hi => absurd hi (hno i), ⟨fun _ => hno, fun _ => rfl⟩⟩
    · have hle : sub.byte_size ≤ s.byte_size := by omega
      have hm : s.byte_size - sub.byte_size + 1 ≤ knpos := by omega
      cases cs
      · exact first_match_spec
          (fun i => KAStr.ascii_equal (s.data_.drop i) sub.data_ sub.byte_size false)
          (KAStr.matches_at s sub false) _ hm
          (fun i hi => ascii_equal_iff s sub false i hs hsub (by omega))
          (matches_lt s sub false hle) _
          (by simp [KAStr.find, h0, hgt])
      · have hnl : ¬ sub.data_.length > s.data_.length := hgt
        have h0n : ¬ sub.data_ = [] := fun e => h0 (by simp [KAStr.byte_size, e])
        exact first_match_spec
          (fun i => (s.data_.drop i).take sub.data_.length == sub.data_)
          (KAStr.matches_at s sub true) _ hm
          (fun i hi => memmem_pred_iff s sub i (by omega))
          (matches_lt s sub true hle) _
          (by simp [KAStr.find, h0n, hgt, memmem, hnl, KAStr.byte_size])

theorem rfind_spec (s sub : KAStr) (cs : Bool) (hs : s.valid) (hsub : sub.valid)
    (hsz : s.byte_size < knpos) :
    (∀ i, KAStr.matches_at s sub cs i →
        KAStr.matches_at s sub cs (s.rfind sub cs) ∧ i ≤ s.rfind sub cs) ∧
      (s.rfind sub cs = knpos ↔ ∀ i, ¬ KAStr.matches_at s sub cs i) := by
  by_cases hgt : sub.byte_size > s.byte_size
  · have e : s.rfind sub cs = knpos := by simp [KAStr.rfind, hgt]
    have hno : ∀ i, ¬ KAStr.matches_at s sub cs i := by
      intro i hi
      have := hi.1
      omega
    rw [e]
    exact ⟨fun i hi => absurd hi (hno i), ⟨fun _ => hno, fun _ => rfl⟩⟩
  · have hle : sub.byte_size ≤ s.byte_size := by omega
    have hm : s.byte_size - sub.byte_size + 1 ≤ knpos := by omega
    exact last_match_spec
      (fun i => KAStr.ascii_equal (s.data_.drop i) sub.data_ sub.byte_size cs)
      (KAStr.matches_at s sub cs) _ hm
      (fun i hi => ascii_equal_iff s sub cs i hs hsub (by omega))
      (matches_lt s sub cs hle) _
      (by simp [KAStr.rfind, hgt])

/-! ## Searching in a view -/

/-- C26: `find(sub, case_sensitive)` returns the smallest index at which `sub` matches (so it
is itself a match and no match lies before it) whenever a match exists, returns `knpos` exactly
when there is no match, returns 0 for an empty `sub` and `knpos` for a `sub` longer than the
view. -/
theorem find_finds (s sub : KAStr) (cs : Bool) (hs : s.valid) (hsub : sub.valid)
    (hsz : s.byte_size < knpos) :
    (∀ i, KAStr.matches_at s sub cs i →
        KAStr.matches_at s sub cs (s.find sub cs) ∧ s.find sub cs ≤ i) ∧
      (s.find sub cs = knpos ↔ ∀ i, ¬ KAStr.matches_at s sub cs i) ∧
      (sub.byte_size = 0 → s.find sub cs = 0) ∧
      (s.byte_size < sub.byte_size → s.find sub cs = knpos) := by
  have h := find_spec s sub cs hs hsub hsz
  refine ⟨h.1, h.2, ?_, ?_⟩
  · intro h0
    have := (h.1 0 (matches_zero_of_empty s sub cs h0)).2
    omega
  · intro hlt
    refine h.2.2 ?_
    intro i hi
    have := hi.1
    omega

theorem find_finds_witness :
    KAStr.matches_at ⟨[97, 98, 114, 97, 99, 97, 100, 97, 98, 114, 97]⟩ ⟨[97, 98, 114, 97]⟩ true 7 ∧
      KAStr.find ⟨[97, 98, 114, 97, 99, 97, 100, 97, 98, 114, 97]⟩ ⟨[97, 98, 114, 97]⟩ true ≤ 7 :=
  ⟨by decide,
    ((find_finds ⟨[97, 98, 114, 97, 99, 97, 100, 97, 98, 114, 97]⟩ ⟨[97, 98, 114, 97]⟩ true
      (by decide) (by decide) (by decide)).1 7 (by decide)).2⟩

/-- C27: `rfind(sub, case_sensitive)` returns the largest index at which `sub` matches whenever
a match exists, returns `knpos` exactly when there is no match, returns `byte_size()` for an
empty `sub`, and is never below `find` when `find` finds something. -/
theorem rfind_finds (s sub : KAStr) (cs : Bool) (hs : s.valid) (hsub : sub.valid)
    (hsz : s.byte_size < knpos) :
    (∀ i, KAStr.matches_at s sub cs i →
        KAStr.matches_at s sub cs (s.rfind sub cs) ∧ i ≤ s.rfind sub cs) ∧
      (s.rfind sub cs = knpos ↔ ∀ i, ¬ KAStr.matches_at s sub cs i) ∧
      (sub.byte_size = 0 → s.rfind sub cs = s.byte_size) ∧
      (s.find sub cs ≠ knpos → s.find sub cs ≤ s.rfind sub cs) := by
  have h := rfind_spec s sub cs hs hsub hsz
  have hf := find_spec s sub cs hs hsub hsz
  refine ⟨h.1, h.2, ?_, ?_⟩
  · intro h0
    have hm := h.1 _ (matches_end_of_empty s sub cs h0)
    have := hm.1.1
    have := hm.2
    omega
  · intro hne
    by_contra hlt
    refine hne (hf.2.2 ?_)
    intro i hi
    have h1 := (hf.1 i hi).1
    exact hlt (h.1 _ h1).2

theorem rfind_finds_witness :
    KAStr.find ⟨[97, 98, 114, 97, 99, 97, 100, 97, 98, 114, 97]⟩ ⟨[97, 98, 114, 97]⟩ true ≠ knpos ∧
      KAStr.find ⟨[97, 98, 114, 97, 99, 97, 100, 97, 98, 114, 97]⟩ ⟨[97, 98, 114, 97]⟩ true ≤
        KAStr.rfind ⟨[97, 98, 114, 97, 99, 97, 100, 97, 98, 114, 97]⟩ ⟨[97, 98, 114, 97]⟩ true :=
  ⟨by decide,
    (rfind_finds ⟨[97, 98, 114, 97, 99, 97, 100, 97, 98, 114, 97]⟩ ⟨[97, 98, 114, 97]⟩ true
      (by decide) (by decide) (by decide)).2.2.2 (by decide)⟩

/-! ## Ordering of strings -/

/-- C28: `KAString::compare` does not order like a byte-wise lexicographic comparison. For
`a = "b"` and `b = "aa"` the string `b` precedes `a` lexicographically (so does the `operator<`
of the views), yet `a.compare(b)` is negative and `a < b` holds for the strings, because
`compare` looks at the lengths first. -/
theorem compare_orders_by_length_first :
    (KAString.ctor_str (fun _ => 0) [98]).as_kastr = ⟨[98]⟩ ∧
      (KAString.ctor_str (fun _ => 0) [97, 97]).as_kastr = ⟨[97, 97]⟩ ∧
      lexicographical_compare [97, 97] [98] = true ∧
      lexicographical_compare [98] [97, 97] = false ∧
      KAStr.op_lt (KAString.ctor_str (fun _ => 0) [98]).as_kastr
        (KAString.ctor_str (fun _ => 0) [97, 97]).as_kastr = false ∧
      KAString.compare (KAString.ctor_str (fun _ => 0) [98])
        (KAString.ctor_str (fun _ => 0) [97, 97]) = -1 ∧
      KAString.op_lt (KAString.ctor_str (fun _ => 0) [98])
        (KAString.ctor_str (fun _ => 0) [97, 97]) = true ∧
      KAString.compare (KAString.ctor_str (fun _ => 0) [97, 97])
        (KAString.ctor_str (fun _ => 0) [98]) = 1 := by
  decide

/-! ## Replacing a range of a string -/

theorem of_char_to_char (b : Nat) (h : b < 256) : @Eq Nat (of_char (to_char b)) b := by
  unfold of_char
  rw [to_char_eq]
  split_ifs <;> omega

theorem take_overwrite {d r src : List Byte} {pos n len : Nat} (h1 : pos + n ≤ len)
    (h2 : len ≤ d.length) (hn : src.length = n)
    (hr : ∀ j, r[j]? = if pos ≤ j ∧ j < pos + n then src[j - pos]? else d[j]?) :
    r.take len = (d.take len).take pos ++ src ++ (d.take len).drop (pos + n) := by
  apply List.ext_getElem?
  intro j
  have hl : ((d.take len).take pos).length = pos := by
    simp only [List.length_take]; omega
  have hl2 : ((d.take len).take pos ++ src).length = pos + n := by
    rw [List.length_append, hl, hn]
  rw [List.getElem?_take, List.getElem?_append, hl2, List.getElem?_append, hl,
    List.getElem?_take, List.getElem?_drop, List.getElem?_take, List.getElem?_take, hr]
  by_cases hj : j < pos
  · have a1 : j < len := by omega
    have a2 : ¬ (pos ≤ j ∧ j < pos + n) := by omega
    have a3 : j < pos + n := by omega
    rw [if_neg a2]
    simp only [a1, a3, hj, if_true]
  · by_cases hj2 : j < pos + n
    · have a1 : j < len := by omega
      have a2 : pos ≤ j := by omega
      simp only [a1, a2, hj2, hj, if_true, if_false, and_self]
    · have a2 : ¬ (pos ≤ j ∧ j < pos + n) := by omega
      have e : pos + n + (j - (pos + n)) = j := by omega
      rw [e, if_neg a2]
      simp only [hj2, if_false]

theorem foldl_set_index_inline (v : Nat → Byte) (pos : Nat) (l : List Nat) :
    ∀ s : SSOBytes, s.is_sso = true →
      l.foldl (fun t i => t.set_index (pos + i) (v i)) s =
        { s with sso_data := l.foldl (fun d i => d.set (pos + i) (v i)) s.sso_data } := by
  induction l with
  | nil => intro s _; rfl
  | cons a l ih =>
    intro s hs
    have e : s.set_index (pos + a) (v a) = { s with sso_data := s.sso_data.set (pos + a) (v a) } := by
      simp [set_index, hs]
    rw [List.foldl_cons, List.foldl_cons, e]
    exact ih { s with sso_data := s.sso_data.set (pos + a) (v a) } hs

theorem foldl_set_index_heap (v : Nat → Byte) (pos : Nat) (l : List Nat) :
    ∀ s : SSOBytes, s.is_sso = false →
      l.foldl (fun t i => t.set_index (pos + i) (v i)) s =
        { s with heap_vec := { s.heap_vec with
            elems := l.foldl (fun d i => d.set (pos + i) (v i)) s.heap_vec.elems } } := by
  induction l with
  | nil => intro s _; rfl
  | cons a l ih =>
    intro s hs
    have e : s.set_index (pos + a) (v a) =
        { s with heap_vec := { s.heap_vec with
            elems := s.heap_vec.elems.set (pos + a) (v a) } } := by
      simp [set_index, hs]
    rw [List.foldl_cons, List.foldl_cons, e]
    exact ih { s with heap_vec := { s.heap_vec with elems := s.heap_vec.elems.set (pos + a) (v a) } } hs

/-- The loop of `replace` never leaves its range: it runs to the end and stores the bytes of
`after` one by one. -/
theorem replace_loop (after : KAStr) (ha : after.valid) (pos : Nat) (s : KAString) :
    ∀ n, n ≤ after.byte_size →
      (List.range n).foldl
        (fun (st : Outcome KAString) i =>
          match st with
          | .ok t =>
            match after.op_index i with
            | .ok c => .ok { data_ := t.data_.set_index (pos + i) (of_char c) }
            | .error e => .thrown e t
          | .thrown e t => .thrown e t
          | .undefined => .undefined)
        (.ok s) =
      .ok (KAString.mk ((List.range n).foldl
        (fun t i => t.set_index (pos + i) (after.data_.getD i 0)) s.data_)) := by
  intro n
  induction n with
  | zero => intro _; rfl
  | succ n ih =>
    intro hn
    have hlt : n < after.data_.length := hn
    have hb : after.data_.getD n 0 < 256 := by
      rw [List.getD_eq_getElem _ _ hlt]
      exact ha _ (List.getElem_mem _)
    have e : after.op_index n = .ok (to_char (after.data_.getD n 0)) := by
      have hnl : ¬ (n ≥ after.data_.length) := by omega
      unfold KAStr.op_index KAStr.byte_at
      rw [if_neg hnl]
    rw [List.range_succ, List.foldl_append, List.foldl_append, ih (by omega)]
    simp only [List.foldl_cons, List.foldl_nil, e]
    have := of_char_to_char _ hb
    rw [this]

theorem replace_in_place (s : KAString) (pos : Nat) (after : KAStr) (h : s.data_.wf)
    (hle : pos + after.byte_size ≤ s.byte_size) :
    (KAString.mk ((List.range after.byte_size).foldl
      (fun t i => t.set_index (pos + i) (after.data_.getD i 0)) s.data_)).as_kastr.data_ =
      s.as_kastr.data_.take pos ++ after.data_ ++ s.as_kastr.data_.drop (pos + after.byte_size) := by
  have hC := SSO_CAPACITY_eq
  by_cases hs : s.data_.is_sso = true
  · have ht := wf_inline h hs
    have hsz : s.byte_size = s.data_.tag := size_inline hs
    rw [foldl_set_index_inline _ _ _ _ hs]
    have hloop := copy_loop after.data_ pos after.byte_size (Nat.le_refl _) s.data_.sso_data
      (by rw [h.1]; omega)
    have e := @take_overwrite s.data_.sso_data _ after.data_ pos after.byte_size s.data_.tag
      (by omega) (by rw [h.1]; omega) rfl hloop
    simp only [KAString.as_kastr, SSOBytes.data, SSOBytes.size]
    have hs1 : ∀ d : List Byte, SSOBytes.is_sso
        { sso_data := d, tag := s.data_.tag, heap_vec := s.data_.heap_vec } = true :=
      fun _ => hs
    simp only [hs1, hs, if_true]
    exact e
  · have hs0 : s.data_.is_sso = false := by simpa using hs
    have hsz : s.byte_size = s.data_.heap_vec.elems.length := size_heap hs0
    rw [foldl_set_index_heap _ _ _ _ hs0]
    have hloop := copy_loop after.data_ pos after.byte_size (Nat.le_refl _)
      s.data_.heap_vec.elems (by omega)
    have hlen := length_foldl_set (fun i => pos + i) (fun _ i => after.data_.getD i 0)
      (List.range after.byte_size) s.data_.heap_vec.elems
    have e := @take_overwrite s.data_.heap_vec.elems _ after.data_ pos after.byte_size
      s.data_.heap_vec.elems.length (by omega) (Nat.le_refl _) rfl hloop
    simp only [KAString.as_kastr, SSOBytes.data, SSOBytes.size, ByteVec.size]
    have hs1 : ∀ v : ByteVec, SSOBytes.is_sso
        { sso_data := s.data_.sso_data, tag := s.data_.tag, heap_vec := v } = false :=
      fun _ => hs0
    simp only [hs1, hs0, Bool.false_eq_true, if_false, hlen]
    exact e

/-- The function `replace` on a view `after` outside the string `s`: when `pos < |s|` and
`pos + len ≤ |s|` the call returns and the string then reads
`old[0..pos) ++ after ++ old[pos+len..)`, on the path that overwrites in place as on the path
that erases and inserts; in every other case it throws `std::out_of_range` and leaves the
string as it was. -/
theorem replace_outside (s : KAString) (pos len : Nat) (after : KAStr) (h : s.data_.wf)
    (ha : after.valid) (hpos : pos < 2 ^ 64) (hlen : len < 2 ^ 64)
    (hsz : s.byte_size + after.byte_size < 2 ^ 64) :
    (pos < s.byte_size ∧ pos + len ≤ s.byte_size →
      ∃ s1, s.replace pos len after = .ok s1 ∧
        s1.as_kastr.data_ =
          s.as_kastr.data_.take pos ++ after.data_ ++ s.as_kastr.data_.drop (pos + len)) ∧
    (¬ (pos < s.byte_size ∧ pos + len ≤ s.byte_size) →
      ∃ what, s.replace pos len after = .thrown (.out_of_range what) s) := by
  constructor
  · rintro ⟨hp, hle⟩
    have hw : (pos + len) % 2 ^ 64 = pos + len := Nat.mod_eq_of_lt (by omega)
    have c1 : ¬ (pos ≥ s.byte_size ∨ pos + len > s.byte_size) := by omega
    by_cases hl : len = after.byte_size
    · subst hl
      refine ⟨_, ?_, replace_in_place s pos after h hle⟩
      unfold KAString.replace
      simp only [hw, Bool.or_eq_true, decide_eq_true_eq, c1, if_false, beq_self_eq_true, if_true]
      exact replace_loop after ha pos s _ (Nat.le_refl _)
    · obtain ⟨s1, e1, b1, _⟩ := erase_range_ok s.data_ pos (pos + len) h (by omega) hle
      have wf1 := wf_erase_range h e1
      have hlb : s.data_.bytes.length = s.byte_size := length_bytes h
      have hp1 : pos ≤ s1.size := by
        rw [← length_bytes wf1, b1, List.length_append, List.length_take, List.length_drop]
        omega
      obtain ⟨s2, e2, b2, _⟩ := insert_range_ok s1 pos after.data_ wf1 hp1
      refine ⟨⟨s2⟩, ?_, ?_⟩
      · unfold KAString.replace
        simp only [hw, Bool.or_eq_true, decide_eq_true_eq, c1, if_false, beq_iff_eq, hl, e1, e2]
      · show s2.bytes = s.data_.bytes.take pos ++ after.data_ ++ s.data_.bytes.drop (pos + len)
        have hl1 : (s.data_.bytes.take pos).length = pos := by
          rw [List.length_take]; omega
        rw [b2, b1, List.take_left' hl1, List.drop_left' hl1]
  · intro hno
    by_cases hp : pos ≥ s.byte_size
    · refine ⟨"KAString::replace(pos, len, after)", ?_⟩
      unfold KAString.replace
      simp only [Bool.or_eq_true, decide_eq_true_eq, hp, true_or, if_true]
    · have hgt : pos + len > s.byte_size := by omega
      by_cases hwrap : pos + len < 2 ^ 64
      · have hw : (pos + len) % 2 ^ 64 = pos + len := Nat.mod_eq_of_lt hwrap
        refine ⟨"KAString::replace(pos, len, after)", ?_⟩
        unfold KAString.replace
        simp only [hw, Bool.or_eq_true, decide_eq_true_eq, hgt, or_true, if_true]
      · have hw : (pos + len) % 2 ^ 64 < pos := by omega
        have c1 : ¬ (pos ≥ s.byte_size ∨ (pos + len) % 2 ^ 64 > s.byte_size) := by omega
        have hl : ¬ len = after.byte_size := by omega
        have e1 := erase_range_thrown s.data_ pos ((pos + len) % 2 ^ 64) (Or.inl hw)
        refine ⟨"SSOBytes::erase(from, to)", ?_⟩
        unfold KAString.replace
        simp only [Bool.or_eq_true, decide_eq_true_eq, c1, if_false, beq_iff_eq, hl, e1]

/-! ## Splitting a view into lines -/

theorem lines_spec_nil (cur : List Byte) :
    KAStr.lines_spec [] cur = if cur = [] then [] else [cur] := by
  rw [KAStr.lines_spec]

theorem lines_spec_lf (rest cur : List Byte) :
    KAStr.lines_spec (10 :: rest) cur = cur :: KAStr.lines_spec rest [] := by
  rw [KAStr.lines_spec.eq_def]; simp

theorem lines_spec_cr_end (cur : List Byte) : KAStr.lines_spec [13] cur = [cur] := by
  rw [KAStr.lines_spec]; simp

theorem lines_spec_crlf (rest cur : List Byte) :
    KAStr.lines_spec (13 :: 10 :: rest) cur = cur :: KAStr.lines_spec rest [] := by
  rw [KAStr.lines_spec]; simp

theorem lines_spec_cr (c : Byte) (rest cur : List Byte) (hc : ¬ c = 10) :
    KAStr.lines_spec (13 :: c :: rest) cur = cur :: KAStr.lines_spec (c :: rest) [] := by
  rw [KAStr.lines_spec]; simp [hc]

theorem lines_spec_other (b : Byte) (rest cur : List Byte) (h10 : ¬ b = 10) (h13 : ¬ b = 13) :
    KAStr.lines_spec (b :: rest) cur = KAStr.lines_spec rest (cur ++ [b]) := by
  rw [KAStr.lines_spec.eq_def]; simp [h10, h13]

theorem drop_eq_getD_cons (d : List Byte) (k : Nat) (h : k < d.length) :
    d.drop k = d.getD k 0 :: d.drop (k + 1) := by
  rw [List.getD_eq_getElem _ _ h]
  exact List.drop_eq_getElem_cons h

theorem take_drop_succ (d : List Byte) (start k : Nat) (h1 : start ≤ k) (h2 : k < d.length) :
    (d.drop start).take (k + 1 - start) = (d.drop start).take (k - start) ++ [d.getD k 0] := by
  have e : k + 1 - start = (k - start) + 1 := by omega
  have e2 : start + (k - start) = k := by omega
  rw [e, List.take_succ, List.getElem?_drop, e2, List.getElem?_eq_getElem h2,
    List.getD_eq_getElem _ _ h2]
  rfl

theorem lines_inv_init (s : KAStr) :
    KAStr.lines_inv s 0 { result := [], start := 0, skip := false } := by
  simp [KAStr.lines_inv, KAStr.lines_next]

theorem lines_body_inv (s : KAStr) (k : Nat) (st : KAStr.LinesState) (hk : k < s.byte_size)
    (h : KAStr.lines_inv s k st) : KAStr.lines_inv s (k + 1) (KAStr.lines_body s st k) := by
  obtain ⟨res, start, skip⟩ := st
  cases skip with
  | true =>
    simpa [KAStr.lines_inv, KAStr.lines_next, KAStr.lines_body] using h
  | false =>
    have hkn : k < s.data_.length := hk
    have hd := drop_eq_getD_cons s.data_ k hkn
    simp only [KAStr.lines_inv, KAStr.lines_next, Bool.false_eq_true, if_false] at h
    obtain ⟨h1, h2, h3, h4, h5⟩ := h
    have hseg := take_drop_succ s.data_ start k h1 hkn
    rw [hd] at h3
    by_cases c10 : s.data_.getD k 0 = 10
    · have e : KAStr.lines_body s ⟨res, start, false⟩ k =
          ⟨res ++ [⟨(s.data_.drop start).take (k - start)⟩], k + 1, false⟩ := by
        simp only [KAStr.lines_body, Bool.false_eq_true, if_false, if_true, beq_iff_eq,
          Bool.and_eq_true, decide_eq_true_eq, c10]
      rw [e]
      rw [c10, lines_spec_lf] at h3
      simp only [KAStr.lines_inv, KAStr.lines_next, Bool.false_eq_true, if_false]
      refine ⟨Nat.le_refl _, hk, ?_, ?_, ?_⟩
      · rw [← h3]; simp
      · intro l hl
        rcases List.mem_append.1 hl with hl | hl
        · exact h4 l hl
        · rw [List.mem_singleton.1 hl]; exact h5
      · simp
    · by_cases c13 : s.data_.getD k 0 = 13
      · by_cases clf : k + 1 < s.byte_size ∧ s.data_.getD (k + 1) 0 = 10
        · have e : KAStr.lines_body s ⟨res, start, false⟩ k =
              ⟨res ++ [⟨(s.data_.drop start).take (k - start)⟩], k + 2, true⟩ := by
            have d10 : ¬ s.data_.getD k 0 = 10 := c10
            simp only [KAStr.lines_body, Bool.false_eq_true, if_false, if_true, beq_iff_eq,
          Bool.and_eq_true, decide_eq_true_eq, d10, c13, clf, and_self]
            exact if_neg (by decide)
          have hd2 := drop_eq_getD_cons s.data_ (k + 1) clf.1
          rw [e]
          rw [c13, hd2, clf.2, lines_spec_crlf] at h3
          simp only [KAStr.lines_inv, KAStr.lines_next, if_true]
          refine ⟨Nat.le_refl _, clf.1, ?_, ?_, ?_⟩
          · rw [← h3]; simp
          · intro l hl
            rcases List.mem_append.1 hl with hl | hl
            · exact h4 l hl
            · rw [List.mem_singleton.1 hl]; exact h5
          · simp
        · have e : KAStr.lines_body s ⟨res, start, false⟩ k =
              ⟨res ++ [⟨(s.data_.drop start).take (k - start)⟩], k + 1, false⟩ := by
            have hc : ¬ (k + 1 < s.byte_size ∧ s.data_.getD (k + 1) 0 = 10) := clf
            simp only [KAStr.lines_body, Bool.false_eq_true, if_false, if_true, beq_iff_eq,
          Bool.and_eq_true, decide_eq_true_eq, c10, c13, hc]
            exact if_neg (by decide)
          rw [e]
          simp only [KAStr.lines_inv, KAStr.lines_next, Bool.false_eq_true, if_false]
          refine ⟨Nat.le_refl _, hk, ?_, ?_, ?_⟩
          · rw [← h3, c13]
            by_cases hend : k + 1 < s.data_.length
            · have hd2 := drop_eq_getD_cons s.data_ (k + 1) hend
              have hc : ¬ s.data_.getD (k + 1) 0 = 10 := fun e1 => clf ⟨hend, e1⟩
              rw [hd2, lines_spec_cr _ _ _ hc]
              simp
            · have hnil : s.data_.drop (k + 1) = [] := List.drop_eq_nil_of_le (by omega)
              rw [hnil, lines_spec_cr_end, lines_spec_nil]
              simp
          · intro l hl
            rcases List.mem_append.1 hl with hl | hl
            · exact h4 l hl
            · rw [List.mem_singleton.1 hl]; exact h5
          · simp
      · have e : KAStr.lines_body s ⟨res, start, false⟩ k = ⟨res, start, false⟩ := by
          simp only [KAStr.lines_body, Bool.false_eq_true, if_false, if_true, beq_iff_eq,
          Bool.and_eq_true, decide_eq_true_eq, c10, c13]
        rw [e]
        rw [lines_spec_other _ _ _ c10 c13] at h3
        simp only [KAStr.lines_inv, KAStr.lines_next, Bool.false_eq_true, if_false]
        refine ⟨by omega, hk, ?_, h4, ?_⟩
        · rw [hseg]; exact h3
        · rw [hseg]
          intro b hb
          rcases List.mem_append.1 hb with hb | hb
          · exact h5 b hb
          · rw [List.mem_singleton.1 hb]; exact ⟨c10, c13⟩

theorem lines_loop (s : KAStr) : ∀ k, k ≤ s.byte_size →
    KAStr.lines_inv s k ((List.range k).foldl (KAStr.lines_body s)
      { result := [], start := 0, skip := false }) := by
  intro k
  induction k with
  | zero => intro _; exact lines_inv_init s
  | succ k ih =>
    intro hk
    rw [List.range_succ, List.foldl_append, List.foldl_cons, List.foldl_nil]
    exact lines_body_inv s k _ (by omega) (ih (by omega))

/-- C30: `lines()` returns, in order, the segments between line terminators (`\n`, `\r\n`
counted as one, or a lone `\r`), leaving out the final segment when it is empty; no returned
line holds a `\n` or a `\r`, and the empty input gives no line at all. -/
theorem lines_splits (s : KAStr) :
    s.lines.map (fun l => l.data_) = KAStr.lines_spec s.data_ [] ∧
      (∀ l ∈ s.lines, ∀ b ∈ l.data_, b ≠ 10 ∧ b ≠ 13) ∧
      (s.data_ = [] → s.lines = []) := by
  have hinv := lines_loop s s.byte_size (Nat.le_refl _)
  refine ⟨?_, ?_, ?_⟩
  · unfold KAStr.lines
    generalize (List.range s.byte_size).foldl (KAStr.lines_body s)
      { result := [], start := 0, skip := false } = st at hinv
    obtain ⟨res, start, skip⟩ := st
    cases skip with
    | true =>
      have := hinv.2.1
      simp [KAStr.lines_next] at this
    | false =>
      simp only [KAStr.lines_inv, KAStr.lines_next, Bool.false_eq_true, if_false] at hinv
      obtain ⟨h1, _, h3, _, _⟩ := hinv
      have hnil : s.data_.drop s.byte_size = [] := List.drop_eq_nil_of_le (Nat.le_refl _)
      rw [hnil, lines_spec_nil] at h3
      rw [← h3]
      by_cases hlt : start < s.byte_size
      · have hne : ¬ (s.data_.drop start).take (s.byte_size - start) = [] := by
          intro e
          have hl := congrArg List.length e
          simp only [List.length_take, List.length_drop, List.length_nil, KAStr.byte_size] at hl
          unfold KAStr.byte_size at hlt
          omega
        simp [hlt, hne]
      · have he : (s.data_.drop start).take (s.byte_size - start) = [] := by
          have : s.byte_size - start = 0 := by omega
          rw [this]; rfl
        simp [hlt, he]
  · unfold KAStr.lines
    generalize (List.range s.byte_size).foldl (KAStr.lines_body s)
      { result := [], start := 0, skip := false } = st at hinv
    obtain ⟨res, start, skip⟩ := st
    cases skip with
    | true =>
      have := hinv.2.1
      simp [KAStr.lines_next] at this
    | false =>
      simp only [KAStr.lines_inv, KAStr.lines_next, Bool.false_eq_true, if_false] at hinv
      obtain ⟨_, _, _, h4, h5⟩ := hinv
      intro l hl
      by_cases hlt : start < s.byte_size
      · simp only [hlt, if_true] at hl
        rcases List.mem_append.1 hl with hl | hl
        · exact h4 l hl
        · rw [List.mem_singleton.1 hl]; exact h5
      · simp only [hlt, if_false] at hl
        exact h4 l hl
  · intro he
    simp [KAStr.lines, KAStr.byte_size, he]

/-! ## Relations between the appending calls -/

theorem bool_eq_of_iff {a b : Bool} (h : a = true ↔ b = true) : a = b := by
  cases a <;> cases b <;> simp at h ⊢

/-- C35: `push_back(b)` and `append` of the one-byte range `[b]` leave the same bytes, the same
size and the same form, for every buffer, the full inline buffer included. -/
theorem push_back_is_append (s : SSOBytes) (b : Byte) (h : s.wf) :
    (s.push_back b).bytes = (s.append [b]).bytes ∧
      (s.push_back b).size = (s.append [b]).size ∧
      (s.push_back b).is_sso = (s.append [b]).is_sso := by
  obtain ⟨hw, hb, hf⟩ := push_back_spec s b h
  obtain ⟨hb2, hf2⟩ := append_spec s [b] h
  have hbytes : (s.push_back b).bytes = (s.append [b]).bytes := by rw [hb, hb2]
  refine ⟨hbytes, ?_, ?_⟩
  · rw [← length_bytes hw, ← length_bytes (wf_append h [b]), hbytes]
  · apply bool_eq_of_iff
    rw [hf, hf2]
    simp only [List.length_singleton]
    constructor
    · rintro ⟨h1, h2⟩; exact ⟨h1, by omega⟩
    · rintro ⟨h1, h2⟩; exact ⟨h1, by omega⟩

theorem push_back_is_append_witness :
    (ctor_str (uninit (fun _ => 0)) (List.replicate 24 97)).wf ∧
      (ctor_str (uninit (fun _ => 0)) (List.replicate 24 97)).size = SSO_CAPACITY ∧
      ((ctor_str (uninit (fun _ => 0)) (List.replicate 24 97)).push_back 98).is_sso =
        ((ctor_str (uninit (fun _ => 0)) (List.replicate 24 97)).append [98]).is_sso :=
  ⟨by decide, by decide,
    (push_back_is_append (ctor_str (uninit (fun _ => 0)) (List.replicate 24 97)) 98
      (by decide)).2.2⟩

/-- C36: `push_back(b)` followed by `pop_back()` returns normally and gives back the size and
the bytes the buffer had, so that the buffer compares `==` to a copy taken beforehand, also
when the `push_back` promoted the buffer to the heap form. -/
theorem push_back_pop_back (junk : Nat → Byte) (s : SSOBytes) (b : Byte) (h : s.wf) :
    ∃ s1, (s.push_back b).pop_back = .ok s1 ∧ s1.bytes = s.bytes ∧ s1.size = s.size ∧
      s1.op_eq (ctor_copy (uninit junk) s) = true ∧
      (ctor_copy (uninit junk) s).op_eq s1 = true := by
  obtain ⟨hw, hb, _⟩ := push_back_spec s b h
  have hne : (s.push_back b).size ≠ 0 := by
    rw [← length_bytes hw, hb, List.length_append, List.length_singleton]
    omega
  obtain ⟨s1, e, hb1, _⟩ := pop_back_nonempty (s.push_back b) hw hne
  have hw1 := wf_pop_back hw e
  have hbytes : s1.bytes = s.bytes := by rw [hb1, hb, List.dropLast_concat]
  obtain ⟨hwc, hbc, _⟩ := @ctor_copy_spec (uninit junk) s (wf_uninit junk) h
  refine ⟨s1, e, hbytes, ?_, ?_, ?_⟩
  · rw [← length_bytes hw1, ← length_bytes h, hbytes]
  · rw [op_eq_iff_bytes hw1 hwc, hbytes, hbc]
  · rw [op_eq_iff_bytes hwc hw1, hbytes, hbc]

theorem push_back_pop_back_witness :
    (ctor_str (uninit (fun _ => 0)) (List.replicate 24 97)).wf ∧
      ((ctor_str (uninit (fun _ => 0)) (List.replicate 24 97)).push_back 98).is_sso = false ∧
      ∃ s1, ((ctor_str (uninit (fun _ => 0)) (List.replicate 24 97)).push_back 98).pop_back =
          .ok s1 ∧
        s1.bytes = (ctor_str (uninit (fun _ => 0)) (List.replicate 24 97)).bytes :=
  ⟨by decide, by decide,
    (push_back_pop_back (fun _ => 0) (ctor_str (uninit (fun _ => 0)) (List.replicate 24 97)) 98
      (by decide)).imp (fun _ hx => ⟨hx.1, hx.2.1⟩)⟩

/-- C37: `append(u)` followed by `append(v)` leaves the same bytes, the same size and the same
form as the single call `append(u ++ v)`. -/
theorem append_twice (s : SSOBytes) (u v : List Byte) (h : s.wf) :
    ((s.append u).append v).bytes = (s.append (u ++ v)).bytes ∧
      ((s.append u).append v).size = (s.append (u ++ v)).size ∧
      ((s.append u).append v).is_sso = (s.append (u ++ v)).is_sso := by
  have hwu := wf_append h u
  obtain ⟨hbu, hfu⟩ := append_spec s u h
  obtain ⟨hbv, hfv⟩ := append_spec (s.append u) v hwu
  obtain ⟨hb, hf⟩ := append_spec s (u ++ v) h
  have hsu : (s.append u).size = s.size + u.length := by
    rw [← length_bytes hwu, hbu, List.length_append, length_bytes h]
  have hbytes : ((s.append u).append v).bytes = (s.append (u ++ v)).bytes := by
    rw [hbv, hbu, hb, List.append_assoc]
  refine ⟨hbytes, ?_, ?_⟩
  · rw [← length_bytes (wf_append hwu v), ← length_bytes (wf_append h (u ++ v)), hbytes]
  · apply bool_eq_of_iff
    rw [hfv, hfu, hf, hsu, List.length_append]
    constructor
    · rintro ⟨⟨h1, _⟩, h3⟩; exact ⟨h1, by omega⟩
    · rintro ⟨h1, h2⟩; exact ⟨⟨h1, by omega⟩, by omega⟩

theorem append_twice_witness :
    (ctor_str (uninit (fun _ => 0)) (List.replicate 20 97)).wf ∧
      (((ctor_str (uninit (fun _ => 0)) (List.replicate 20 97)).append [1, 2, 3]).append
        [4, 5, 6]).is_sso =
        ((ctor_str (uninit (fun _ => 0)) (List.replicate 20 97)).append
          ([1, 2, 3] ++ [4, 5, 6])).is_sso :=
  ⟨by decide,
    (append_twice (ctor_str (uninit (fun _ => 0)) (List.replicate 20 97)) [1, 2, 3] [4, 5, 6]
      (by decide)).2.2⟩

/-! ## Chopping a string -/

theorem bytes_clear (s : SSOBytes) : s.clear.bytes = [] := by
  by_cases hs : s.is_sso = true
  · have e : s.clear = { s with tag := 0 } := by simp [clear, hs]
    have hs1 : s.clear.is_sso = true := by rw [e]; exact is_sso_of_le (Nat.zero_le _)
    rw [bytes_inline hs1, e]; rfl
  · have hs0 : s.is_sso = false := by simpa using hs
    have e : s.clear = { s with heap_vec := s.heap_vec.clear } := by simp [clear, hs0]
    have hs1 : s.clear.is_sso = false := by rw [e]; exact hs0
    rw [bytes_heap hs1, e]; rfl

/-- C34: `chopped(n)` returns the content the string has after `chop(n)`: the first
`|s| - n` bytes when `n < |s|` and nothing when `n ≥ |s|`. (`chopped` does not write to the
string: the function has no new state for it.) -/
theorem chopped_is_chop (junk : Nat → Byte) (s : KAString) (n : Nat) (h : s.data_.wf) :
    (s.chopped junk n).as_kastr = (s.chop n).as_kastr ∧
      (n < s.byte_size →
        (s.chop n).as_kastr.data_ = s.as_kastr.data_.take (s.byte_size - n)) ∧
      (n ≥ s.byte_size → (s.chop n).as_kastr.data_ = []) := by
  have hd : (SSOBytes.ctor_default (uninit junk)).wf := wf_ctor_default (wf_uninit junk)
  by_cases hn : n ≥ s.data_.size
  · have e1 : s.chop n = ⟨s.data_.clear⟩ := by simp [KAString.chop, hn]
    have e2 : s.chopped junk n = ⟨(SSOBytes.ctor_default (uninit junk)).clear⟩ := by
      simp [KAString.chopped, KAString.ctor_default, hn]
    have b1 : (s.chop n).as_kastr.data_ = [] := by rw [e1]; exact bytes_clear _
    have b2 : (s.chopped junk n).as_kastr.data_ = [] := by rw [e2]; exact bytes_clear _
    refine ⟨?_, ?_, fun _ => b1⟩
    · show KAStr.mk (s.chopped junk n).as_kastr.data_ = KAStr.mk (s.chop n).as_kastr.data_
      rw [b1, b2]
    · intro hlt
      exact absurd hn (by unfold KAString.byte_size at hlt; omega)
  · have hn1 : ¬ (s.data_.size ≤ n) := hn
    have e1 : s.chop n = ⟨s.data_.resize (s.data_.size - n) 0⟩ := by
      simp [KAString.chop, hn1]
    have e2 : s.chopped junk n =
        ⟨(SSOBytes.ctor_default (uninit junk)).assign (s.data_.bytes.take (s.data_.size - n))⟩ := by
      simp [KAString.chopped, KAString.ctor_default, hn1]
    have hz : s.data_.size - n - s.data_.size = 0 := by omega
    have b1 : (s.chop n).as_kastr.data_ = s.data_.bytes.take (s.data_.size - n) := by
      rw [e1]
      show (s.data_.resize (s.data_.size - n) 0).bytes = _
      rw [(resize_spec s.data_ _ 0 h).1, hz]
      simp
    have b2 : (s.chopped junk n).as_kastr.data_ = s.data_.bytes.take (s.data_.size - n) := by
      rw [e2]
      exact (assign_spec _ _ hd).1
    refine ⟨?_, fun _ => b1, ?_⟩
    · show KAStr.mk (s.chopped junk n).as_kastr.data_ = KAStr.mk (s.chop n).as_kastr.data_
      rw [b1, b2]
    · intro hge
      exact absurd hge hn

theorem chopped_is_chop_witness :
    (KAString.ctor_str (fun _ => 0) [104, 101, 108, 108, 111]).data_.wf ∧
      ((KAString.ctor_str (fun _ => 0) [104, 101, 108, 108, 111]).chopped (fun _ => 0) 2).as_kastr =
        ((KAString.ctor_str (fun _ => 0) [104, 101, 108, 108, 111]).chop 2).as_kastr ∧
      ((KAString.ctor_str (fun _ => 0) [104, 101, 108, 108, 111]).chop 2).as_kastr.data_ =
        [104, 101, 108] :=
  ⟨by decide,
    (chopped_is_chop (fun _ => 0) (KAString.ctor_str (fun _ => 0) [104, 101, 108, 108, 111]) 2
      (by decide)).1, by decide⟩

/-! ## Trimming a view -/

theorem scan_while_spec (s : KAStr) (pred : Byte → Bool) :
    ∀ fuel i, i ≤ s.byte_size → s.byte_size - i < fuel →
      s.scan_while pred fuel i = some (i + ((s.data_.drop i).takeWhile pred).length) := by
  intro fuel
  induction fuel with
  | zero => intro i _ h; omega
  | succ fuel ih =>
    intro i hi hf
    unfold KAStr.byte_size at hi hf
    by_cases hlt : i < s.data_.length
    · have hd := drop_eq_getD_cons s.data_ i hlt
      by_cases hp : pred (s.data_.getD i 0) = true
      · have e : s.scan_while pred (fuel + 1) i = s.scan_while pred fuel (i + 1) := by
          simp only [KAStr.scan_while, KAStr.byte_size, hlt, hp, decide_True, Bool.and_self,
            if_true]
        rw [e, ih (i + 1) hlt (by unfold KAStr.byte_size; omega), hd,
          List.takeWhile_cons_of_pos hp, List.length_cons]
        congr 1; omega
      · have e : s.scan_while pred (fuel + 1) i = some i := by
          simp only [KAStr.scan_while, KAStr.byte_size, hlt, hp, decide_True, Bool.true_and,
            Bool.false_eq_true, if_false]
        rw [e, hd, List.takeWhile_cons_of_neg hp]
        rfl
    · have e : s.scan_while pred (fuel + 1) i = some i := by
        simp only [KAStr.scan_while, KAStr.byte_size, hlt, decide_False, Bool.false_and,
          Bool.false_eq_true, if_false]
      have hnil : s.data_.drop i = [] := List.drop_eq_nil_of_le (by omega)
      rw [e, hnil]
      rfl

theorem drop_length_takeWhile (p : Byte → Bool) (l : List Byte) :
    l.drop (l.takeWhile p).length = l.dropWhile p := by
  have h := List.takeWhile_append_dropWhile p l
  have h2 := List.drop_left (l.takeWhile p) (l.dropWhile p)
  rw [h] at h2
  exact h2

theorem trim_end_loop_spec (s : KAStr) :
    ∀ fuel e, e ≤ s.byte_size → e < fuel →
      s.trim_end_loop fuel e = some ((s.data_.take e).rdropWhile isspace).length := by
  intro fuel
  induction fuel with
  | zero => intro e _ h; omega
  | succ fuel ih =>
    intro e he hf
    unfold KAStr.byte_size at he
    cases e with
    | zero =>
      simp [KAStr.trim_end_loop]
    | succ e =>
      have hlt : e < s.data_.length := by omega
      have ht : s.data_.take (e + 1) = s.data_.take e ++ [s.data_.getD e 0] := by
        rw [List.take_succ, List.getElem?_eq_getElem hlt, List.getD_eq_getElem _ _ hlt]
        rfl
      by_cases hp : isspace (s.data_.getD e 0) = true
      · have e1 : s.trim_end_loop (fuel + 1) (e + 1) = s.trim_end_loop fuel e := by
          simp only [KAStr.trim_end_loop, Nat.add_sub_cancel, hp, gt_iff_lt, Nat.zero_lt_succ,
            decide_True, Bool.and_self, if_true]
        rw [e1, ih e (by unfold KAStr.byte_size; omega) (by omega), ht,
          List.rdropWhile_concat_pos _ _ _ hp]
      · have e1 : s.trim_end_loop (fuel + 1) (e + 1) = some (e + 1) := by
          simp only [KAStr.trim_end_loop, Nat.add_sub_cancel, hp, gt_iff_lt, Nat.zero_lt_succ,
            decide_True, Bool.true_and, Bool.false_eq_true, if_false]
        rw [e1, ht, List.rdropWhile_concat_neg _ _ _ hp, ← ht, List.length_take]
        congr 1; omega

theorem trim_start_eq (s : KAStr) (fuel : Nat) (hf : s.byte_size < fuel) :
    s.trim_start fuel = some ⟨s.data_.dropWhile isspace⟩ := by
  have h := scan_while_spec s isspace fuel 0 (Nat.zero_le _) (by omega)
  unfold KAStr.trim_start
  rw [h]
  simp only [List.drop_zero, Nat.zero_add, drop_length_takeWhile]
  congr 2
  apply List.take_of_length_le
  have := List.takeWhile_append_dropWhile isspace s.data_
  have hl := congrArg List.length this
  rw [List.length_append] at hl
  unfold KAStr.byte_size
  omega

theorem trim_end_eq (s : KAStr) (fuel : Nat) (hf : s.byte_size < fuel) :
    s.trim_end fuel = some ⟨s.data_.rdropWhile isspace⟩ := by
  have h := trim_end_loop_spec s fuel s.byte_size (Nat.le_refl _) hf
  unfold KAStr.trim_end
  rw [h]
  have ht : s.data_.take s.byte_size = s.data_ := List.take_of_length_le (Nat.le_refl _)
  rw [ht]
  show some (KAStr.mk (s.data_.take (s.data_.rdropWhile isspace).length)) = _
  rw [← List.prefix_iff_eq_take.1 (List.rdropWhile_prefix isspace s.data_)]

theorem length_dropWhile_le (p : Byte → Bool) (l : List Byte) :
    (l.dropWhile p).length ≤ l.length := by
  have hl := congrArg List.length (List.takeWhile_append_dropWhile p l)
  rw [List.length_append] at hl
  omega

theorem length_rdropWhile_le (p : Byte → Bool) (l : List Byte) :
    (l.rdropWhile p).length ≤ l.length :=
  (List.rdropWhile_prefix p l).length_le

theorem trim_eq (s : KAStr) (fuel : Nat) (hf : s.byte_size < fuel) :
    s.trim fuel = some ⟨(s.data_.dropWhile isspace).rdropWhile isspace⟩ := by
  unfold KAStr.trim
  rw [trim_start_eq s fuel hf]
  have hl := length_dropWhile_le isspace s.data_
  exact trim_end_eq ⟨s.data_.dropWhile isspace⟩ fuel (by
    unfold KAStr.byte_size at hf ⊢
    show (s.data_.dropWhile isspace).length < fuel
    omega)

theorem rdropWhile_append_rtakeWhile (p : Byte → Bool) (l : List Byte) :
    l.rdropWhile p ++ l.rtakeWhile p = l := by
  unfold List.rdropWhile List.rtakeWhile
  rw [← List.reverse_append, List.takeWhile_append_dropWhile, List.reverse_reverse]

theorem head?_of_prefix {r m : List Byte} (h : r <+: m) {b : Byte} (hb : r.head? = some b) :
    m.head? = some b := by
  obtain ⟨t, rfl⟩ := h
  cases r with
  | nil => simp at hb
  | cons x xs => simpa using hb

theorem dropWhile_eq_self_of_head {p : Byte → Bool} {r : List Byte}
    (h : ∀ b, r.head? = some b → p b = false) : r.dropWhile p = r := by
  cases r with
  | nil => rfl
  | cons x xs =>
    have hx : ¬ p x = true := by rw [h x rfl]; simp
    exact List.dropWhile_cons_of_neg hx

/-- C31: `trim()` returns the part of the view left after taking away a prefix and a suffix
made of whitespace only; the part neither begins nor ends with whitespace (so the prefix and
the suffix are the maximal ones and the inside is untouched), it is empty when the view holds
whitespace only, and trimming it again returns it unchanged. -/
theorem trim_trims (s : KAStr) (fuel : Nat) (hf : s.byte_size < fuel) :
    ∃ r pre post, s.trim fuel = some r ∧ s.data_ = pre ++ r.data_ ++ post ∧
      (∀ b ∈ pre, isspace b = true) ∧ (∀ b ∈ post, isspace b = true) ∧
      (∀ b, r.data_.head? = some b → isspace b = false) ∧
      (∀ b, r.data_.getLast? = some b → isspace b = false) ∧
      ((∀ b ∈ s.data_, isspace b = true) → r.data_ = []) ∧
      r.trim fuel = some r := by
  have hhead : ∀ b, ((s.data_.dropWhile isspace).rdropWhile isspace).head? = some b →
      isspace b = false := by
    intro b hb
    have h1 := head?_of_prefix (List.rdropWhile_prefix isspace _) hb
    have h2 := List.head?_dropWhile_not isspace s.data_
    rw [h1] at h2
    exact h2
  refine ⟨⟨(s.data_.dropWhile isspace).rdropWhile isspace⟩, s.data_.takeWhile isspace,
    (s.data_.dropWhile isspace).rtakeWhile isspace, trim_eq s fuel hf, ?_, ?_, ?_, hhead, ?_,
    ?_, ?_⟩
  · rw [List.append_assoc, rdropWhile_append_rtakeWhile, List.takeWhile_append_dropWhile]
  · intro b hb
    exact List.mem_takeWhile_imp hb
  · intro b hb
    exact List.mem_rtakeWhile_imp hb
  · intro b hb
    have hne : (s.data_.dropWhile isspace).rdropWhile isspace ≠ [] := by
      intro e
      rw [e] at hb
      simp at hb
    have h1 := List.rdropWhile_last_not isspace (s.data_.dropWhile isspace) hne
    rw [List.getLast?_eq_getLast _ hne] at hb
    have hb1 := Option.some.inj hb
    rw [hb1] at h1
    simpa using h1
  · intro hall
    have e : s.data_.dropWhile isspace = [] := List.dropWhile_eq_nil_iff.2 hall
    show (s.data_.dropWhile isspace).rdropWhile isspace = []
    rw [e]
    exact List.rdropWhile_nil isspace
  · have hl1 := length_dropWhile_le isspace s.data_
    have hl2 := length_rdropWhile_le isspace (s.data_.dropWhile isspace)
    have hf2 : (KAStr.mk ((s.data_.dropWhile isspace).rdropWhile isspace)).byte_size < fuel := by
      unfold KAStr.byte_size at hf ⊢
      show ((s.data_.dropWhile isspace).rdropWhile isspace).length < fuel
      omega
    rw [trim_eq _ fuel hf2]
    show some (KAStr.mk ((((s.data_.dropWhile isspace).rdropWhile isspace).dropWhile
      isspace).rdropWhile isspace)) = _
    rw [dropWhile_eq_self_of_head hhead, List.rdropWhile_idempotent]

theorem trim_trims_witness :
    KAStr.trim ⟨[32, 9, 97, 32, 98, 10]⟩ 7 = some ⟨[97, 32, 98]⟩ ∧
    ∃ r pre post, KAStr.trim ⟨[32, 9, 97, 32, 98, 10]⟩ 7 = some r ∧
      [32, 9, 97, 32, 98, 10] = pre ++ r.data_ ++ post ∧
      (∀ b ∈ pre, isspace b = true) ∧ (∀ b ∈ post, isspace b = true) ∧
      (∀ b, r.data_.head? = some b → isspace b = false) ∧
      (∀ b, r.data_.getLast? = some b → isspace b = false) ∧
      ((∀ b ∈ [32, 9, 97, 32, 98, 10], isspace b = true) → r.data_ = []) ∧
      r.trim 7 = some r :=
  ⟨by decide, trim_trims ⟨[32, 9, 97, 32, 98, 10]⟩ 7 (by decide)⟩

/-! ## Words of a view, `join` and `simplified` -/

theorem words_spec_nil (cur : List Byte) :
    KAStr.words_spec [] cur = if cur = [] then [] else [cur] := by
  rw [KAStr.words_spec]

theorem words_spec_space (b : Byte) (rest cur : List Byte) (hb : isspace b = true) :
    KAStr.words_spec (b :: rest) cur =
      if cur = [] then KAStr.words_spec rest [] else cur :: KAStr.words_spec rest [] := by
  rw [KAStr.words_spec.eq_def]; simp [hb]

theorem words_spec_other (b : Byte) (rest cur : List Byte) (hb : ¬ isspace b = true) :
    KAStr.words_spec (b :: rest) cur = KAStr.words_spec rest (cur ++ [b]) := by
  rw [KAStr.words_spec.eq_def]; simp [hb]

theorem words_spec_skip (g rest : List Byte) (hg : ∀ b ∈ g, isspace b = true) :
    KAStr.words_spec (g ++ rest) [] = KAStr.words_spec rest [] := by
  induction g with
  | nil => rfl
  | cons b g ih =>
    rw [List.cons_append, words_spec_space _ _ _ (hg b (List.mem_cons_self _ _)), if_pos rfl]
    exact ih (fun x hx => hg x (List.mem_cons_of_mem _ hx))

theorem words_spec_word (w rest : List Byte) (hw : ∀ b ∈ w, ¬ isspace b = true) :
    ∀ cur, KAStr.words_spec (w ++ rest) cur = KAStr.words_spec rest (cur ++ w) := by
  induction w with
  | nil => intro cur; simp
  | cons b w ih =>
    intro cur
    rw [List.cons_append, words_spec_other _ _ _ (hw b (List.mem_cons_self _ _)),
      ih (fun x hx => hw x (List.mem_cons_of_mem _ hx))]
    simp

theorem words_spec_close (rest cur : List Byte) (hc : cur ≠ [])
    (hr : ∀ b, rest.head? = some b → isspace b = true) :
    KAStr.words_spec rest cur = cur :: KAStr.words_spec rest [] := by
  cases rest with
  | nil => rw [words_spec_nil, words_spec_nil, if_neg hc, if_pos rfl]
  | cons b r =>
    have hb := hr b rfl
    rw [words_spec_space _ _ _ hb, words_spec_space _ _ _ hb, if_neg hc, if_pos rfl]

theorem words_spec_all_space (g : List Byte) (hg : ∀ b ∈ g, isspace b = true) :
    KAStr.words_spec g [] = [] := by
  have h := words_spec_skip g [] hg
  rw [List.append_nil] at h
  rw [h, words_spec_nil, if_pos rfl]

theorem words_spec_trailing (g : List Byte) (hg : ∀ b ∈ g, isspace b = true) :
    ∀ (x cur : List Byte), KAStr.words_spec (x ++ g) cur = KAStr.words_spec x cur := by
  intro x
  induction x with
  | nil =>
    intro cur
    rw [List.nil_append, words_spec_nil]
    cases g with
    | nil => rw [words_spec_nil]
    | cons b g1 =>
      rw [words_spec_space _ _ _ (hg b (List.mem_cons_self _ _)),
        words_spec_all_space g1 (fun x hx => hg x (List.mem_cons_of_mem _ hx))]
  | cons b x ih =>
    intro cur
    by_cases hb : isspace b = true
    · rw [List.cons_append, words_spec_space _ _ _ hb, words_spec_space _ _ _ hb, ih]
    · rw [List.cons_append, words_spec_other _ _ _ hb, words_spec_other _ _ _ hb, ih]

theorem words_spec_clean :
    ∀ (l cur : List Byte), (∀ b ∈ cur, isspace b = false) →
      ∀ w ∈ KAStr.words_spec l cur, w ≠ [] ∧ ∀ b ∈ w, isspace b = false := by
  intro l
  induction l with
  | nil =>
    intro cur hcur w hw
    rw [words_spec_nil] at hw
    by_cases hc : cur = []
    · rw [if_pos hc] at hw; simp at hw
    · rw [if_neg hc] at hw
      rw [List.mem_singleton.1 hw]
      exact ⟨hc, hcur⟩
  | cons b l ih =>
    intro cur hcur w hw
    by_cases hb : isspace b = true
    · rw [words_spec_space _ _ _ hb] at hw
      by_cases hc : cur = []
      · rw [if_pos hc] at hw
        exact ih [] (by simp) w hw
      · rw [if_neg hc] at hw
        rcases List.mem_cons.1 hw with e | hw
        · rw [e]; exact ⟨hc, hcur⟩
        · exact ih [] (by simp) w hw
    · rw [words_spec_other _ _ _ hb] at hw
      refine ih (cur ++ [b]) ?_ w hw
      intro x hx
      rcases List.mem_append.1 hx with hx | hx
      · exact hcur x hx
      · rw [List.mem_singleton.1 hx]; simpa using hb

theorem drop_add_eq (d : List Byte) (a b : Nat) : d.drop (a + b) = (d.drop a).drop b := by
  rw [List.drop_drop]

theorem length_takeWhile_add (p : Byte → Bool) (l : List Byte) :
    (l.takeWhile p).length + (l.dropWhile p).length = l.length := by
  have hl := congrArg List.length (List.takeWhile_append_dropWhile p l)
  rw [List.length_append] at hl
  exact hl

theorem take_length_takeWhile (p : Byte → Bool) (l : List Byte) :
    l.take (l.takeWhile p).length = l.takeWhile p := by
  have h2 := List.take_left (l.takeWhile p) (l.dropWhile p)
  rw [List.takeWhile_append_dropWhile] at h2
  exact h2

/-- One round of the outer loop of `split_whitespace()` in terms of the bytes at `start`: a run
`g` of whitespace, then a run `w` of other bytes, then the rest. -/
theorem split_whitespace_round (D : List Byte) (hD : D ≠ []) :
    0 < (D.takeWhile isspace).length +
        ((D.dropWhile isspace).takeWhile (fun b => !isspace b)).length ∧
      KAStr.words_spec D [] =
        KAStr.words_spec ((D.dropWhile isspace).dropWhile (fun b => !isspace b))
          ((D.dropWhile isspace).takeWhile (fun b => !isspace b)) ∧
      (∀ b, ((D.dropWhile isspace).dropWhile (fun b => !isspace b)).head? = some b →
        isspace b = true) := by
  refine ⟨?_, ?_, ?_⟩
  · cases D with
    | nil => exact absurd rfl hD
    | cons x xs =>
      by_cases hx : isspace x = true
      · rw [List.takeWhile_cons_of_pos hx]; simp
      · have hx2 : (fun b => !isspace b) x = true := by simpa using hx
        rw [List.dropWhile_cons_of_neg hx,
          @List.takeWhile_cons_of_pos Byte (fun b => !isspace b) x xs hx2]
        simp
  · conv_lhs => rw [← List.takeWhile_append_dropWhile isspace D]
    rw [words_spec_skip _ _ (fun b hb => List.mem_takeWhile_imp hb)]
    conv_lhs => rw [← List.takeWhile_append_dropWhile (fun b => !isspace b)
      (D.dropWhile isspace)]
    rw [words_spec_word _ _ (fun b hb => by
      have := List.mem_takeWhile_imp hb
      simpa using this), List.nil_append]
  · intro b hb
    have h3 := List.head?_dropWhile_not (fun b => !isspace b) (D.dropWhile isspace)
    rw [hb] at h3
    simpa using h3

theorem split_whitespace_loop_spec (s : KAStr) (ifuel : Nat) (hif : s.byte_size < ifuel) :
    ∀ fuel start result, start ≤ s.byte_size → s.byte_size - start < fuel →
      ∃ parts, s.split_whitespace_loop ifuel fuel start result = some parts ∧
        parts.map (fun p => p.data_) =
          result.map (fun p => p.data_) ++ KAStr.words_spec (s.data_.drop start) [] := by
  intro fuel
  induction fuel with
  | zero => intro start _ _ h; omega
  | succ fuel ih =>
    intro start result hle hf
    by_cases hlt : start < s.byte_size
    · have hlen : (s.data_.drop start).length = s.byte_size - start := List.length_drop _ _
      have hDne : s.data_.drop start ≠ [] := by
        intro e0; rw [e0] at hlen; simp at hlen; omega
      obtain ⟨hprog, hchain, hhead⟩ := split_whitespace_round (s.data_.drop start) hDne
      have hg := length_takeWhile_add isspace (s.data_.drop start)
      have hw := length_takeWhile_add (fun b => !isspace b)
        ((s.data_.drop start).dropWhile isspace)
      have h1 := scan_while_spec s isspace ifuel start hle (by omega)
      obtain ⟨g, hgdef⟩ : ∃ g, g = (s.data_.drop start).takeWhile isspace := ⟨_, rfl⟩
      obtain ⟨m, hmdef⟩ : ∃ m, m = (s.data_.drop start).dropWhile isspace := ⟨_, rfl⟩
      rw [← hgdef] at h1 hg hprog
      rw [← hmdef] at hg hw hprog hchain hhead
      have hm : s.data_.drop (start + g.length) = m := by
        rw [drop_add_eq, hgdef, hmdef, drop_length_takeWhile]
      have h2 := scan_while_spec s (fun b => !isspace b) ifuel (start + g.length) (by omega)
        (by omega)
      rw [hm] at h2
      obtain ⟨w, hwdef⟩ : ∃ w, w = m.takeWhile (fun b => !isspace b) := ⟨_, rfl⟩
      rw [← hwdef] at h2 hw hprog hchain
      have hr : s.data_.drop (start + g.length + w.length) =
          m.dropWhile (fun b => !isspace b) := by
        rw [drop_add_eq, hm, hwdef, drop_length_takeWhile]
      obtain ⟨parts, e, hp⟩ := ih (start + g.length + w.length)
        (if start + g.length < start + g.length + w.length then
          result ++ [KAStr.mk ((s.data_.drop (start + g.length)).take
            (start + g.length + w.length - (start + g.length)))]
        else result) (by omega) (by omega)
      refine ⟨parts, ?_, ?_⟩
      · rw [KAStr.split_whitespace_loop]
        simp only [hlt, if_true, h1, h2]
        exact e
      · rw [hp, hr, hchain]
        by_cases hw0 : w.length = 0
        · have hnil := List.length_eq_zero.1 hw0
          have hc : ¬ (start + g.length < start + g.length + w.length) := by omega
          rw [if_neg hc, hnil]
        · have hne : w ≠ [] := fun e0 => hw0 (by rw [e0]; rfl)
          have hc : start + g.length < start + g.length + w.length := by omega
          rw [if_pos hc, words_spec_close _ _ hne hhead, List.map_append, List.append_assoc, hm]
          congr 1
          simp only [List.map_cons, List.map_nil, List.singleton_append,
            Nat.add_sub_cancel_left]
          rw [hwdef, take_length_takeWhile]
    · have hnil : s.data_.drop start = [] := List.drop_eq_nil_of_le (by
        unfold KAStr.byte_size at hlt; omega)
      refine ⟨result, ?_, ?_⟩
      · rw [KAStr.split_whitespace_loop]
        simp only [hlt, if_false]
      · rw [hnil, words_spec_nil, if_pos rfl, List.append_nil]

theorem split_whitespace_eq (s : KAStr) (fuel : Nat) (hf : s.byte_size < fuel) :
    ∃ parts, s.split_whitespace fuel = some parts ∧
      parts.map (fun p => p.data_) = KAStr.words_spec s.data_ [] := by
  obtain ⟨parts, e, hp⟩ := split_whitespace_loop_spec s fuel hf fuel 0 [] (Nat.zero_le _)
    (by omega)
  exact ⟨parts, e, by simpa using hp⟩

theorem intercalate_cons_eq (sep : List Byte) (xs : List (List Byte)) :
    ∀ x, List.intercalate sep (x :: xs) = x ++ (xs.map (fun p => sep ++ p)).flatten := by
  induction xs with
  | nil => intro x; simp [List.intercalate]
  | cons y ys ih =>
    intro x
    have h := ih y
    simp only [List.intercalate, List.intersperse_cons₂, List.flatten_cons, List.map_cons] at h ⊢
    rw [h, List.append_assoc]

theorem bytes_ctor_default (junk : Nat → Byte) :
    (SSOBytes.ctor_default (uninit junk)).bytes = [] := by
  have hs : (SSOBytes.ctor_default (uninit junk)).is_sso = true := is_sso_of_le (Nat.zero_le _)
  rw [bytes_inline hs]; rfl

theorem join_fold (sep : KAStr) (rest : List KAStr) :
    ∀ acc : KAString, acc.data_.wf →
      (rest.foldl (fun r p => (r.append sep).append p) acc).data_.wf ∧
      (rest.foldl (fun r p => (r.append sep).append p) acc).data_.bytes =
        acc.data_.bytes ++ (rest.map (fun p => sep.data_ ++ p.data_)).flatten := by
  induction rest with
  | nil => intro acc h; exact ⟨h, by simp⟩
  | cons p rest ih =>
    intro acc h
    have h1 : (acc.append sep).data_.wf := wf_append h sep.data_
    have h2 : ((acc.append sep).append p).data_.wf := wf_append h1 p.data_
    have b1 : (acc.append sep).data_.bytes = acc.data_.bytes ++ sep.data_ :=
      (append_spec acc.data_ sep.data_ h).1
    have b2 : ((acc.append sep).append p).data_.bytes =
        (acc.append sep).data_.bytes ++ p.data_ := (append_spec _ p.data_ h1).1
    obtain ⟨hw, hb⟩ := ih _ h2
    refine ⟨hw, ?_⟩
    rw [List.foldl_cons, hb, b2, b1]
    simp

theorem join_spec (sep : KAStr) (junk : Nat → Byte) (parts : List KAStr) :
    (sep.join junk parts).data_.wf ∧
      (sep.join junk parts).as_kastr.data_ =
        List.intercalate sep.data_ (parts.map (fun p => p.data_)) := by
  have hd : (SSOBytes.ctor_default (uninit junk)).wf := wf_ctor_default (wf_uninit junk)
  cases parts with
  | nil =>
    refine ⟨hd, ?_⟩
    show (SSOBytes.ctor_default (uninit junk)).bytes = _
    rw [bytes_ctor_default]; rfl
  | cons first rest =>
    have hr := wf_reserve hd ((((first :: rest).foldl
      (fun t p => (t + p.byte_size) % 2 ^ 64) 0) +
        ((first :: rest).length - 1) * sep.byte_size) % 2 ^ 64)
    have hrb := (reserve_spec (SSOBytes.ctor_default (uninit junk)) ((((first :: rest).foldl
      (fun t p => (t + p.byte_size) % 2 ^ 64) 0) +
        ((first :: rest).length - 1) * sep.byte_size) % 2 ^ 64)).2.1
    have ha := wf_append hr first.data_
    have hab := (append_spec _ first.data_ hr).1
    obtain ⟨hw, hb⟩ := join_fold sep rest
      (((KAString.ctor_default junk).reserve ((((first :: rest).foldl
        (fun t p => (t + p.byte_size) % 2 ^ 64) 0) +
          ((first :: rest).length - 1) * sep.byte_size) % 2 ^ 64)).append first) ha
    refine ⟨hw, ?_⟩
    show (KAStr.join sep junk (first :: rest)).data_.bytes = _
    rw [List.map_cons, intercalate_cons_eq]
    unfold KAStr.join
    rw [hb]
    show (((SSOBytes.ctor_default (uninit junk)).reserve _).append first.data_).bytes ++ _ = _
    rw [hab, hrb, bytes_ctor_default]
    simp [Function.comp_def]

theorem words_spec_trim (d : List Byte) :
    KAStr.words_spec ((d.dropWhile isspace).rdropWhile isspace) [] = KAStr.words_spec d [] := by
  conv_rhs => rw [← List.takeWhile_append_dropWhile isspace d,
    ← rdropWhile_append_rtakeWhile isspace (d.dropWhile isspace)]
  rw [words_spec_skip _ _ (fun b hb => List.mem_takeWhile_imp hb),
    words_spec_trailing _ (fun b hb => List.mem_rtakeWhile_imp hb)]

theorem words_of_joined (rest : List (List Byte)) :
    ∀ w, (∀ x ∈ w :: rest, x ≠ [] ∧ ∀ b ∈ x, isspace b = false) →
      KAStr.words_spec (w ++ (rest.map (fun p => [32] ++ p)).flatten) [] = w :: rest := by
  induction rest with
  | nil =>
    intro w hc
    have hw := hc w (List.mem_cons_self _ _)
    rw [List.map_nil, List.flatten_nil, words_spec_word _ _ (fun b hb => by
      rw [hw.2 b hb]; simp), words_spec_nil, List.nil_append, if_neg hw.1]
  | cons w2 rest ih =>
    intro w hc
    have hw := hc w (List.mem_cons_self _ _)
    have h2 := ih w2 (fun x hx => hc x (List.mem_cons_of_mem _ hx))
    rw [List.map_cons, List.flatten_cons, words_spec_word _ _ (fun b hb => by
      rw [hw.2 b hb]; simp), List.nil_append]
    show KAStr.words_spec (32 :: (w2 ++ (rest.map (fun p => [32] ++ p)).flatten)) w = _
    rw [words_spec_space _ _ _ (by decide), if_neg hw.1, h2]

theorem joined_last (sep : List Byte) (rest : List (List Byte)) :
    ∀ w, ∃ pre wl, w ++ (rest.map (fun p => sep ++ p)).flatten = pre ++ wl ∧ wl ∈ w :: rest := by
  induction rest with
  | nil => intro w; exact ⟨[], w, by simp, List.mem_cons_self _ _⟩
  | cons w2 rest ih =>
    intro w
    obtain ⟨pre, wl, e, hm⟩ := ih w2
    refine ⟨w ++ sep ++ pre, wl, ?_, List.mem_cons_of_mem _ hm⟩
    rw [List.map_cons, List.flatten_cons, List.append_assoc sep, e]
    simp

theorem simplified_eq (junk : Nat → Byte) (s : KAString) (fuel : Nat)
    (hf : s.as_kastr.byte_size < fuel) :
    ∃ r, s.simplified junk fuel = some r ∧
      r.as_kastr.data_ = List.intercalate [32] (KAStr.words_spec s.as_kastr.data_ []) := by
  have ht := trim_eq s.as_kastr fuel hf
  have hl1 := length_dropWhile_le isspace s.as_kastr.data_
  have hl2 := length_rdropWhile_le isspace (s.as_kastr.data_.dropWhile isspace)
  obtain ⟨parts, e, hp⟩ := split_whitespace_eq
    ⟨(s.as_kastr.data_.dropWhile isspace).rdropWhile isspace⟩ fuel (by
      unfold KAStr.byte_size at hf ⊢
      show ((s.as_kastr.data_.dropWhile isspace).rdropWhile isspace).length < fuel
      omega)
  refine ⟨KAStr.join ⟨[32]⟩ junk parts, ?_, ?_⟩
  · unfold KAString.simplified
    rw [ht]
    simp only [e]
  · rw [(join_spec ⟨[32]⟩ junk parts).2, hp]
    show List.intercalate [32] (KAStr.words_spec
      ((s.as_kastr.data_.dropWhile isspace).rdropWhile isspace) []) = _
    rw [words_spec_trim]

/-- C33: `simplified()` returns the words of the string (its maximal runs of bytes that are not
whitespace) joined by single spaces, so every run of whitespace inside is one space and none is
left at either end; calling it on the result returns the same content again. -/
theorem simplified_simplifies (junk : Nat → Byte) (s : KAString) (fuel : Nat)
    (hf : s.as_kastr.byte_size < fuel) :
    ∃ r, s.simplified junk fuel = some r ∧
      r.as_kastr.data_ = List.intercalate [32] (KAStr.words_spec s.as_kastr.data_ []) ∧
      (∀ b, r.as_kastr.data_.head? = some b → isspace b = false) ∧
      (∀ b, r.as_kastr.data_.getLast? = some b → isspace b = false) ∧
      (∀ fuel2, r.as_kastr.byte_size < fuel2 →
        ∃ r2, r.simplified junk fuel2 = some r2 ∧ r2.as_kastr = r.as_kastr) := by
  obtain ⟨r, e, hb⟩ := simplified_eq junk s fuel hf
  have hclean := words_spec_clean s.as_kastr.data_ [] (by simp)
  refine ⟨r, e, hb, ?_, ?_, ?_⟩
  · intro b hh
    rw [hb] at hh
    cases hW : KAStr.words_spec s.as_kastr.data_ [] with
    | nil => rw [hW] at hh; simp [List.intercalate] at hh
    | cons w rest =>
      rw [hW, intercalate_cons_eq] at hh
      have hw := hclean w (by rw [hW]; exact List.mem_cons_self _ _)
      cases w with
      | nil => exact absurd rfl hw.1
      | cons x xs =>
        have hx : x = b := by simpa using hh
        rw [← hx]
        exact hw.2 x (List.mem_cons_self _ _)
  · intro b hh
    rw [hb] at hh
    cases hW : KAStr.words_spec s.as_kastr.data_ [] with
    | nil => rw [hW] at hh; simp [List.intercalate] at hh
    | cons w rest =>
      rw [hW, intercalate_cons_eq] at hh
      obtain ⟨pre, wl, e2, hm⟩ := joined_last [32] rest w
      have hwl := hclean wl (by rw [hW]; exact hm)
      rw [e2, List.getLast?_append_of_ne_nil _ hwl.1] at hh
      exact hwl.2 b (List.mem_of_getLast?_eq_some hh)
  · intro fuel2 hf2
    obtain ⟨r2, e2, hb2⟩ := simplified_eq junk r fuel2 hf2
    refine ⟨r2, e2, ?_⟩
    show KAStr.mk r2.as_kastr.data_ = KAStr.mk r.as_kastr.data_
    rw [hb2, hb]
    cases hW : KAStr.words_spec s.as_kastr.data_ [] with
    | nil => simp [List.intercalate, words_spec_nil]
    | cons w rest =>
      rw [intercalate_cons_eq, words_of_joined rest w (by rw [← hW]; exact hclean),
        intercalate_cons_eq]

theorem simplified_simplifies_witness :
    KAString.simplified (KAString.ctor_str (fun _ => 0) [32, 9, 97, 32, 32, 98, 99, 10])
        (fun _ => 0) 9 =
      some (KAStr.join ⟨[32]⟩ (fun _ => 0) [⟨[97]⟩, ⟨[98, 99]⟩]) ∧
    ∃ r, KAString.simplified (KAString.ctor_str (fun _ => 0) [32, 9, 97, 32, 32, 98, 99, 10])
        (fun _ => 0) 9 = some r ∧
      r.as_kastr.data_ = List.intercalate [32] (KAStr.words_spec
        (KAString.ctor_str (fun _ => 0) [32, 9, 97, 32, 32, 98, 99, 10]).as_kastr.data_ []) ∧
      (∀ b, r.as_kastr.data_.head? = some b → isspace b = false) ∧
      (∀ b, r.as_kastr.data_.getLast? = some b → isspace b = false) ∧
      (∀ fuel2, r.as_kastr.byte_size < fuel2 →
        ∃ r2, r.simplified (fun _ => 0) fuel2 = some r2 ∧ r2.as_kastr = r.as_kastr) :=
  ⟨by decide,
    simplified_simplifies (fun _ => 0)
      (KAString.ctor_str (fun _ => 0) [32, 9, 97, 32, 32, 98, 99, 10]) 9 (by decide)⟩

/-! ## Splitting at a delimiter and joining again -/

theorem subrange_eq (s : KAStr) (pos : Nat) :
    s.subrange pos s.byte_size = ⟨s.data_.drop pos⟩ := by
  unfold KAStr.subrange
  by_cases hge : pos ≥ s.byte_size
  · rw [if_pos hge]
    have hnil : s.data_.drop pos = [] := List.drop_eq_nil_of_le (by
      unfold KAStr.byte_size at hge; omega)
    rw [hnil]
  · have hgt : ¬ pos > s.byte_size := by omega
    rw [if_neg hge]
    unfold KAStr.substr
    rw [if_neg hgt, Nat.min_self]
    congr 1
    apply List.take_of_length_le
    rw [List.length_drop]
    exact Nat.le_refl _

theorem valid_drop {s : KAStr} (hs : s.valid) (pos : Nat) :
    (KAStr.mk (s.data_.drop pos)).valid :=
  fun b hb => hs b (List.mem_of_mem_drop hb)

theorem find_found (s sub : KAStr) (cs : Bool) (hs : s.valid) (hsub : sub.valid)
    (hsz : s.byte_size < knpos) (hne : s.find sub cs ≠ knpos) :
    KAStr.matches_at s sub cs (s.find sub cs) := by
  have h := find_spec s sub cs hs hsub hsz
  by_contra hno
  exact hne (h.2.2 (fun i hi => hno (h.1 i hi).1))

theorem find_too_long (s sub : KAStr) (cs : Bool) (h : s.byte_size < sub.byte_size) :
    s.find sub cs = knpos := by
  have h0 : ¬ sub.byte_size = 0 := by omega
  simp [KAStr.find, h0, h]

theorem take_step (l : List Byte) (pos f k : Nat) :
    l.take (pos + f + k) = l.take pos ++ (l.drop pos).take f ++ ((l.drop pos).drop f).take k := by
  rw [List.take_add, List.take_add, drop_add_eq]

theorem split_count_loop_spec (s d : KAStr) (k : Nat) (hs : s.valid) (hd : d.valid)
    (hsz : s.byte_size < knpos) (hd0 : d.byte_size ≠ 0) :
    ∀ fuel pos splits result, pos ≤ s.byte_size → s.byte_size - pos < fuel →
      (result.map (fun p => p.data_ ++ d.data_)).flatten = s.data_.take pos →
      ∃ pos1 result1, KAStr.split_count_loop s d k fuel pos splits result =
          some (pos1, result1) ∧ pos1 ≤ s.byte_size ∧
        (result1.map (fun p => p.data_ ++ d.data_)).flatten = s.data_.take pos1 := by
  intro fuel
  induction fuel with
  | zero => intro pos _ _ _ h; omega
  | succ fuel ih =>
    intro pos splits result hle hf hinv
    by_cases hk : splits < k
    · by_cases hfound : (s.subrange pos s.byte_size).find d true = knpos
      · refine ⟨pos, result, ?_, hle, hinv⟩
        rw [KAStr.split_count_loop]
        simp only [hk, if_true, hfound, beq_self_eq_true]
      · have hsub := subrange_eq s pos
        have hlen : (KAStr.mk (s.data_.drop pos)).byte_size = s.byte_size - pos :=
          List.length_drop _ _
        rw [hsub] at hfound
        have hM := find_found ⟨s.data_.drop pos⟩ d true (valid_drop hs pos) hd
          (by rw [hlen]; omega) hfound
        obtain ⟨hM1, hM2⟩ := hM
        rw [hlen] at hM1
        simp only [if_true] at hM2
        have hk2 : knpos = 2 ^ 64 - 1 := rfl
        have hmod : (pos + ((KAStr.mk (s.data_.drop pos)).find d true + d.byte_size) % 2 ^ 64)
            % 2 ^ 64 = pos + (KAStr.mk (s.data_.drop pos)).find d true + d.byte_size := by
          rw [Nat.mod_eq_of_lt (by omega), Nat.mod_eq_of_lt (by omega)]
          omega
        obtain ⟨pos1, result1, e, hp1, hinv1⟩ := ih
          (pos + (KAStr.mk (s.data_.drop pos)).find d true + d.byte_size) (splits + 1)
          (result ++ [KAStr.mk ((s.data_.drop pos).take
            ((KAStr.mk (s.data_.drop pos)).find d true))])
          (by omega) (by omega) (by
            rw [List.map_append, List.flatten_append, hinv, take_step]
            simp only [List.map_cons, List.map_nil, List.flatten_cons, List.flatten_nil,
              List.append_nil]
            rw [hM2, List.append_assoc])
        refine ⟨pos1, result1, ?_, hp1, hinv1⟩
        rw [KAStr.split_count_loop]
        simp only [hk, if_true, hsub, hmod]
        have hb : ((KAStr.mk (s.data_.drop pos)).find d true == knpos) = false := by
          simpa using hfound
        rw [hb]
        exact e
    · refine ⟨pos, result, ?_, hle, hinv⟩
      rw [KAStr.split_count_loop]
      simp only [hk, if_false]

theorem intercalate_concat (sep t : List Byte) (xs : List (List Byte)) :
    List.intercalate sep (xs ++ [t]) = (xs.map (fun p => p ++ sep)).flatten ++ t := by
  have key : ∀ ys : List (List Byte),
      ((ys ++ [t]).map (fun p => sep ++ p)).flatten =
        sep ++ ((ys.map (fun p => p ++ sep)).flatten ++ t) := by
    intro ys
    induction ys with
    | nil => simp
    | cons y ys ih =>
      rw [List.cons_append, List.map_cons, List.flatten_cons, ih, List.map_cons,
        List.flatten_cons]
      simp
  cases xs with
  | nil => simp [List.intercalate]
  | cons x xs =>
    rw [List.cons_append, intercalate_cons_eq, key, List.map_cons, List.flatten_cons]
    simp

theorem intercalate_nil_sep (xs : List (List Byte)) : List.intercalate [] xs = xs.flatten := by
  cases xs with
  | nil => simp [List.intercalate]
  | cons x xs =>
    rw [intercalate_cons_eq, List.flatten_cons]
    simp

theorem foldl_emplace (f : Nat → KAStr) (l : List Nat) :
    ∀ r : List KAStr, l.foldl (fun (r : List KAStr) i => r ++ [f i]) r = r ++ l.map f := by
  induction l with
  | nil => intro r; simp
  | cons a l ih => intro r; rw [List.foldl_cons, ih]; simp

theorem flatten_single_bytes (d : List Byte) :
    ∀ m, m ≤ d.length →
      (List.map (fun i => (d.drop i).take 1) (List.range m)).flatten = d.take m := by
  intro m
  induction m with
  | zero => intro _; simp
  | succ m ih =>
    intro hm
    have hlt : m < d.length := by omega
    rw [List.range_succ, List.map_append, List.flatten_append, ih (by omega), List.take_succ,
      List.getElem?_eq_getElem hlt]
    simp only [List.map_cons, List.map_nil, List.flatten_cons, List.flatten_nil,
      List.append_nil]
    rw [drop_eq_getD_cons d m hlt, List.getD_eq_getElem _ _ hlt]
    rfl

/-- The pieces of `split_count(delim, max_splits)`, with the delimiter put back between them,
are the view itself. -/
theorem split_count_intercalate (s d : KAStr) (k fuel : Nat) (hs : s.valid) (hd : d.valid)
    (hsz : s.byte_size < knpos) (hf : s.byte_size < fuel) :
    ∃ parts, s.split_count d k fuel = some parts ∧
      List.intercalate d.data_ (parts.map (fun p => p.data_)) = s.data_ := by
  by_cases he : d.data_ = []
  · have hemp : d.empty = true := by simp [KAStr.empty, he]
    refine ⟨_, by unfold KAStr.split_count; rw [if_pos hemp], ?_⟩
    rw [he, intercalate_nil_sep, foldl_emplace]
    have hmin : min s.byte_size k ≤ s.data_.length := Nat.min_le_left _ _
    by_cases hlt : min s.byte_size k < s.byte_size
    · simp only [hlt, if_true, List.nil_append, List.map_append, List.map_map,
        List.flatten_append, List.map_cons, List.map_nil, List.flatten_cons, List.flatten_nil,
        List.append_nil]
      have h1 := flatten_single_bytes s.data_ (min s.byte_size k) hmin
      simp only [Function.comp_def]
      rw [h1]
      have ht : (s.data_.drop (min s.byte_size k)).take (s.byte_size - min s.byte_size k) =
          s.data_.drop (min s.byte_size k) := by
        apply List.take_of_length_le
        rw [List.length_drop]
        exact Nat.le_refl _
      rw [ht, List.take_append_drop]
    · simp only [hlt, if_false, List.nil_append, List.map_map]
      have h1 := flatten_single_bytes s.data_ (min s.byte_size k) hmin
      simp only [Function.comp_def]
      rw [h1]
      apply List.take_of_length_le
      unfold KAStr.byte_size at hlt ⊢
      omega
  · have hemp : ¬ d.empty = true := by
      simp only [KAStr.empty, beq_iff_eq]
      intro h0
      exact he (List.eq_nil_of_length_eq_zero h0)
    have hd0 : d.byte_size ≠ 0 := fun h0 => he (List.eq_nil_of_length_eq_zero h0)
    obtain ⟨pos1, result1, e, hp1, hinv⟩ := split_count_loop_spec s d k hs hd hsz hd0 fuel 0 0 []
      (Nat.zero_le _) (by omega) (by simp)
    refine ⟨result1 ++ [KAStr.mk ((s.data_.drop pos1).take (s.byte_size - pos1))], ?_, ?_⟩
    · unfold KAStr.split_count
      rw [if_neg hemp, e]
      simp only [hp1, if_true]
    · have ht : (s.data_.drop pos1).take (s.byte_size - pos1) = s.data_.drop pos1 := by
        apply List.take_of_length_le
        rw [List.length_drop]
        exact Nat.le_refl _
      rw [List.map_append, List.map_cons, List.map_nil, intercalate_concat, List.map_map, ht]
      simp only [Function.comp_def]
      rw [hinv, List.take_append_drop]

/-- C38: joining the pieces of `split_count(d, k)` with `d` gives back the view, for every
limit `k` and every delimiter `d`, the empty one included; so it does for `split(d)`. -/
theorem split_then_join (junk : Nat → Byte) (s d : KAStr) (k fuel : Nat) (hs : s.valid)
    (hd : d.valid) (hsz : s.byte_size < knpos) (hf : s.byte_size < fuel) :
    (∃ parts, s.split_count d k fuel = some parts ∧ (d.join junk parts).as_kastr = s) ∧
      (∃ parts, s.split d fuel = some parts ∧ (d.join junk parts).as_kastr = s) := by
  constructor
  · obtain ⟨parts, e, h⟩ := split_count_intercalate s d k fuel hs hd hsz hf
    refine ⟨parts, e, ?_⟩
    show KAStr.mk (d.join junk parts).as_kastr.data_ = s
    rw [(join_spec d junk parts).2, h]
  · obtain ⟨parts, e, h⟩ := split_count_intercalate s d knpos fuel hs hd hsz hf
    refine ⟨parts, e, ?_⟩
    show KAStr.mk (d.join junk parts).as_kastr.data_ = s
    rw [(join_spec d junk parts).2, h]

theorem split_then_join_witness :
    KAStr.split ⟨[97, 44, 98, 44, 44, 99]⟩ ⟨[44]⟩ 7 = some [⟨[97]⟩, ⟨[98]⟩, ⟨[]⟩, ⟨[99]⟩] ∧
      (∃ parts, KAStr.split_count ⟨[97, 44, 98, 44, 44, 99]⟩ ⟨[44]⟩ 2 7 = some parts ∧
        (KAStr.join ⟨[44]⟩ (fun _ => 0) parts).as_kastr = ⟨[97, 44, 98, 44, 44, 99]⟩) ∧
      (∃ parts, KAStr.split ⟨[97, 44, 98, 44, 44, 99]⟩ ⟨[44]⟩ 7 = some parts ∧
        (KAStr.join ⟨[44]⟩ (fun _ => 0) parts).as_kastr = ⟨[97, 44, 98, 44, 44, 99]⟩) :=
  ⟨by decide,
    split_then_join (fun _ => 0) ⟨[97, 44, 98, 44, 44, 99]⟩ ⟨[44]⟩ 2 7 (by decide) (by decide)
      (by decide) (by decide)⟩

/-! ## `replace_all` against `split` and `join` -/

theorem wf_foldl_set_index (v : Nat → Byte) (pos : Nat) (l : List Nat) (s : SSOBytes)
    (h : s.wf) : (l.foldl (fun t i => t.set_index (pos + i) (v i)) s).wf := by
  by_cases hs : s.is_sso = true
  · rw [foldl_set_index_inline v pos l s hs]
    refine ⟨?_, h.2⟩
    show (l.foldl (fun d i => d.set (pos + i) (v i)) s.sso_data).length = SSO_CAPACITY
    rw [length_foldl_set (fun i => pos + i) (fun _ i => v i) l s.sso_data]
    exact h.1
  · have hs0 : s.is_sso = false := by simpa using hs
    rw [foldl_set_index_heap v pos l s hs0]
    exact ⟨h.1, h.2⟩

/-- The valid case of `replace(pos, len, after)`, with the invariant of the result. -/
theorem replace_ok (s : KAString) (pos len : Nat) (after : KAStr) (h : s.data_.wf)
    (ha : after.valid) (hsz : s.byte_size < 2 ^ 64) (hp : pos < s.byte_size)
    (hle : pos + len ≤ s.byte_size) :
    ∃ s1, s.replace pos len after = .ok s1 ∧ s1.data_.wf ∧
      s1.data_.bytes = s.data_.bytes.take pos ++ after.data_ ++ s.data_.bytes.drop (pos + len) := by
  have hw : (pos + len) % 2 ^ 64 = pos + len := Nat.mod_eq_of_lt (by omega)
  have c1 : ¬ (pos ≥ s.byte_size ∨ pos + len > s.byte_size) := by omega
  by_cases hl : len = after.byte_size
  · subst hl
    refine ⟨_, ?_, ?_, replace_in_place s pos after h hle⟩
    · unfold KAString.replace
      simp only [hw, Bool.or_eq_true, decide_eq_true_eq, c1, if_false, beq_self_eq_true, if_true]
      exact replace_loop after ha pos s _ (Nat.le_refl _)
    · exact wf_foldl_set_index _ pos _ s.data_ h
  · obtain ⟨s1, e1, b1, _⟩ := erase_range_ok s.data_ pos (pos + len) h (by omega) hle
    have wf1 := wf_erase_range h e1
    have hlb : s.data_.bytes.length = s.byte_size := length_bytes h
    have hp1 : pos ≤ s1.size := by
      rw [← length_bytes wf1, b1, List.length_append, List.length_take, List.length_drop]
      omega
    obtain ⟨s2, e2, b2, _⟩ := insert_range_ok s1 pos after.data_ wf1 hp1
    refine ⟨⟨s2⟩, ?_, wf_insert_range wf1 e2, ?_⟩
    · unfold KAString.replace
      simp only [hw, Bool.or_eq_true, decide_eq_true_eq, c1, if_false, beq_iff_eq, hl, e1, e2]
    · show s2.bytes = s.data_.bytes.take pos ++ after.data_ ++ s.data_.bytes.drop (pos + len)
      have hl1 : (s.data_.bytes.take pos).length = pos := by
        rw [List.length_take]; omega
      rw [b2, b1, List.take_left' hl1, List.drop_left' hl1]

theorem kastr_op_eq (a b : KAStr) (h : a.op_eq b = true) : a.data_ = b.data_ := by
  unfold KAStr.op_eq KAStr.byte_size at h
  by_cases h1 : a.data_.length = b.data_.length
  · by_cases h0 : a.data_.length = 0
    · have ea : a.data_ = [] := List.eq_nil_of_length_eq_zero h0
      have eb : b.data_ = [] := List.eq_nil_of_length_eq_zero (by omega)
      rw [ea, eb]
    · have h0b : ¬ b.data_.length = 0 := by omega
      rw [h1] at h
      simp only [bne_self_eq_false, Bool.false_eq_true, if_false, beq_self_eq_true,
        Bool.true_and, beq_iff_eq, h0b] at h
      have hm := (memcmp_eq_zero b.data_.length a.data_ b.data_ (by omega)
        (Nat.le_refl _)).1 h
      have ta : a.data_.take b.data_.length = a.data_ := List.take_of_length_le (by omega)
      have tb : b.data_.take b.data_.length = b.data_ := List.take_of_length_le (Nat.le_refl _)
      rw [ta, tb] at hm
      exact hm
  · simp [h1] at h

theorem replace_split_loops (S before after : KAStr) (hS : S.valid) (hb : before.valid)
    (ha : after.valid) (hB : before.byte_size ≠ 0) (hn : S.byte_size < knpos) :
    ∀ fuel (t : KAString) (pos replaced opos splits : Nat) (result : List KAStr),
      t.data_.wf → opos ≤ S.byte_size → S.byte_size - opos < fuel →
      t.data_.bytes =
        (result.map (fun p => p.data_ ++ after.data_)).flatten ++ S.data_.drop opos →
      pos = ((result.map (fun p => p.data_ ++ after.data_)).flatten).length →
      replaced ≤ opos → splits ≤ opos →
      t.byte_size + (S.byte_size - opos) * after.byte_size + after.byte_size < 2 ^ 64 - 1 →
      ∃ r pos1 result1,
        KAString.replace_count_loop before after knpos true fuel t pos replaced =
          some (.ok r) ∧
        KAStr.split_count_loop S before knpos fuel opos splits result = some (pos1, result1) ∧
        pos1 ≤ S.byte_size ∧
        r.data_.bytes =
          (result1.map (fun p => p.data_ ++ after.data_)).flatten ++ S.data_.drop pos1 := by
  intro fuel
  induction fuel with
  | zero => intro _ _ _ opos _ _ _ _ h; omega
  | succ fuel ih =>
    intro t pos replaced opos splits result hwf hop hf hI1 hI2 hrep hspl hbound
    have hk : knpos = 2 ^ 64 - 1 := rfl
    have hsize : t.byte_size = pos + (S.byte_size - opos) := by
      show t.data_.size = _
      rw [← length_bytes hwf, hI1, List.length_append, ← hI2, List.length_drop]
      rfl
    have hview : t.as_kastr.subrange_from pos = ⟨S.data_.drop opos⟩ := by
      unfold KAStr.subrange_from
      rw [subrange_eq]
      show KAStr.mk (t.data_.bytes.drop pos) = _
      rw [hI1, List.drop_left' hI2.symm]
    have hsubS := subrange_eq S opos
    have hspl_lt : splits < knpos := by omega
    have hlen : (KAStr.mk (S.data_.drop opos)).byte_size = S.byte_size - opos :=
      List.length_drop _ _
    obtain ⟨f, hfdef⟩ : ∃ f, f = (KAStr.mk (S.data_.drop opos)).find before true := ⟨_, rfl⟩
    by_cases hfound : f = knpos
    · refine ⟨t, opos, result, ?_, ?_, hop, hI1⟩
      · rw [KAString.replace_count_loop]
        simp only [hview, ← hfdef, hfound, beq_self_eq_true, if_true, ite_self]
      · rw [KAStr.split_count_loop]
        simp only [hspl_lt, if_true, hsubS, ← hfdef, hfound, beq_self_eq_true]
    · have hM := find_found ⟨S.data_.drop opos⟩ before true (valid_drop hS opos) hb
        (by rw [hlen]; omega) (by rw [← hfdef]; exact hfound)
      rw [← hfdef] at hM
      obtain ⟨hM1, hM2⟩ := hM
      rw [hlen] at hM1
      simp only [if_true] at hM2
      have hcond : (pos + before.byte_size) % 2 ^ 64 ≤ t.byte_size := by
        rw [Nat.mod_eq_of_lt (by omega)]; omega
      have habs : (pos + f) % 2 ^ 64 = pos + f := Nat.mod_eq_of_lt (by omega)
      have hnext : (pos + f + after.byte_size) % 2 ^ 64 = pos + f + after.byte_size :=
        Nat.mod_eq_of_lt (by omega)
      have hmodS : (opos + (f + before.byte_size) % 2 ^ 64) % 2 ^ 64 =
          opos + f + before.byte_size := by
        rw [Nat.mod_eq_of_lt (by omega), Nat.mod_eq_of_lt (by omega)]
        omega
      obtain ⟨t1, e1, wf1, b1⟩ := replace_ok t (pos + f) before.byte_size after hwf ha
        (by omega) (by omega) (by omega)
      have hbv : ¬ (replaced + 1 ≥ knpos) := by omega
      have hfb : (f == knpos) = false := by simpa using hfound
      have hb1 : t1.data_.bytes =
          ((result ++ [KAStr.mk ((S.data_.drop opos).take f)]).map
            (fun p => p.data_ ++ after.data_)).flatten ++
          S.data_.drop (opos + f + before.byte_size) := by
        rw [b1, hI1, hI2, List.take_append, Nat.add_assoc, List.drop_append, List.map_append,
          List.flatten_append, Nat.add_assoc, drop_add_eq S.data_ opos]
        simp
      have hlt1 : ((S.data_.drop opos).take f).length = f := by
        rw [List.length_take, List.length_drop]
        unfold KAStr.byte_size at hM1
        omega
      have hsize1 : t1.byte_size = pos + f + after.byte_size +
          (S.byte_size - (opos + f + before.byte_size)) := by
        show t1.data_.size = _
        rw [← length_bytes wf1, hb1, List.length_append, List.map_append, List.flatten_append,
          List.length_append, ← hI2, List.length_drop]
        simp only [List.map_cons, List.map_nil, List.flatten_cons, List.flatten_nil,
          List.append_nil, List.length_append, hlt1]
        unfold KAStr.byte_size
        omega
      have hmul : (S.byte_size - (opos + f + before.byte_size)) * after.byte_size +
          after.byte_size ≤ (S.byte_size - opos) * after.byte_size := by
        have h1 : S.byte_size - (opos + f + before.byte_size) + 1 ≤ S.byte_size - opos := by
          omega
        have h2 := Nat.mul_le_mul_right after.byte_size h1
        rw [Nat.add_mul, Nat.one_mul] at h2
        exact h2
      obtain ⟨r, pos1, result1, er, es, hp1, hbr⟩ := ih t1 (pos + f + after.byte_size)
        (replaced + 1) (opos + f + before.byte_size) (splits + 1)
        (result ++ [KAStr.mk ((S.data_.drop opos).take f)]) wf1 (by omega) (by omega) hb1
        (by
          rw [List.map_append, List.flatten_append, List.length_append, ← hI2]
          simp only [List.map_cons, List.map_nil, List.flatten_cons, List.flatten_nil,
            List.append_nil, List.length_append, hlt1]
          unfold KAStr.byte_size
          omega)
        (by omega) (by omega) (by omega)
      refine ⟨r, pos1, result1, ?_, ?_, hp1, hbr⟩
      · rw [KAString.replace_count_loop]
        simp only [hcond, if_true, hview, ← hfdef, hfb, Bool.false_eq_true, if_false, habs, e1,
          hbv, hnext]
        exact er
      · rw [KAStr.split_count_loop]
        simp only [hspl_lt, if_true, hsubS, ← hfdef, hfb, Bool.false_eq_true, if_false, hmodS]
        exact es

/-- For views outside the string and a non-empty `before`, the case-sensitive
`replace_all(before, after)` returns normally and leaves the string equal to the pieces of
`old.split(before)` joined by `after`; for an empty `before` it leaves the string unchanged. -/
theorem replace_all_outside (junk : Nat → Byte) (s : KAString) (before after : KAStr)
    (fuel : Nat) (h : s.data_.wf) (hs : s.as_kastr.valid) (hb : before.valid)
    (ha : after.valid)
    (hsz : s.byte_size + (s.byte_size + 1) * after.byte_size < 2 ^ 64 - 1)
    (hf : s.byte_size < fuel) :
    (before.byte_size ≠ 0 →
      ∃ r parts, s.replace_all before after true fuel = some (.ok r) ∧
        s.as_kastr.split before fuel = some parts ∧
        r.as_kastr = (after.join junk parts).as_kastr) ∧
    (before.byte_size = 0 → s.replace_all before after true fuel = some (.ok s)) := by
  have hk : knpos = 2 ^ 64 - 1 := rfl
  have hlen : s.as_kastr.byte_size = s.byte_size := length_bytes h
  constructor
  · intro hB
    have hemp : ¬ before.empty = true := by
      simp only [KAStr.empty, beq_iff_eq]
      exact hB
    by_cases heq : before.op_eq after = true
    · have hd := kastr_op_eq before after heq
      obtain ⟨parts, e, hi⟩ := split_count_intercalate s.as_kastr before knpos fuel hs hb
        (by omega) (by omega)
      refine ⟨s, parts, ?_, e, ?_⟩
      · unfold KAString.replace_all KAString.replace_count
        rw [if_neg hemp]
        simp only [heq, Bool.true_or, if_true]
      · show KAStr.mk s.as_kastr.data_ = KAStr.mk (after.join junk parts).as_kastr.data_
        rw [(join_spec after junk parts).2, ← hd, hi]
    · have hne : before.op_eq after = false := by simpa using heq
      have hmul : (s.as_kastr.byte_size - 0) * after.byte_size + after.byte_size =
          (s.byte_size + 1) * after.byte_size := by
        rw [hlen, Nat.sub_zero, Nat.add_mul, Nat.one_mul]
      obtain ⟨r, pos1, result1, er, es, hp1, hbr⟩ := replace_split_loops s.as_kastr before
        after hs hb ha hB (by omega) fuel s 0 0 0 0 [] h (Nat.zero_le _) (by omega)
        (by simp [KAString.as_kastr, SSOBytes.bytes]) (by simp) (Nat.le_refl _) (Nat.le_refl _)
        (by omega)
      refine ⟨r, result1 ++ [KAStr.mk ((s.as_kastr.data_.drop pos1).take
        (s.as_kastr.byte_size - pos1))], ?_, ?_, ?_⟩
      · unfold KAString.replace_all KAString.replace_count
        rw [if_neg hemp]
        have hk0 : (knpos == 0) = false := by decide
        simp only [hne, hk0, Bool.or_self, Bool.false_eq_true, if_false]
        exact er
      · unfold KAStr.split KAStr.split_count
        rw [if_neg hemp, es]
        simp only [hp1, if_true]
      · have ht : (s.as_kastr.data_.drop pos1).take (s.as_kastr.byte_size - pos1) =
            s.as_kastr.data_.drop pos1 := by
          apply List.take_of_length_le
          rw [List.length_drop]
          exact Nat.le_refl _
        show KAStr.mk r.data_.bytes = KAStr.mk (after.join junk _).as_kastr.data_
        rw [(join_spec after junk _).2, List.map_append, List.map_cons, List.map_nil,
          intercalate_concat, List.map_map, ht, hbr]
        simp only [Function.comp_def]
  · intro hB
    have hemp : before.empty = true := by
      simp only [KAStr.empty, beq_iff_eq]
      exact hB
    unfold KAString.replace_all KAString.replace_count
    rw [if_pos hemp]

/-! ## Replacing single bytes, forwards and backwards -/

theorem put_replacement_ok (t : KAString) (r : KAStr) (pre post : List Byte) (b : Byte)
    (h : t.data_.wf) (hr : r.valid) (hb : t.data_.bytes = pre ++ b :: post) :
    ∃ t1, t.put_replacement pre.length r = .ok t1 ∧ t1.data_.wf ∧
      t1.data_.bytes = pre ++ r.data_ ++ post := by
  have hlen : t.data_.size = pre.length + 1 + post.length := by
    rw [← length_bytes h, hb, List.length_append, List.length_cons]
    omega
  have htake : t.data_.bytes.take pre.length = pre := by
    rw [hb]; exact List.take_left _ _
  have hdrop : t.data_.bytes.drop (pre.length + 1) = post := by
    rw [hb, List.drop_append 1]
    rfl
  by_cases h1 : r.byte_size = 1
  · obtain ⟨x, hx⟩ : ∃ x, r.data_ = [x] := List.length_eq_one.1 h1
    have hx256 : x < 256 := hr x (by rw [hx]; exact List.mem_singleton_self _)
    have hbip := replace_in_place t pre.length r h (by
      show pre.length + r.byte_size ≤ t.data_.size
      omega)
    have hwf := wf_foldl_set_index (fun i => r.data_.getD i 0) pre.length
      (List.range r.byte_size) t.data_ h
    have hfold : (List.range r.byte_size).foldl
        (fun t i => t.set_index (pre.length + i) (r.data_.getD i 0)) t.data_ =
        t.data_.set_index pre.length x := by
      rw [h1, hx]
      rfl
    rw [hfold] at hbip hwf
    have hop : r.op_index 0 = .ok (to_char x) := by
      simp [KAStr.op_index, KAStr.byte_at, hx]
    have hoc : of_char (to_char x) = x := of_char_to_char x hx256
    refine ⟨⟨t.data_.set_index pre.length x⟩, ?_, hwf, ?_⟩
    · unfold KAString.put_replacement
      simp only [h1, beq_self_eq_true, if_true, hop, hoc]
    · have e : (KAString.mk (t.data_.set_index pre.length x)).as_kastr.data_ =
          (t.data_.set_index pre.length x).bytes := rfl
      rw [← e, hbip]
      show t.data_.bytes.take pre.length ++ r.data_ ++
        t.data_.bytes.drop (pre.length + r.byte_size) = _
      rw [h1, htake, hdrop]
  · obtain ⟨s1, e1, b1, _⟩ := erase_range_ok t.data_ pre.length (pre.length + 1) h (by omega)
      (by omega)
    have wf1 := wf_erase_range h e1
    rw [htake, hdrop] at b1
    have hp1 : pre.length ≤ s1.size := by
      rw [← length_bytes wf1, b1, List.length_append]
      omega
    obtain ⟨s2, e2, b2, _⟩ := insert_range_ok s1 pre.length r.data_ wf1 hp1
    refine ⟨⟨s2⟩, ?_, wf_insert_range wf1 e2, ?_⟩
    · unfold KAString.put_replacement
      simp only [beq_iff_eq, h1, if_false, e1, e2]
    · show s2.bytes = _
      rw [b2, b1, List.take_left, List.drop_left]

theorem index_of_bytes (t : SSOBytes) (pre post : List Byte) (b : Byte) (h : t.wf)
    (hb : t.bytes = pre ++ b :: post) : t.index pre.length = some b := by
  have hlen : t.size = pre.length + 1 + post.length := by
    rw [← length_bytes h, hb, List.length_append, List.length_cons]
    omega
  rw [index_eq_bytes (by omega), hb, List.getElem?_append_right (Nat.le_refl _)]
  simp

theorem replace_char_if_loop_spec (pred : Int → Bool) (r : KAStr) (hr : r.valid)
    (rest : List Byte) :
    ∀ (fuel : Nat) (t : KAString) (out : List Byte) (replaced : Nat),
      t.data_.wf → t.data_.bytes = out ++ rest → rest.length < fuel →
      replaced + rest.length < knpos →
      ∃ a, KAString.replace_char_if_loop pred r knpos fuel t out.length replaced =
          some (.ok a) ∧
        a.data_.bytes =
          out ++ (rest.map (fun c => if pred (to_char c) then r.data_ else [c])).flatten := by
  induction rest with
  | nil =>
    intro fuel t out replaced h hb hf _
    cases fuel with
    | zero => simp at hf
    | succ fuel =>
      have hsz : t.data_.size = out.length := by
        rw [← length_bytes h, hb, List.append_nil]
      refine ⟨t, ?_, by simpa using hb⟩
      rw [KAString.replace_char_if_loop]
      simp only [hsz, Nat.lt_irrefl, if_false]
  | cons b rest ih =>
    intro fuel t out replaced h hb hf hrep
    cases fuel with
    | zero => simp at hf
    | succ fuel =>
      have hsz : t.data_.size = out.length + 1 + rest.length := by
        rw [← length_bytes h, hb, List.length_append, List.length_cons]
        omega
      have hlt : out.length < t.data_.size := by omega
      have hidx := index_of_bytes t.data_ out rest b h hb
      simp only [List.length_cons] at hf hrep
      by_cases hp : pred (to_char b) = true
      · obtain ⟨t1, e1, wf1, b1⟩ := put_replacement_ok t r out rest b h hr hb
        have hnext : (if (r.byte_size == 1) = true then out.length + 1
            else out.length + r.byte_size) = (out ++ r.data_).length := by
          rw [List.length_append]
          by_cases h1 : r.byte_size = 1
          · simp only [h1, beq_self_eq_true, if_true]
            unfold KAStr.byte_size at h1
            omega
          · simp only [beq_iff_eq, h1, if_false]
            rfl
        have hbv : ¬ (replaced + 1 ≥ knpos) := by omega
        obtain ⟨a, ea, ba⟩ := ih fuel t1 (out ++ r.data_) (replaced + 1) wf1 b1 (by omega)
          (by omega)
        refine ⟨a, ?_, ?_⟩
        · rw [KAString.replace_char_if_loop]
          simp only [hlt, if_true, hidx, hp, e1, hbv, if_false, hnext]
          exact ea
        · rw [ba, List.map_cons, List.flatten_cons, if_pos hp, List.append_assoc]
      · obtain ⟨a, ea, ba⟩ := ih fuel t (out ++ [b]) replaced h (by rw [hb]; simp) (by omega)
          (by omega)
        refine ⟨a, ?_, ?_⟩
        · rw [KAString.replace_char_if_loop]
          simp only [hlt, if_true, hidx, hp, Bool.false_eq_true, if_false]
          rw [List.length_append, List.length_singleton] at ea
          exact ea
        · rw [ba, List.map_cons, List.flatten_cons, if_neg hp, List.append_assoc]

theorem rreplace_char_if_loop_spec (pred : Int → Bool) (r : KAStr) (hr : r.valid)
    (pre : List Byte) :
    ∀ (fuel : Nat) (t : KAString) (out : List Byte) (replaced : Nat),
      t.data_.wf → t.data_.bytes = pre ++ out → pre.length < fuel →
      replaced + pre.length < knpos →
      ∃ a, KAString.rreplace_char_if_loop pred r knpos fuel t pre.length replaced =
          some (.ok a) ∧
        a.data_.bytes =
          (pre.map (fun c => if pred (to_char c) then r.data_ else [c])).flatten ++ out := by
  induction pre using List.reverseRecOn with
  | nil =>
    intro fuel t out replaced h hb hf _
    cases fuel with
    | zero => simp at hf
    | succ fuel =>
      refine ⟨t, ?_, by simpa using hb⟩
      rw [KAString.rreplace_char_if_loop]
      simp
  | append_singleton l b ih =>
    intro fuel t out replaced h hb hf hrep
    cases fuel with
    | zero => simp at hf
    | succ fuel =>
      rw [List.length_append, List.length_singleton] at hf hrep
      have hb2 : t.data_.bytes = l ++ b :: out := by rw [hb]; simp
      have hidx := index_of_bytes t.data_ l out b h hb2
      have hpos : l.length + 1 > 0 := by omega
      rw [List.length_append, List.length_singleton]
      by_cases hp : pred (to_char b) = true
      · obtain ⟨t1, e1, wf1, b1⟩ := put_replacement_ok t r l out b h hr hb2
        have hbv : ¬ (replaced + 1 ≥ knpos) := by omega
        obtain ⟨a, ea, ba⟩ := ih fuel t1 (r.data_ ++ out) (replaced + 1) wf1
          (by rw [b1, List.append_assoc]) (by omega) (by omega)
        refine ⟨a, ?_, ?_⟩
        · rw [KAString.rreplace_char_if_loop]
          simp only [hpos, if_true, Nat.add_sub_cancel, hidx, hp, e1, hbv, if_false]
          exact ea
        · rw [ba, List.map_append, List.flatten_append]
          simp [hp]
      · obtain ⟨a, ea, ba⟩ := ih fuel t (b :: out) replaced h hb2 (by omega) (by omega)
        refine ⟨a, ?_, ?_⟩
        · rw [KAString.rreplace_char_if_loop]
          simp only [hpos, if_true, Nat.add_sub_cancel, hidx, hp, Bool.false_eq_true, if_false]
          exact ea
        · rw [ba, List.map_append, List.flatten_append]
          simp [hp]

/-- For a view `r` outside the string and the unlimited `max_replace`, `replace_char_if(p, r)`
and `rreplace_char_if(p, r)` both return normally and leave the string equal to the
concatenation, over the original bytes in order, of `r` for a byte that satisfies `p` (called
with the byte as a `char`) and of the byte itself otherwise. -/
theorem replace_char_if_outside (s : KAString) (pred : Int → Bool) (r : KAStr) (fuel : Nat)
    (h : s.data_.wf) (hr : r.valid) (hsz : s.byte_size < knpos) (hf : s.byte_size < fuel) :
    ∃ a b, s.replace_char_if pred r knpos fuel = some (.ok a) ∧
      s.rreplace_char_if pred r knpos fuel = some (.ok b) ∧
      a.as_kastr.data_ =
        (s.as_kastr.data_.map (fun c => if pred (to_char c) then r.data_ else [c])).flatten ∧
      b.as_kastr.data_ =
        (s.as_kastr.data_.map (fun c => if pred (to_char c) then r.data_ else [c])).flatten := by
  have hlen : s.data_.bytes.length = s.byte_size := length_bytes h
  have hk0 : (knpos == 0) = false := by decide
  obtain ⟨a, ea, ba⟩ := replace_char_if_loop_spec pred r hr s.data_.bytes fuel s [] 0 h
    (by simp) (by omega) (by omega)
  obtain ⟨b, eb, bb⟩ := rreplace_char_if_loop_spec pred r hr s.data_.bytes fuel s [] 0 h
    (by simp) (by omega) (by omega)
  refine ⟨a, b, ?_, ?_, ?_, ?_⟩
  · unfold KAString.replace_char_if
    simp only [hk0, Bool.false_eq_true, if_false]
    exact ea
  · unfold KAString.rreplace_char_if
    simp only [hk0, Bool.false_eq_true, if_false]
    rw [hlen] at eb
    exact eb
  · show a.data_.bytes = _
    rw [ba]; rfl
  · show b.data_.bytes = _
    rw [bb, List.append_nil]; rfl

/-! ## Numerals -/

theorem digit_facts :
    ∀ v, v < 36 →
      KAString.digit_value (KAString.from_num_digits.getD v 0) = v ∧
      ((48 ≤ KAString.from_num_digits.getD v 0 ∧ KAString.from_num_digits.getD v 0 ≤ 57) ∨
        (97 ≤ KAString.from_num_digits.getD v 0 ∧ KAString.from_num_digits.getD v 0 ≤ 122)) ∧
      (KAString.from_num_digits.getD v 0 = 48 → v = 0) := by
  decide

theorem eval_digits_concat (base : Nat) (ds : List Byte) (d : Byte) :
    KAString.eval_digits base (ds ++ [d]) =
      KAString.eval_digits base ds * base + KAString.digit_value d := by
  unfold KAString.eval_digits
  rw [List.foldl_append]
  rfl

theorem getD_of_drop_eq {a b : List Byte} {p : Nat} (h : a.drop p = b.drop p) :
    a.getD p 0 = b.getD p 0 := by
  have h1 : (a.drop p)[0]? = (b.drop p)[0]? := by rw [h]
  rw [List.getElem?_drop, List.getElem?_drop] at h1
  simp only [Nat.add_zero] at h1
  rw [List.getD_eq_getElem?_getD, List.getD_eq_getElem?_getD, h1]

theorem from_num_loop_spec (base : Nat) (hb2 : 2 ≤ base) (hb36 : base ≤ 36) :
    ∀ k p u buf, 0 < k → k ≤ p → p ≤ List.length buf → u < base ^ k →
      ∃ q buf1, KAString.from_num_loop base p u buf = some (q, buf1) ∧ p - k ≤ q ∧ q < p ∧
        buf1.length = buf.length ∧ buf1.drop p = buf.drop p ∧
        KAString.eval_digits base ((buf1.drop q).take (p - q)) = u ∧
        (∀ d ∈ (buf1.drop q).take (p - q),
          ((48 ≤ d ∧ d ≤ 57) ∨ (97 ≤ d ∧ d ≤ 122)) ∧ KAString.digit_value d < base) ∧
        (((buf1.drop q).take (p - q)).head? = some 48 → u = 0) ∧
        (u < base → q + 1 = p) := by
  intro k
  induction k with
  | zero => intro p u buf h; omega
  | succ k ih =>
    intro p u buf _ hkp hp hu
    cases p with
    | zero => omega
    | succ p =>
      have hmod : u % base < base := Nat.mod_lt _ (by omega)
      obtain ⟨hv, hrange, hz⟩ := digit_facts (u % base) (by omega)
      have hplt : p < buf.length := by omega
      have hset_len : (buf.set p (KAString.from_num_digits.getD (u % base) 0)).length =
          buf.length := List.length_set _ _ _
      have hdm := Nat.div_add_mod u base
      by_cases hu1 : u / base > 0
      · have hk0 : 0 < k := by
          cases k with
          | zero =>
            rw [Nat.zero_add, Nat.pow_one] at hu
            have := Nat.div_eq_of_lt hu
            omega
          | succ k => omega
        have hu2 : u / base < base ^ k := by
          apply Nat.div_lt_of_lt_mul
          rw [Nat.pow_succ, Nat.mul_comm] at hu
          exact hu
        obtain ⟨q, buf1, e, hq1, hq2, hlen, hdrop, heval, hdig, hhead, _⟩ :=
          ih p (u / base) (buf.set p (KAString.from_num_digits.getD (u % base) 0)) hk0
            (by omega) (by omega) hu2
        have hget : buf1.getD p 0 = KAString.from_num_digits.getD (u % base) 0 := by
          rw [getD_of_drop_eq hdrop, List.getD_eq_getElem?_getD, List.getElem?_set_self hplt]
          rfl
        have hds : (buf1.drop q).take (p + 1 - q) =
            (buf1.drop q).take (p - q) ++ [KAString.from_num_digits.getD (u % base) 0] := by
          rw [take_drop_succ buf1 q p (by omega) (by omega), hget]
        have hne : (buf1.drop q).take (p - q) ≠ [] := by
          intro e0
          have hl := congrArg List.length e0
          rw [List.length_take, List.length_drop] at hl
          simp only [List.length_nil] at hl
          omega
        refine ⟨q, buf1, ?_, by omega, by omega, by omega, ?_, ?_, ?_, ?_, ?_⟩
        · rw [KAString.from_num_loop]
          simp only [hu1, if_true]
          exact e
        · have h1 : buf1.drop (p + 1) = (buf1.drop p).drop 1 := drop_add_eq buf1 p 1
          have h2 : buf.drop (p + 1) =
              ((buf.set p (KAString.from_num_digits.getD (u % base) 0)).drop p).drop 1 := by
            rw [← drop_add_eq, List.drop_set_of_lt _ _ (by omega)]
          rw [h1, h2, hdrop]
        · rw [hds, eval_digits_concat, heval, hv]
          rw [Nat.mul_comm] at hdm
          exact hdm
        · intro d hd
          rw [hds] at hd
          rcases List.mem_append.1 hd with hd | hd
          · exact hdig d hd
          · rw [List.mem_singleton.1 hd, hv]
            exact ⟨hrange, hmod⟩
        · intro hh
          rw [hds, List.head?_append_of_ne_nil _ hne] at hh
          have := hhead hh
          omega
        · intro hlt
          have := Nat.div_eq_of_lt hlt
          omega
      · have hu0 : u / base = 0 := Nat.eq_zero_of_not_pos hu1
        have hum : u % base = u := by
          rw [hu0, Nat.mul_zero, Nat.zero_add] at hdm
          exact hdm
        have hds : ((buf.set p (KAString.from_num_digits.getD (u % base) 0)).drop p).take
            (p + 1 - p) = [KAString.from_num_digits.getD (u % base) 0] := by
          rw [Nat.add_sub_cancel_left, List.drop_eq_getElem_cons (by rw [hset_len]; exact hplt)]
          simp
        refine ⟨p, buf.set p (KAString.from_num_digits.getD (u % base) 0), ?_, by omega,
          by omega, hset_len, ?_, ?_, ?_, ?_, fun _ => rfl⟩
        · rw [KAString.from_num_loop]
          simp only [hu1, if_false]
        · rw [List.drop_set_of_lt _ _ (by omega)]
        · rw [hds]
          show 0 * base + KAString.digit_value _ = u
          rw [hv, hum]
          omega
        · intro d hd
          rw [hds] at hd
          rw [List.mem_singleton.1 hd, hv]
          exact ⟨hrange, hmod⟩
        · intro hh
          rw [hds] at hh
          have h48 : KAString.from_num_digits.getD (u % base) 0 = 48 := by simpa using hh
          have := hz h48
          omega

theorem bytes_ctor_ptr (junk : Nat → Byte) (src : List Byte) :
    (SSOBytes.ctor_ptr (uninit junk) (some src) src.length).bytes = src := by
  have h := (init_uncheck_spec (SSOBytes.ctor_default (uninit junk)) (wf_uninit junk)
    (Nat.le_refl src.length)).2.2.1
  rw [List.take_of_length_le (Nat.le_refl _)] at h
  exact h

/-- C32: for a 32-bit `n` and a base from 2 to 36, `from_num(n, base)` returns the numeral of
`n`: a `-` exactly when `n < 0`, then at least one digit, each among `0`-`9`, `a`-`z` and below
the base, with no leading zero unless the numeral is `0`; its digits evaluated in the base, with
the sign applied, give `n`. For any other base it throws `std::invalid_argument`. -/
theorem from_num_numeral (junk junk_buf : Nat → Byte) (n base : Int)
    (hn : -2 ^ 31 ≤ n ∧ n < 2 ^ 31) :
    (2 ≤ base ∧ base ≤ 36 →
      ∃ r ds, KAString.from_num junk junk_buf n base = .ok (some r) ∧
        r.as_kastr.data_ = (if n < 0 then [45] else []) ++ ds ∧
        ds ≠ [] ∧
        (∀ d ∈ ds, ((48 ≤ d ∧ d ≤ 57) ∨ (97 ≤ d ∧ d ≤ 122)) ∧
          KAString.digit_value d < base.toNat) ∧
        (ds.head? = some 48 → ds = [48]) ∧
        (if n < 0 then -(KAString.eval_digits base.toNat ds : Int)
          else (KAString.eval_digits base.toNat ds : Int)) = n) ∧
    (base < 2 ∨ base > 36 →
      ∃ what, KAString.from_num junk junk_buf n base = .error (.invalid_argument what)) := by
  constructor
  · rintro ⟨hb2, hb36⟩
    have hb : ¬ (base < 2 ∨ base > 36) := by omega
    have hB2 : 2 ≤ base.toNat := by omega
    have hB36 : base.toNat ≤ 36 := by omega
    obtain ⟨u, hudef⟩ : ∃ u, u = if decide (n < 0) = true
        then (2 ^ 32 - (n % 2 ^ 32).toNat) % 2 ^ 32 else (n % 2 ^ 32).toNat := ⟨_, rfl⟩
    have hu : u < 2 ^ 32 ∧ (u : Int) = if n < 0 then -n else n := by
      by_cases hneg : n < 0
      · simp only [hneg, decide_True, if_true] at hudef ⊢
        omega
      · simp only [hneg, decide_False, Bool.false_eq_true, if_false] at hudef ⊢
        omega
    have hpow : u < base.toNat ^ 32 :=
      Nat.lt_of_lt_of_le hu.1 (Nat.pow_le_pow_left hB2 32)
    have hbuf : ((List.range 64).map junk_buf).length = 64 := by simp
    obtain ⟨q, buf1, e, hq1, hq2, hlen, _, heval, hdig, hhead, hsingle⟩ :=
      from_num_loop_spec base.toNat hB2 hB36 32 64 u ((List.range 64).map junk_buf)
        (by omega) (by omega) (by omega) hpow
    rw [hbuf] at hlen
    have hds : (buf1.drop q).take (64 - q) = buf1.drop q := by
      apply List.take_of_length_le
      rw [List.length_drop, hlen]
    rw [hds] at heval hdig hhead
    have hdl : (buf1.drop q).length = 64 - q := by rw [List.length_drop, hlen]
    have hne : buf1.drop q ≠ [] := by
      intro e0
      rw [e0] at hdl
      simp only [List.length_nil] at hdl
      omega
    have hlead : (buf1.drop q).head? = some 48 → buf1.drop q = [48] := by
      intro hh
      have h0 := hhead hh
      have hq := hsingle (by omega)
      have hl1 : (buf1.drop q).length = 1 := by omega
      obtain ⟨x, hx⟩ := List.length_eq_one.1 hl1
      rw [hx] at hh ⊢
      simp only [List.head?_cons, Option.some.injEq] at hh
      rw [hh]
    by_cases hneg : n < 0
    · have hq0 : ¬ q = 0 := by omega
      have hlen2 : ((buf1.set (q - 1) 45).drop (q - 1)).length = 64 - (q - 1) := by
        rw [List.length_drop, List.length_set, hlen]
      have hd2 : (buf1.set (q - 1) 45).drop (q - 1) = 45 :: buf1.drop q := by
        rw [List.drop_eq_getElem_cons (by rw [List.length_set, hlen]; omega),
          List.getElem_set_self, List.drop_set_of_lt _ _ (by omega)]
        congr 2
        omega
      refine ⟨KAString.mk (SSOBytes.ctor_ptr (uninit junk)
        (some ((buf1.set (q - 1) 45).drop (q - 1))) (64 - (q - 1))), buf1.drop q, ?_, ?_, hne,
        hdig, hlead, ?_⟩
      · unfold KAString.from_num
        rw [if_neg hb]
        have hu2 : u = (2 ^ 32 - (n % 2 ^ 32).toNat) % 2 ^ 32 := by
          rw [hudef]; simp only [hneg, decide_True, if_true]
        simp only [hneg, decide_True, if_true, ← hu2, e, hq0, if_false]
      · show (SSOBytes.ctor_ptr (uninit junk) (some ((buf1.set (q - 1) 45).drop (q - 1)))
          (64 - (q - 1))).bytes = _
        rw [← hlen2, bytes_ctor_ptr, hd2, if_pos hneg]
        rfl
      · rw [if_pos hneg, heval, hu.2, if_pos hneg]
        omega
    · refine ⟨KAString.mk (SSOBytes.ctor_ptr (uninit junk) (some (buf1.drop q)) (64 - q)),
        buf1.drop q, ?_, ?_, hne, hdig, hlead, ?_⟩
      · unfold KAString.from_num
        rw [if_neg hb]
        have hu2 : u = (n % 2 ^ 32).toNat := by
          rw [hudef]; simp only [hneg, decide_False, Bool.false_eq_true, if_false]
        simp only [hneg, decide_False, Bool.false_eq_true, if_false, ← hu2, e]
      · show (SSOBytes.ctor_ptr (uninit junk) (some (buf1.drop q)) (64 - q)).bytes = _
        rw [← hdl, bytes_ctor_ptr, if_neg hneg]
        rfl
      · rw [if_neg hneg, heval, hu.2, if_neg hneg]
  · intro hbad
    refine ⟨"KAString::fromNum(int, int), base must meet: 2 <= base <= 36, got " ++
      toString base, ?_⟩
    unfold KAString.from_num
    rw [if_pos hbad]

theorem from_num_numeral_witness :
    (match KAString.from_num (fun _ => 0) (fun _ => 0) (-255) 16 with
      | .ok (some r) => r.as_kastr.data_
      | _ => []) = [45, 102, 102] ∧
    ∃ r ds, KAString.from_num (fun _ => 0) (fun _ => 0) (-2147483648) 2 = .ok (some r) ∧
      r.as_kastr.data_ = (if (-2147483648 : Int) < 0 then [45] else []) ++ ds ∧
      ds ≠ [] ∧
      (∀ d ∈ ds, ((48 ≤ d ∧ d ≤ 57) ∨ (97 ≤ d ∧ d ≤ 122)) ∧
        KAString.digit_value d < (2 : Int).toNat) ∧
      (ds.head? = some 48 → ds = [48]) ∧
      (if (-2147483648 : Int) < 0 then -(KAString.eval_digits (2 : Int).toNat ds : Int)
        else (KAString.eval_digits (2 : Int).toNat ds : Int)) = -2147483648 :=
  ⟨by decide,
    (from_num_numeral (fun _ => 0) (fun _ => 0) (-2147483648) 2 (by decide)).1 (by decide)⟩

/-! ## Requests beyond `max_size()` -/

theorem resize_call_ok (s : SSOBytes) (n : Nat) (val : Byte) (hn : n ≤ ByteVec.max_size) :
    s.resize_call n val = .ok (s.resize n val) := by
  have hm : ¬ n > ByteVec.max_size := by omega
  unfold resize_call resize ByteVec.resize_call
  split
  · simp only [hm, if_false]
  · split
    · rfl
    · simp only [hm, if_false]

theorem resize_call_thrown (s : SSOBytes) (n : Nat) (val : Byte) (hn : ByteVec.max_size < n) :
    s.resize_call n val =
      .thrown (.length_error "vector::_M_fill_insert") s.promote_to_heap := by
  have hm : n > ByteVec.max_size := hn
  have hC : ¬ n ≤ SSO_CAPACITY := by
    have h1 : SSO_CAPACITY < ByteVec.max_size := by decide
    omega
  unfold resize_call ByteVec.resize_call
  cases hs : s.is_sso
  · simp only [Bool.not_false, if_true, hm, promote_heap hs]
  · simp only [Bool.not_true, Bool.false_eq_true, if_false, hC, hm, if_true]

theorem reserve_call_ok (s : SSOBytes) (n : Nat) (hn : n ≤ ByteVec.max_size) :
    s.reserve_call n = .ok (s.reserve n) := by
  have hm : ¬ n > ByteVec.max_size := by omega
  unfold reserve_call reserve ByteVec.reserve_call
  split
  · simp only [hm, if_false]
  · split
    · simp only [hm, if_false]
    · rfl

theorem reserve_call_thrown (s : SSOBytes) (n : Nat) (hn : ByteVec.max_size < n) :
    s.reserve_call n = .thrown (.length_error "vector::reserve") s.promote_to_heap := by
  have hm : n > ByteVec.max_size := hn
  have hC : n > SSO_CAPACITY := by
    have h1 : SSO_CAPACITY < ByteVec.max_size := by decide
    omega
  unfold reserve_call ByteVec.reserve_call
  cases hs : s.is_sso
  · simp only [Bool.not_false, if_true, hm, promote_heap hs]
  · simp only [Bool.not_true, Bool.false_eq_true, if_false, hC, hm, if_true]

/-! ## Ranges outside the object -/

theorem append_from_outside (s : SSOBytes) (l : List Byte) :
    s.append_from (.outside l) = .ok (s.append l) := by
  unfold append_from append
  simp only [Source.length, Source.within, Source.overlaps, Source.bytes, Bool.not_true,
    Bool.false_eq_true, if_false]
  split
  · rfl
  · split <;> rfl

theorem insert_range_from_outside (s : SSOBytes) (pos : Nat) (l : List Byte) :
    s.insert_range_from pos (.outside l) = s.insert_range pos l := by
  unfold insert_range_from insert_range
  simp only [Source.length, Source.within, Source.read, Bool.not_true, Bool.false_eq_true,
    if_false]

theorem replace_from_outside (s : KAString) (pos len : Nat) (after : KAStr) :
    s.replace_from pos len (.outside after.data_) = s.replace pos len after := by
  unfold KAString.replace_from KAString.replace
  simp only [Source.length, Source.within, Source.view, Source.bytes, Bool.not_true,
    Bool.false_eq_true, if_false, insert_range_from_outside, KAStr.byte_size]

theorem put_replacement_from_outside (s : KAString) (i : Nat) (r : KAStr) :
    s.put_replacement_from i (.outside r.data_) = s.put_replacement i r := by
  unfold KAString.put_replacement_from KAString.put_replacement
  simp only [Source.length, Source.within, Source.view, Source.bytes, Bool.not_true,
    Bool.false_eq_true, if_false, insert_range_from_outside, KAStr.byte_size]

theorem replace_count_loop_from_outside (before after : KAStr) (max_replace : Nat)
    (cs : Bool) (fuel : Nat) :
    ∀ (s : KAString) (pos replaced : Nat),
      KAString.replace_count_loop_from (.outside before.data_) (.outside after.data_)
          max_replace cs fuel s pos replaced =
        KAString.replace_count_loop before after max_replace cs fuel s pos replaced := by
  induction fuel with
  | zero => intro s pos replaced; rfl
  | succ fuel ih =>
    intro s pos replaced
    rw [KAString.replace_count_loop_from, KAString.replace_count_loop]
    simp only [Source.length, Source.within, Source.view, Source.bytes, Source.is_inside,
      Bool.not_true, Bool.false_eq_true, if_false, Bool.false_and, replace_from_outside,
      KAStr.byte_size, ih]

theorem replace_all_from_outside (s : KAString) (before after : KAStr) (cs : Bool)
    (fuel : Nat) :
    s.replace_all_from (.outside before.data_) (.outside after.data_) cs fuel =
      s.replace_all before after cs fuel := by
  unfold KAString.replace_all_from KAString.replace_all KAString.replace_count_from
    KAString.replace_count
  simp only [Source.within, Source.view, Source.bytes, Bool.not_true, Bool.or_self,
    Bool.false_eq_true, if_false, replace_count_loop_from_outside]

theorem replace_char_if_loop_from_outside (pred : Int → Bool) (r : KAStr) (max_replace : Nat)
    (fuel : Nat) :
    ∀ (s : KAString) (i replaced : Nat),
      KAString.replace_char_if_loop_from pred (.outside r.data_) max_replace fuel s i replaced =
        KAString.replace_char_if_loop pred r max_replace fuel s i replaced := by
  induction fuel with
  | zero => intro s i replaced; rfl
  | succ fuel ih =>
    intro s i replaced
    rw [KAString.replace_char_if_loop_from, KAString.replace_char_if_loop]
    simp only [Source.length, put_replacement_from_outside, KAStr.byte_size, ih]

theorem rreplace_char_if_loop_from_outside (pred : Int → Bool) (r : KAStr)
    (max_replace : Nat) (fuel : Nat) :
    ∀ (s : KAString) (i replaced : Nat),
      KAString.rreplace_char_if_loop_from pred (.outside r.data_) max_replace fuel s i
          replaced =
        KAString.rreplace_char_if_loop pred r max_replace fuel s i replaced := by
  induction fuel with
  | zero => intro s i replaced; rfl
  | succ fuel ih =>
    intro s i replaced
    rw [KAString.rreplace_char_if_loop_from, KAString.rreplace_char_if_loop]
    simp only [put_replacement_from_outside, ih]

theorem replace_char_if_from_outside (s : KAString) (pred : Int → Bool) (r : KAStr)
    (max_replace fuel : Nat) :
    s.replace_char_if_from pred (.outside r.data_) max_replace fuel =
      s.replace_char_if pred r max_replace fuel := by
  unfold KAString.replace_char_if_from KAString.replace_char_if
  rw [replace_char_if_loop_from_outside]

theorem rreplace_char_if_from_outside (s : KAString) (pred : Int → Bool) (r : KAStr)
    (max_replace fuel : Nat) :
    s.rreplace_char_if_from pred (.outside r.data_) max_replace fuel =
      s.rreplace_char_if pred r max_replace fuel := by
  unfold KAString.rreplace_char_if_from KAString.rreplace_char_if
  rw [rreplace_char_if_loop_from_outside]

theorem bytes_promote_to_heap (s : SSOBytes) : s.promote_to_heap.bytes = s.bytes :=
  (bytes_heap (is_sso_promote s)).trans bytes_promote

theorem size_promote_to_heap {s : SSOBytes} (h : s.wf) : s.promote_to_heap.size = s.size := by
  rw [← length_bytes (wf_promote h), bytes_promote_to_heap, length_bytes h]

/-! ## The claims on calls with every argument -/

theorem ctor_bytes_ndebug (mem : SSOBytes) (p : Option (List Byte)) (len : Nat) :
    ctor_bytes true mem p len = .done (ctor_ptr mem p len) := by
  cases p <;> rfl

theorem ctor_bytes_checked (mem : SSOBytes) (src : List Byte) (len p_len : Nat)
    (hs : strlen src = some p_len) (hl : len ≤ p_len) :
    ctor_bytes false mem (some src) len = .done (ctor_ptr mem (some src) len) := by
  have hn : ¬ len > p_len := by omega
  simp [ctor_bytes, ctor_ptr, hs, hn]

/-- C6, at the failing input: in a build that does not define `NDEBUG`, the overload
`SSOBytes(const Byte* p, size_t len)` called with a pointer to the four bytes `97, 0, 98, 0` and
`len == 3` ends in `std::abort()`: `strlen` stops at the zero byte at index 1 and the assertion
that `len` does not exceed it fails, although the source holds `len` bytes. The same overload
built with `NDEBUG`, and the overload for `const char*`, construct the buffer of size 3 with
the bytes `97, 0, 98`. -/
theorem ctor_bytes_aborts_on_zero_byte :
    3 ≤ [97, 0, 98, 0].length ∧
      ctor_bytes false (uninit (fun _ => 0)) (some [97, 0, 98, 0]) 3 = .aborted ∧
      ctor_bytes true (uninit (fun _ => 0)) (some [97, 0, 98, 0]) 3 =
        .done (ctor_ptr (uninit (fun _ => 0)) (some [97, 0, 98, 0]) 3) ∧
      (ctor_ptr (uninit (fun _ => 0)) (some [97, 0, 98, 0]) 3).size = 3 ∧
      (ctor_ptr (uninit (fun _ => 0)) (some [97, 0, 98, 0]) 3).bytes = [97, 0, 98] := by
  decide

/-- C17, as stated, fails for a size that a vector cannot have: `resize(SIZE_MAX, 0)` on the
inline buffer `abc` throws `std::length_error` out of `heap.vec.resize`, after
`promote_to_heap()` has run; the buffer is then in heap form and still holds its 3 bytes, so
`size()` is not `n`. -/
theorem resize_beyond_max_size :
    (ctor_str (uninit (fun _ => 0)) [97, 98, 99]).wf ∧
      (ctor_str (uninit (fun _ => 0)) [97, 98, 99]).resize_call (2 ^ 64 - 1) 0 =
        .thrown (.length_error "vector::_M_fill_insert") (ctor_str (uninit (fun _ => 0)) [97, 98, 99]).promote_to_heap ∧
      (ctor_str (uninit (fun _ => 0)) [97, 98, 99]).promote_to_heap.size = 3 ∧ (ctor_str (uninit (fun _ => 0)) [97, 98, 99]).promote_to_heap.bytes = [97, 98, 99] ∧
      (ctor_str (uninit (fun _ => 0)) [97, 98, 99]).promote_to_heap.is_sso = false := by
  decide

/-- C17, amended: for `n ≤ max_size()` of the vector (`2^63 - 1`), `resize(n, fill)` returns
normally and the bytes are then the first `n` old bytes followed by `n - |old|` copies of
`fill`: `size() == n`, every index below `min(n, |old|)` holds the old byte, every index in
`[|old|, n)` holds `fill`, and the buffer is inline if and only if it was inline and
`n ≤ SSO_CAPACITY`; for a larger `n` the call throws `std::length_error` and leaves the bytes
and the size as they were, the buffer being in heap form. -/
theorem resize_resizes (s : SSOBytes) (n : Nat) (val : Byte) (h : s.wf) :
    (n ≤ ByteVec.max_size →
      ∃ s1, s.resize_call n val = .ok s1 ∧
        s1.bytes = s.bytes.take n ++ List.replicate (n - s.size) val ∧
        s1.size = n ∧
        (∀ i, i < min n s.size → s1.bytes[i]? = s.bytes[i]?) ∧
        (∀ i, s.size ≤ i → i < n → s1.bytes[i]? = some val) ∧
        (s1.is_sso = true ↔ (s.is_sso = true ∧ n ≤ SSO_CAPACITY))) ∧
      (ByteVec.max_size < n →
        ∃ what s1, s.resize_call n val = .thrown (.length_error what) s1 ∧
          s1.bytes = s.bytes ∧ s1.size = s.size ∧ s1.is_sso = false) := by
  constructor
  · intro hn
    exact ⟨_, resize_call_ok s n val hn, resize_bytes s n val h⟩
  · intro hn
    exact ⟨_, _, resize_call_thrown s n val hn, bytes_promote_to_heap s,
      size_promote_to_heap h, is_sso_promote s⟩

theorem resize_resizes_witness :
    (ctor_str (uninit (fun _ => 0)) [97, 98, 99]).wf ∧ 5 ≤ ByteVec.max_size ∧
      ∃ s1, (ctor_str (uninit (fun _ => 0)) [97, 98, 99]).resize_call 5 122 = .ok s1 ∧ s1.bytes = [97, 98, 99, 122, 122] := by
  refine ⟨by decide, by decide, ?_⟩
  obtain ⟨s1, e, hb, _⟩ := (resize_resizes (ctor_str (uninit (fun _ => 0)) [97, 98, 99]) 5 122 (by decide)).1 (by decide)
  exact ⟨s1, e, hb.trans (by decide)⟩

/-- C18, as stated, fails for a capacity that a vector cannot have: `reserve(2^63)` on the
inline buffer `abc` throws `std::length_error` out of `heap.vec.reserve`, after
`promote_to_heap()` has run; the buffer is then in heap form with `capacity() == 3`, which is
not at least `n`. -/
theorem reserve_beyond_max_size :
    (ctor_str (uninit (fun _ => 0)) [97, 98, 99]).wf ∧
      (ctor_str (uninit (fun _ => 0)) [97, 98, 99]).reserve_call (2 ^ 63) =
        .thrown (.length_error "vector::reserve") (ctor_str (uninit (fun _ => 0)) [97, 98, 99]).promote_to_heap ∧
      (ctor_str (uninit (fun _ => 0)) [97, 98, 99]).promote_to_heap.capacity = 3 ∧ (ctor_str (uninit (fun _ => 0)) [97, 98, 99]).promote_to_heap.bytes = [97, 98, 99] ∧
      (ctor_str (uninit (fun _ => 0)) [97, 98, 99]).promote_to_heap.is_sso = false := by
  decide

/-- C18, amended: for `n ≤ max_size()` of the vector (`2^63 - 1`), `reserve(n)` returns normally
with `capacity() ≥ n` while `size()` and the bytes are unchanged, and the buffer is then in heap
form if and only if it was in heap form already or `n > SSO_CAPACITY`; for a larger `n` the
call throws `std::length_error` and leaves the bytes and the size as they were, the buffer
being in heap form. (The capacity of the vector follows the model of `std::vector::reserve`.) -/
theorem reserve_reserves (s : SSOBytes) (n : Nat) (h : s.wf) :
    (n ≤ ByteVec.max_size →
      ∃ s1, s.reserve_call n = .ok s1 ∧ n ≤ s1.capacity ∧ s1.size = s.size ∧
        s1.bytes = s.bytes ∧
        (s1.is_sso = false ↔ (s.is_sso = false ∨ SSO_CAPACITY < n))) ∧
      (ByteVec.max_size < n →
        ∃ what s1, s.reserve_call n = .thrown (.length_error what) s1 ∧
          s1.bytes = s.bytes ∧ s1.size = s.size ∧ s1.is_sso = false) := by
  constructor
  · intro hn
    exact ⟨_, reserve_call_ok s n hn, reserve_keeps s n h⟩
  · intro hn
    exact ⟨_, _, reserve_call_thrown s n hn, bytes_promote_to_heap s,
      size_promote_to_heap h, is_sso_promote s⟩

theorem reserve_reserves_witness :
    (ctor_str (uninit (fun _ => 0)) [97, 98, 99]).wf ∧ 34 ≤ ByteVec.max_size ∧
      ∃ s1, (ctor_str (uninit (fun _ => 0)) [97, 98, 99]).reserve_call 34 = .ok s1 ∧ 34 ≤ s1.capacity ∧ s1.bytes = [97, 98, 99] ∧
        s1.is_sso = false := by
  refine ⟨by decide, by decide, ?_⟩
  obtain ⟨s1, e, hc, _, hb, hf⟩ := (reserve_reserves (ctor_str (uninit (fun _ => 0)) [97, 98, 99]) 34 (by decide)).1 (by decide)
  exact ⟨s1, e, hc, hb.trans (by decide), hf.2 (Or.inr (by decide))⟩

/-- C11, as stated, fails for a source that lies in the buffer itself: on an inline buffer of 20
bytes, `append(data(), 20)` (the source is the 20 bytes of the buffer) does not fit inline, and
`promote_to_heap()` puts the vector into the storage of the inline array before
`heap.vec.insert` reads the source from it: what is appended is not the 20 old bytes, and the
call has no defined result. -/
theorem append_own_bytes :
    (ctor_str (uninit (fun _ => 0)) (List.replicate 20 97)).wf ∧
      (ctor_str (uninit (fun _ => 0)) (List.replicate 20 97)).is_sso = true ∧
      (Source.inside 0 20).bytes (ctor_str (uninit (fun _ => 0)) (List.replicate 20 97)).data =
        (ctor_str (uninit (fun _ => 0)) (List.replicate 20 97)).bytes ∧
      (ctor_str (uninit (fun _ => 0)) (List.replicate 20 97)).append_from (.inside 0 20) =
        .undefined := by
  decide

/-- C11, amended: `append` of a source of `len` bytes that lies outside the storage of the
buffer returns normally and leaves the bytes `old ++ src`, so `size()` grows by `len`; the
buffer is inline afterwards if and only if it was inline and `|old| + len ≤ SSO_CAPACITY`;
appending zero bytes, from any source, changes nothing. -/
theorem append_appends (s : SSOBytes) (src : List Byte) (h : s.wf) :
    (∃ s1, s.append_from (.outside src) = .ok s1 ∧
      s1.bytes = s.bytes ++ src ∧
      s1.size = s.size + src.length ∧
      (s1.is_sso = true ↔ (s.is_sso = true ∧ s.size + src.length ≤ SSO_CAPACITY))) ∧
      (∀ from_ : Source, from_.length = 0 → s.append_from from_ = .ok s) := by
  obtain ⟨hb, hz, hf, _⟩ := append_outside s src h
  refine ⟨⟨_, append_from_outside s src, hb, hz, hf⟩, ?_⟩
  intro from_ h0
  simp [append_from, h0]

theorem append_appends_witness :
    (ctor_str (uninit (fun _ => 0)) (List.replicate 24 97)).wf ∧
      ∃ s1, (ctor_str (uninit (fun _ => 0)) (List.replicate 24 97)).append_from
          (.outside [98]) = .ok s1 ∧
        s1.bytes = List.replicate 24 97 ++ [98] ∧ s1.is_sso = false := by
  refine ⟨by decide, ?_⟩
  obtain ⟨s1, e, hb, _, hf⟩ :=
    (append_appends (ctor_str (uninit (fun _ => 0)) (List.replicate 24 97)) [98]
      (by decide)).1
  refine ⟨s1, e, hb.trans (by decide), ?_⟩
  cases hs : s1.is_sso
  · rfl
  · exact absurd (hf.1 hs).2 (by decide)

/-- C12, as stated, fails for a range that lies in the buffer itself: on the inline buffer
`abcd`, `insert(0, data() + 2, data() + 4)` (the range reads `cd`) leaves `ababcd` and not
`cdabcd`: the loop that shifts the tail right overwrites the range before the loop that copies
reads it. -/
theorem insert_own_bytes :
    (ctor_str (uninit (fun _ => 0)) [97, 98, 99, 100]).wf ∧
      0 ≤ (ctor_str (uninit (fun _ => 0)) [97, 98, 99, 100]).size ∧
      (Source.inside 2 2).bytes (ctor_str (uninit (fun _ => 0)) [97, 98, 99, 100]).data =
        [99, 100] ∧
      (match (ctor_str (uninit (fun _ => 0)) [97, 98, 99, 100]).insert_range_from 0
          (.inside 2 2) with
        | .ok s1 => s1.bytes
        | _ => []) = [97, 98, 97, 98, 99, 100] := by
  decide

/-- C12, amended: for `pos ≤ size()`, `insert` of a byte, or of a byte range `ins` that lies
outside the storage of the buffer, returns normally and leaves the bytes
`old[0..pos) ++ ins ++ old[pos..)`, with `size() == |old| + |ins|`; the buffer is inline
afterwards if and only if it was inline and `|old| + |ins| ≤ SSO_CAPACITY`. -/
theorem insert_inserts (s : SSOBytes) (pos : Nat) (h : s.wf) (hp : pos ≤ s.size) :
    (∀ byte, ∃ s1, s.insert pos byte = .ok s1 ∧
        s1.bytes = s.bytes.take pos ++ [byte] ++ s.bytes.drop pos ∧
        s1.size = s.size + 1 ∧
        (s1.is_sso = true ↔ (s.is_sso = true ∧ s.size + 1 ≤ SSO_CAPACITY))) ∧
      (∀ ins, ∃ s1, s.insert_range_from pos (.outside ins) = .ok s1 ∧
        s1.bytes = s.bytes.take pos ++ ins ++ s.bytes.drop pos ∧
        s1.size = s.size + ins.length ∧
        (s1.is_sso = true ↔ (s.is_sso = true ∧ s.size + ins.length ≤ SSO_CAPACITY))) := by
  obtain ⟨h1, h2⟩ := insert_outside s pos h hp
  refine ⟨h1, fun ins => ?_⟩
  rw [insert_range_from_outside]
  exact h2 ins

theorem insert_inserts_witness :
    (ctor_str (uninit (fun _ => 0)) [97, 98]).wf ∧
      1 ≤ (ctor_str (uninit (fun _ => 0)) [97, 98]).size ∧
      ∃ s1, (ctor_str (uninit (fun _ => 0)) [97, 98]).insert_range_from 1
          (.outside [49, 50, 51]) = .ok s1 ∧
        s1.bytes = [97, 49, 50, 51, 98] := by
  refine ⟨by decide, by decide, ?_⟩
  obtain ⟨s1, e, hb, _⟩ :=
    (insert_inserts (ctor_str (uninit (fun _ => 0)) [97, 98]) 1 (by decide) (by decide)).2
      [49, 50, 51]
  exact ⟨s1, e, hb.trans (by decide)⟩

/-- C29, as stated, fails for a view of the string's own bytes: on `hello`,
`replace(0, 1, s.substr(3, 2))` (the view reads `lo`) leaves `llello` and not `loello`: the
bytes under the view are moved by `erase` and by the shifting loop of `insert` before they are
copied. -/
theorem replace_own_bytes :
    (KAString.ctor_str (fun _ => 0) [104, 101, 108, 108, 111]).data_.wf ∧
      ((Source.inside 3 2).view
        (KAString.ctor_str (fun _ => 0) [104, 101, 108, 108, 111]).data).data_ = [108, 111] ∧
      (match (KAString.ctor_str (fun _ => 0) [104, 101, 108, 108, 111]).replace_from 0 1
          (.inside 3 2) with
        | .ok s1 => s1.as_kastr.data_
        | _ => []) = [108, 108, 101, 108, 108, 111] := by
  decide

/-- C29, amended: `replace(pos, len, after)` on a string `s`, for a view `after` of memory
outside the storage of `s`: when `pos < |s|` and `pos + len ≤ |s|` the call returns and the
string then reads `old[0..pos) ++ after ++ old[pos+len..)`, on the path that overwrites in
place as on the path that erases and inserts; in every other case it throws
`std::out_of_range` and leaves the string as it was. -/
theorem replace_replaces (s : KAString) (pos len : Nat) (after : KAStr) (h : s.data_.wf)
    (ha : after.valid) (hpos : pos < 2 ^ 64) (hlen : len < 2 ^ 64)
    (hsz : s.byte_size + after.byte_size < 2 ^ 64) :
    (pos < s.byte_size ∧ pos + len ≤ s.byte_size →
      ∃ s1, s.replace_from pos len (.outside after.data_) = .ok s1 ∧
        s1.as_kastr.data_ =
          s.as_kastr.data_.take pos ++ after.data_ ++ s.as_kastr.data_.drop (pos + len)) ∧
    (¬ (pos < s.byte_size ∧ pos + len ≤ s.byte_size) →
      ∃ what, s.replace_from pos len (.outside after.data_) =
        .thrown (.out_of_range what) s) := by
  rw [replace_from_outside]
  exact replace_outside s pos len after h ha hpos hlen hsz

theorem replace_replaces_witness :
    ∃ s1, (KAString.ctor_str (fun _ => 0) [104, 101, 108, 108, 111]).replace_from 1 2
        (.outside [65, 66, 67, 68, 69]) = .ok s1 ∧
      s1.as_kastr.data_ =
        (KAString.ctor_str (fun _ => 0) [104, 101, 108, 108, 111]).as_kastr.data_.take 1 ++
          [65, 66, 67, 68, 69] ++
          (KAString.ctor_str (fun _ => 0) [104, 101, 108, 108, 111]).as_kastr.data_.drop (1 + 2) :=
  (replace_replaces (KAString.ctor_str (fun _ => 0) [104, 101, 108, 108, 111]) 1 2
    ⟨[65, 66, 67, 68, 69]⟩ (by decide) (by decide) (by decide) (by decide) (by decide)).1
    ⟨by decide, by decide⟩

/-- C39, as stated, fails for a view of the string's own bytes. On `-ab`, `replace_all` of `-`
by `s.substr(1, 2)` (the view reads `ab`) leaves `baab`, where `after.join(old.split(before))`
is `abab`: the bytes under `after` are moved before they are copied. On `aba`, `replace_all` of
`s.substr(0, 1)` (the view reads `a`) by `xy` leaves `xyba`, where the join is `xybxy`: after
the first replacement the view `before` reads `x`. -/
theorem replace_all_own_bytes :
    ((Source.inside 1 2).view (KAString.ctor_str (fun _ => 0) [45, 97, 98]).data).data_ =
        [97, 98] ∧
      (match (KAString.ctor_str (fun _ => 0) [45, 97, 98]).replace_all_from (.outside [45])
          (.inside 1 2) true 4 with
        | some (.ok r) => r.as_kastr.data_
        | _ => []) = [98, 97, 97, 98] ∧
      (match (KAString.ctor_str (fun _ => 0) [45, 97, 98]).as_kastr.split ⟨[45]⟩ 4 with
        | some parts => (KAStr.join ⟨[97, 98]⟩ (fun _ => 0) parts).as_kastr.data_
        | none => []) = [97, 98, 97, 98] ∧
      ((Source.inside 0 1).view (KAString.ctor_str (fun _ => 0) [97, 98, 97]).data).data_ =
        [97] ∧
      (match (KAString.ctor_str (fun _ => 0) [97, 98, 97]).replace_all_from (.inside 0 1)
          (.outside [120, 121]) true 4 with
        | some (.ok r) => r.as_kastr.data_
        | _ => []) = [120, 121, 98, 97] ∧
      (match (KAString.ctor_str (fun _ => 0) [97, 98, 97]).as_kastr.split ⟨[97]⟩ 4 with
        | some parts => (KAStr.join ⟨[120, 121]⟩ (fun _ => 0) parts).as_kastr.data_
        | none => []) = [120, 121, 98, 120, 121] := by
  decide

/-- C39, amended: for views `before` and `after` of memory outside the storage of the string
and a non-empty `before`, the case-sensitive `replace_all(before, after)` returns normally and
leaves the string equal to the pieces of `old.split(before)` joined by `after`; for an empty
`before` it leaves the string unchanged. -/
theorem replace_all_is_split_join (junk : Nat → Byte) (s : KAString) (before after : KAStr)
    (fuel : Nat) (h : s.data_.wf) (hs : s.as_kastr.valid) (hb : before.valid)
    (ha : after.valid)
    (hsz : s.byte_size + (s.byte_size + 1) * after.byte_size < 2 ^ 64 - 1)
    (hf : s.byte_size < fuel) :
    (before.byte_size ≠ 0 →
      ∃ r parts, s.replace_all_from (.outside before.data_) (.outside after.data_) true fuel =
          some (.ok r) ∧
        s.as_kastr.split before fuel = some parts ∧
        r.as_kastr = (after.join junk parts).as_kastr) ∧
    (before.byte_size = 0 →
      s.replace_all_from (.outside before.data_) (.outside after.data_) true fuel =
        some (.ok s)) := by
  rw [replace_all_from_outside]
  exact replace_all_outside junk s before after fuel h hs hb ha hsz hf

theorem replace_all_is_split_join_witness :
    (match KAString.replace_all_from (KAString.ctor_str (fun _ => 0) [97, 97, 97, 98, 97, 97])
        (.outside [97, 97]) (.outside [97]) true 7 with
      | some (.ok r) => r.as_kastr.data_
      | _ => []) = [97, 97, 98, 97] ∧
      ∃ r parts,
        KAString.replace_all_from (KAString.ctor_str (fun _ => 0) [97, 97, 97, 98, 97, 97])
          (.outside [97, 97]) (.outside [97]) true 7 = some (.ok r) ∧
        (KAString.ctor_str (fun _ => 0) [97, 97, 97, 98, 97, 97]).as_kastr.split ⟨[97, 97]⟩ 7 =
          some parts ∧
        r.as_kastr = (KAStr.join ⟨[97]⟩ (fun _ => 0) parts).as_kastr :=
  ⟨by decide,
    (replace_all_is_split_join (fun _ => 0)
      (KAString.ctor_str (fun _ => 0) [97, 97, 97, 98, 97, 97]) ⟨[97, 97]⟩ ⟨[97]⟩ 7
      (by decide) (by decide) (by decide) (by decide) (by decide) (by decide)).1 (by decide)⟩

/-- C40, as stated, fails for a replacement that is a view of the string's own bytes: on `-ab`
with the predicate `c == '-'` and `r = s.substr(1, 2)` (the view reads `ab`),
`replace_char_if(p, r)` and `rreplace_char_if(p, r)` both leave `baab` and not `abab`: the bytes
under `r` are moved before they are copied. -/
theorem replace_char_if_own_bytes :
    ((Source.inside 1 2).view (KAString.ctor_str (fun _ => 0) [45, 97, 98]).data).data_ =
        [97, 98] ∧
      (match (KAString.ctor_str (fun _ => 0) [45, 97, 98]).replace_char_if_from
          (fun c => c == 45) (.inside 1 2) knpos 4 with
        | some (.ok r) => r.as_kastr.data_
        | _ => []) = [98, 97, 97, 98] ∧
      (match (KAString.ctor_str (fun _ => 0) [45, 97, 98]).rreplace_char_if_from
          (fun c => c == 45) (.inside 1 2) knpos 4 with
        | some (.ok r) => r.as_kastr.data_
        | _ => []) = [98, 97, 97, 98] ∧
      (([45, 97, 98] : List Byte).map
        (fun c => if (fun c => c == 45) (to_char c) then [97, 98] else [c])).flatten =
        [97, 98, 97, 98] := by
  decide

/-- C40, amended: for a replacement `r` that is a view of memory outside the storage of the
string, with the unlimited `max_replace`, `replace_char_if(p, r)` and `rreplace_char_if(p, r)`
both return normally and leave the string equal to the concatenation, over the original bytes
in order, of `r` for a byte that satisfies `p` (called with the byte as a `char`) and of the
byte itself otherwise. -/
theorem replace_char_if_agree (s : KAString) (pred : Int → Bool) (r : KAStr) (fuel : Nat)
    (h : s.data_.wf) (hr : r.valid) (hsz : s.byte_size < knpos) (hf : s.byte_size < fuel) :
    ∃ a b, s.replace_char_if_from pred (.outside r.data_) knpos fuel = some (.ok a) ∧
      s.rreplace_char_if_from pred (.outside r.data_) knpos fuel = some (.ok b) ∧
      a.as_kastr.data_ =
        (s.as_kastr.data_.map (fun c => if pred (to_char c) then r.data_ else [c])).flatten ∧
      b.as_kastr.data_ =
        (s.as_kastr.data_.map (fun c => if pred (to_char c) then r.data_ else [c])).flatten := by
  rw [replace_char_if_from_outside, rreplace_char_if_from_outside]
  exact replace_char_if_outside s pred r fuel h hr hsz hf

theorem replace_char_if_agree_witness :
    (match KAString.rreplace_char_if_from (KAString.ctor_str (fun _ => 0) [97, 45, 98, 45, 45])
        (fun c => c == 45) (.outside [45, 45]) knpos 6 with
      | some (.ok r) => r.as_kastr.data_
      | _ => []) = [97, 45, 45, 98, 45, 45, 45, 45] ∧
    ∃ a b, KAString.replace_char_if_from (KAString.ctor_str (fun _ => 0) [97, 45, 98, 45, 45])
        (fun c => c == 45) (.outside [45, 45]) knpos 6 = some (.ok a) ∧
      KAString.rreplace_char_if_from (KAString.ctor_str (fun _ => 0) [97, 45, 98, 45, 45])
        (fun c => c == 45) (.outside [45, 45]) knpos 6 = some (.ok b) ∧
      a.as_kastr.data_ =
        ((KAString.ctor_str (fun _ => 0) [97, 45, 98, 45, 45]).as_kastr.data_.map
          (fun c => if (fun c => c == 45) (to_char c) then [45, 45] else [c])).flatten ∧
      b.as_kastr.data_ =
        ((KAString.ctor_str (fun _ => 0) [97, 45, 98, 45, 45]).as_kastr.data_.map
          (fun c => if (fun c => c == 45) (to_char c) then [45, 45] else [c])).flatten :=
  ⟨by decide,
    replace_char_if_agree (KAString.ctor_str (fun _ => 0) [97, 45, 98, 45, 45])
      (fun c => c == 45) ⟨[45, 45]⟩ 6 (by decide) (by decide) (by decide) (by decide)⟩

end kastring
